import Mathlib

/-!
Verification development for the `subway` skip list (src/src/skiplist.rs).

The Rust code builds a multi-level linked structure out of
`Rc<RefCell<Node<K, V>>>` cells.  We embed it shallowly as an arena of
node records addressed by `Nat` indices (a node's index is its creation
order, mirroring `Rc::new` allocation).  Strong references in the source
(`Level.head`, `Node.right`, `Node.down`) are `Option Nat` fields holding
the index of the target; weak references (`Node.left`, `Node.up`) are
also `Option Nat` fields, and `Weak::upgrade` is modelled by `upgradeW`:
the upgrade succeeds exactly when the target is still strongly reachable
from some level head through `right`/`down` edges, which coincides with
`Rc` strong-count liveness because nodes are dropped as soon as the last
strong reference (head / right / down of a live node, or a temporary of
the running operation) disappears, and the strong edges never form a
cycle.  Temporaries held by an operation never affect the upgrades the
operation performs (checked against each call site), so heap
reachability is the right notion at every upgrade point.

Every loop of the source walks `right` chains; the embedding gives such
walks `nodes.length + 1` fuel and reports exhaustion as `Panic.fuelOut`
(the corresponding Rust behaviour would be an infinite loop).  Rust
panics are explicit results: `Panic.unwrapNone` for `Option::unwrap` on
`None`, `Panic.indexOob` for a `Vec` index out of bounds,
`Panic.underflow` for `usize` subtraction below zero (debug-profile
panic), `Panic.borrowErr` for a `RefCell` double borrow.

The `lvl` field of a node is verification ghost data recording the level
a node was created in; no operation reads it.
-/

namespace Subway

set_option linter.unusedSectionVars false

/-- The panic/divergence outcomes a Rust operation can have. -/
inductive Panic where
  | unwrapNone
  | indexOob
  | underflow
  | borrowErr
  | fuelOut
deriving Repr, DecidableEq

/-- `Node<K, V>` from skiplist.rs lines 13-20.  `right`/`down` are strong
`Link`s, `left`/`up` are `WeakLink`s.  `lvl` is ghost data (the level the
node was created in). -/
structure NodeR (K V : Type) where
  key : K
  value : V
  right : Option Nat := none
  down : Option Nat := none
  left : Option Nat := none
  up : Option Nat := none
  lvl : Nat := 0
deriving Repr, DecidableEq

/-- `Level<K, V>` from skiplist.rs lines 43-46 (its `head` link, by index). -/
structure LevelR where
  size : Nat := 0
  head : Option Nat := none
deriving Repr, DecidableEq

/-- `SkipList<K, V>` from skiplist.rs lines 242-245, plus the arena of all
nodes ever allocated. -/
structure SL (K V : Type) where
  size : Nat
  levels : List LevelR
  nodes : List (NodeR K V)
deriving Repr, DecidableEq

/-- Computations that can end in a Rust panic. -/
abbrev PM (α : Type) := Except Panic α

instance {ε α : Type} [DecidableEq ε] [DecidableEq α] : DecidableEq (Except ε α) := fun x y =>
  match x, y with
  | .ok a, .ok b =>
    if h : a = b then isTrue (by rw [h]) else isFalse (by intro hh; cases hh; exact h rfl)
  | .ok _, .error _ => isFalse (by intro hh; cases hh)
  | .error _, .ok _ => isFalse (by intro hh; cases hh)
  | .error e, .error f =>
    if h : e = f then isTrue (by rw [h]) else isFalse (by intro hh; cases hh; exact h rfl)

variable {K V : Type}

/-- Dereference an arena index (an `Rc` deref; cannot fail in Rust, and the
invariant proofs show it never fails on reachable states). -/
def getNode (s : SL K V) (i : Nat) : PM (NodeR K V) :=
  match s.nodes[i]? with
  | some n => .ok n
  | none => .error .indexOob

/-- `self.levels[j]` (a `Vec` index, which panics when out of bounds). -/
def getLevel (s : SL K V) (j : Nat) : PM LevelR :=
  match s.levels[j]? with
  | some l => .ok l
  | none => .error .indexOob

/-- Write a level record in place (no-op on an invalid index, which the
invariants rule out at every call site). -/
def setLevel (s : SL K V) (j : Nat) (f : LevelR → LevelR) : SL K V :=
  match s.levels[j]? with
  | some l => { s with levels := s.levels.set j (f l) }
  | none => s

/-- Allocate a fresh node (`Rc::new(RefCell::new(Node::new(..)))`); the new
index is the old arena length. -/
def pushNode (s : SL K V) (n : NodeR K V) : SL K V × Nat :=
  ({ s with nodes := s.nodes ++ [n] }, s.nodes.length)

/-- Assign `node.right`. -/
def setRight (s : SL K V) (i : Nat) (r : Option Nat) : SL K V :=
  match s.nodes[i]? with
  | some n => { s with nodes := s.nodes.set i { n with right := r } }
  | none => s

/-- Assign `node.left`. -/
def setLeft (s : SL K V) (i : Nat) (r : Option Nat) : SL K V :=
  match s.nodes[i]? with
  | some n => { s with nodes := s.nodes.set i { n with left := r } }
  | none => s

/-- Assign `node.down`. -/
def setDown (s : SL K V) (i : Nat) (r : Option Nat) : SL K V :=
  match s.nodes[i]? with
  | some n => { s with nodes := s.nodes.set i { n with down := r } }
  | none => s

/-- Assign `node.up`. -/
def setUp (s : SL K V) (i : Nat) (r : Option Nat) : SL K V :=
  match s.nodes[i]? with
  | some n => { s with nodes := s.nodes.set i { n with up := r } }
  | none => s

/-- The strong successors of a node: its `right` and `down` targets. -/
def strongNext (s : SL K V) (i : Nat) : List Nat :=
  match s.nodes[i]? with
  | some n => n.right.toList ++ n.down.toList
  | none => []

/-- One closure step of strong reachability. -/
def aliveStep (s : SL K V) (cur : List Nat) : List Nat :=
  (cur ++ cur.flatMap (strongNext s)).dedup

/-- The indices of the nodes that are still alive: everything strongly
reachable from a level head via `right`/`down`.  The closure stabilises
within `nodes.length` steps. -/
def aliveIds (s : SL K V) : List Nat :=
  (aliveStep s)^[s.nodes.length] (s.levels.filterMap LevelR.head)

/-- `Weak::upgrade` on a weak link: succeeds iff the target still has a
strong reference keeping it alive. -/
def upgradeW (s : SL K V) (o : Option Nat) : Option Nat :=
  match o with
  | some i => if i ∈ aliveIds s then some i else none
  | none => none

/-- Fuel large enough to finish any acyclic walk of the arena. -/
def fuelOf (s : SL K V) : Nat :=
  s.nodes.length + 1

/-- The list of indices visited when walking `right` links from `h` (the
`Iter` of skiplist.rs lines 224-240, reified as a list).  `none` reports
fuel exhaustion or a dangling index. -/
def chainFrom (a : List (NodeR K V)) : Nat → Option Nat → Option (List Nat)
  | _, none => some []
  | 0, some _ => none
  | fuel + 1, some i =>
    match a[i]? with
    | none => none
    | some n => (chainFrom a fuel n.right).map (fun l => i :: l)

/-- The full chain of level `j` (walk from its head). -/
def chainOf (s : SL K V) (j : Nat) : Option (List Nat) :=
  match s.levels[j]? with
  | some lv => chainFrom s.nodes (fuelOf s) lv.head
  | none => none

variable [LinearOrder K]

/-- The forward scan of `Level::insert` (skiplist.rs lines 124-137): walk
from the head while the node key compares `Less` or `Equal` to the new key
(`node.key ≤ key`), remembering the last such node; stop at the first
node comparing `Greater`.  Returns the remembered predecessor. -/
def insScan (a : List (NodeR K V)) (k : K) : Nat → Option Nat → Option Nat → PM (Option Nat)
  | _, none, acc => .ok acc
  | 0, some _, _ => .error .fuelOut
  | fuel + 1, some i, acc =>
    match a[i]? with
    | none => .error .indexOob
    | some n => if n.key ≤ k then insScan a k fuel n.right (some i) else .ok acc

/-- `Level::insert` (skiplist.rs lines 123-176) on level `j`: scan for the
last node with key `≤ k`, then splice a fresh node after it (or in front,
becoming the new head).  Returns the new state and the fresh node's index
(the `Rc` the Rust function returns). -/
def levelInsert (s : SL K V) (j : Nat) (k : K) (v : V) : PM (SL K V × Nat) := do
  let lv ← getLevel s j
  let prevQ ← insScan s.nodes k (fuelOf s) lv.head none
  match prevQ with
  | none =>
    match lv.head with
    | some oldHead =>
      -- insert at head, level non-empty (lines 143-148):
      -- new.right := old head; head := new; old head.left := new (weak)
      let nw : NodeR K V := { key := k, value := v, right := some oldHead, lvl := j }
      let s1n := pushNode s nw
      let s2 := setLevel s1n.1 j (fun l => { l with head := some s1n.2, size := l.size + 1 })
      let s3 := setLeft s2 oldHead (some s1n.2)
      pure (s3, s1n.2)
    | none =>
      -- insert into empty level (lines 149-151)
      let nw : NodeR K V := { key := k, value := v, lvl := j }
      let s1n := pushNode s nw
      let s2 := setLevel s1n.1 j (fun l => { l with head := some s1n.2, size := l.size + 1 })
      pure (s2, s1n.2)
  | some p => do
    let pn ← getNode s p
    match pn.right with
    | some nxt =>
      -- insert in the middle (lines 159-166):
      -- next.left := new; new.right := prev.right; new.left := prev; prev.right := new
      let nw : NodeR K V := { key := k, value := v, right := some nxt, left := some p, lvl := j }
      let s1n := pushNode s nw
      let s2 := setLeft s1n.1 nxt (some s1n.2)
      let s3 := setRight s2 p (some s1n.2)
      let s4 := setLevel s3 j (fun l => { l with size := l.size + 1 })
      pure (s4, s1n.2)
    | none =>
      -- insert at the tail (lines 167-172)
      let nw : NodeR K V := { key := k, value := v, left := some p, lvl := j }
      let s1n := pushNode s nw
      let s2 := setRight s1n.1 p (some s1n.2)
      let s3 := setLevel s2 j (fun l => { l with size := l.size + 1 })
      pure (s3, s1n.2)

/-- `Level::insert_after` (skiplist.rs lines 181-193): splice a fresh node
directly after `after`, with no ordering check and no `size` update.  The
source assigns `after.left := new` (line 188) before relinking, and that
assignment is reproduced verbatim. -/
def levelInsertAfter (s : SL K V) (j : Nat) (k : K) (v : V) (after : Nat) :
    PM (SL K V × Nat) := do
  let an ← getNode s after
  let nw : NodeR K V := { key := k, value := v, right := an.right, left := some after, lvl := j }
  let s1n := pushNode s nw
  let s2 := setLeft s1n.1 after (some s1n.2)
  let s3 := setRight s2 after (some s1n.2)
  pure (s3, s1n.2)

/-- The `iter().find(Equal)` scan of `Level::delete` (lines 196-201). -/
def findEq (a : List (NodeR K V)) (k : K) : Nat → Option Nat → PM (Option Nat)
  | _, none => .ok none
  | 0, some _ => .error .fuelOut
  | fuel + 1, some i =>
    match a[i]? with
    | none => .error .indexOob
    | some n => if n.key = k then .ok (some i) else findEq a k fuel n.right

/-- `Level::delete` (skiplist.rs lines 195-221) on level `j`: find the
first node with key `= k`; if found, upgrade its weak `left` link to
decide between the interior splice (lines 205-213) and the head splice
(lines 214-218), then decrement `size` (line 219; a `usize` underflow is
a panic).  Note the branch is decided by `left.upgrade()`, not by
comparison with the level head. -/
def levelDelete (s : SL K V) (j : Nat) (k : K) : PM (SL K V) := do
  let lv ← getLevel s j
  let dQ ← findEq s.nodes k (fuelOf s) lv.head
  match dQ with
  | none => pure s
  | some d => do
    let dn ← getNode s d
    match upgradeW s dn.left with
    | some p =>
      -- interior splice; `prev.right = to_delete.right.take()` double
      -- borrows (panics) if prev and to_delete are the same cell
      if p = d then .error .borrowErr
      else do
        let s1 := match dn.right with
          | some nxt => setLeft s nxt (some p)
          | none => s
        let s2 := setRight s1 p dn.right
        let s3 := setRight s2 d none
        if lv.size = 0 then .error .underflow
        else pure (setLevel s3 j (fun l => { l with size := l.size - 1 }))
    | none => do
      let s1 := setLevel s j (fun l => { l with head := dn.right })
      let s2 := setRight s1 d none
      let s3 := setLeft s2 d none
      if lv.size = 0 then .error .underflow
      else pure (setLevel s3 j (fun l => { l with size := l.size - 1 }))

/-- The `iter().find(Greater)` scan of `Level::bisect` (lines 73-78). -/
def findGt (a : List (NodeR K V)) (k : K) : Nat → Option Nat → PM (Option Nat)
  | _, none => .ok none
  | 0, some _ => .error .fuelOut
  | fuel + 1, some i =>
    match a[i]? with
    | none => .error .indexOob
    | some n => if k < n.key then .ok (some i) else findGt a k fuel n.right

/-- `iter().last()` (line 83). -/
def lastOf (a : List (NodeR K V)) : Nat → Option Nat → Option Nat → PM (Option Nat)
  | _, none, acc => .ok acc
  | 0, some _, _ => .error .fuelOut
  | fuel + 1, some i, _ =>
    match a[i]? with
    | none => .error .indexOob
    | some n => lastOf a fuel n.right (some i)

/-- `Level::bisect` (skiplist.rs lines 72-84) on level `j`: find the first
node whose key compares `Greater` than `k`; if found return the upgrade of
its weak `left` link, otherwise return the last node of the level. -/
def levelBisect (s : SL K V) (j : Nat) (k : K) : PM (Option Nat) := do
  let lv ← getLevel s j
  let mQ ← findGt s.nodes k (fuelOf s) lv.head
  match mQ with
  | some m => do
    let mn ← getNode s m
    pure (upgradeW s mn.left)
  | none => lastOf s.nodes (fuelOf s) lv.head none

/-- The scan loop of `Level::bisect_after` (lines 98-115): `prev` is
overwritten with the current node each step; on `Less`/`Equal` the walk
follows `right`; on `Greater` the output is the upgrade of the current
node's `left` link, and if that upgrade fails the loop falls through and
returns `prev` — which at that point is the `Greater` node itself. -/
def baLoop (s : SL K V) (t : K) : Nat → Option Nat → Option Nat → PM (Option Nat)
  | _, none, prev => .ok prev
  | 0, some _, _ => .error .fuelOut
  | fuel + 1, some i, _ => do
    let n ← getNode s i
    if t < n.key then
      match upgradeW s n.left with
      | some o => pure (some o)
      | none => pure (some i)
    else baLoop s t fuel n.right (some i)

/-- `Level::bisect_after` (skiplist.rs lines 91-121): return `none` when
the anchor's key compares `Greater` than the target, otherwise run the
scan loop from the anchor.  (`prev` is initialised from the anchor's
`left` upgrade at line 96 but is overwritten before it can be read.) -/
def bisectAfter (s : SL K V) (anchor : Nat) (t : K) : PM (Option Nat) := do
  let an ← getNode s anchor
  if t < an.key then pure none
  else baLoop s t (fuelOf s) (some anchor) (upgradeW s an.left)

/-- `SkipList::new` (skiplist.rs lines 252-255): size 0, one empty level. -/
def slNew : SL K V :=
  { size := 0, levels := [{}], nodes := [] }

/-- `SkipList::add_level` (skiplist.rs lines 354-365): unwrap the current
top level's head (a panic if that level is empty), duplicate its key and
value into a fresh level appended on top, and wire the vertical links. -/
def addLevel (s : SL K V) : PM (SL K V) := do
  let len := s.levels.length
  let lv ← getLevel s (len - 1)
  match lv.head with
  | none => .error .unwrapNone
  | some ph => do
    let phn ← getNode s ph
    let s1 : SL K V := { s with levels := s.levels ++ [{}] }
    let r ← levelInsert s1 len phn.key phn.value
    let s3 := setUp r.1 ph (some r.2)
    let s4 := setDown s3 r.2 (some ph)
    pure s4

/-- The head-propagation loop of `SkipList::insert` (lines 262-269): while
`counter < levels.len()`, insert (k, v) into level `counter`, point the
new node's `down` at the previous `new_head`, point that node's weak `up`
at the new node, and move `new_head` up.  Fuel bounds the loop (the number
of levels never changes inside it). -/
def headProp (s : SL K V) (k : K) (v : V) : Nat → Nat → Nat → PM (SL K V)
  | 0, _, _ => .error .fuelOut
  | fuel + 1, counter, nh =>
    if counter < s.levels.length then do
      let r ← levelInsert s counter k v
      let s2 := setDown r.1 r.2 (some nh)
      let s3 := setUp s2 nh (some r.2)
      headProp s3 k v fuel (counter + 1) r.2
    else pure s

/-- The coin-flip promotion loop of `SkipList::insert` (lines 273-286).
The random `flip_coin` results are an explicit list, one entry per call;
an exhausted list means the coin came up "do not promote". -/
def coinLoop : SL K V → K → V → Nat → Nat → List Bool → PM (SL K V)
  | s, _, _, _, _, [] => .ok s
  | s, k, v, prevId, counter, f :: rest =>
    if f then do
      let s1 ← if s.levels.length ≤ counter then addLevel s else pure s
      let lv0 ← getLevel s1 0
      if 1 < lv0.size then do
        let r ← levelInsert s1 counter k v
        let s3 := setUp r.1 prevId (some r.2)
        let s4 := setDown s3 r.2 (some prevId)
        coinLoop s4 k v r.2 (counter + 1) rest
      else coinLoop s1 k v prevId counter rest
    else .ok s

/-- `SkipList::insert` (skiplist.rs lines 257-288): insert into level 0,
unwrap the level-0 head, and branch on whether the head's key compares
`Equal` to the inserted key — if so run the head-propagation path, else
run the coin loop.  The returned `Bool` records which branch ran (`true`
= head propagation). -/
def slInsert (s : SL K V) (k : K) (v : V) (flips : List Bool) : PM (SL K V × Bool) := do
  let r0 ← levelInsert s 0 k v
  let lv0 ← getLevel r0.1 0
  match lv0.head with
  | none => .error .unwrapNone
  | some h => do
    let hn ← getNode r0.1 h
    if hn.key = k then do
      let s2 ← headProp r0.1 k v (r0.1.levels.length + 1) 1 h
      pure ({ s2 with size := s2.size + 1 }, true)
    else do
      let s2 ← coinLoop r0.1 k v r0.2 1 flips
      pure ({ s2 with size := s2.size + 1 }, false)

/-- The descent loop of `SkipList::get` (lines 295-300): while levels
remain and the anchor exists, unwrap the anchor's `down` link and refine
with `bisect_after` one level below.  The fuel is the number of remaining
iterations (`size - 1` at the call site). -/
def getLoop (s : SL K V) (k : K) : Nat → Option Nat → PM (Option Nat)
  | 0, mp => .ok mp
  | fuel + 1, mp =>
    match mp with
    | none => .ok none
    | some prevId => do
      let pn ← getNode s prevId
      match pn.down with
      | none => .error .unwrapNone
      | some after => do
        let r ← bisectAfter s after k
        getLoop s k fuel r

/-- `SkipList::get` (skiplist.rs lines 290-309): bisect at the top level,
descend with `bisect_after`, and at the end compare the found node's key
for `Equal`, returning its value on a match. -/
def slGet (s : SL K V) (k : K) : PM (Option V) := do
  let size := s.levels.length
  let mp0 ← levelBisect s (size - 1) k
  let mpF ← getLoop s k (size - 1) mp0
  match mpF with
  | some f => do
    let fn ← getNode s f
    pure (if fn.key = k then some fn.value else none)
  | none => pure none

/-- The `for i in 0..size` loop of `SkipList::delete` (lines 313-315). -/
def delLoop (k : K) : Nat → Nat → SL K V → PM (SL K V)
  | _, 0, s => .ok s
  | i, fuel + 1, s => do
    let s1 ← levelDelete s i k
    delLoop k (i + 1) fuel s1

/-- `SkipList::delete` (skiplist.rs lines 311-317): delete `k` at every
level, then recompute `size` from level 0's size. -/
def slDelete (s : SL K V) (k : K) : PM (SL K V) := do
  let s1 ← delLoop k 0 s.levels.length s
  let lv0 ← getLevel s1 0
  pure { s1 with size := lv0.size }

/-- `SkipList::collect` (skiplist.rs lines 319-327): the key/value pairs
along level 0's chain. -/
def slCollect (s : SL K V) : PM (List (K × V)) := do
  let lv0 ← getLevel s 0
  match chainFrom s.nodes (fuelOf s) lv0.head with
  | none => .error .fuelOut
  | some l =>
    l.mapM (fun i => do
      let n ← getNode s i
      pure (n.key, n.value))

/-- A call against the public `SkipList` interface.  `getq`/`collectq` are
read-only observations; they are part of the operation alphabet so that
safety statements cover them. -/
inductive Op (K V : Type) where
  | ins (k : K) (v : V) (flips : List Bool)
  | del (k : K)
  | getq (k : K)
  | collectq
deriving Repr, DecidableEq

/-- Run one operation (observations keep the state). -/
def runOp (s : SL K V) : Op K V → PM (SL K V)
  | .ins k v flips => (slInsert s k v flips).map Prod.fst
  | .del k => slDelete s k
  | .getq k => (slGet s k).map (fun _ => s)
  | .collectq => (slCollect s).map (fun _ => s)

/-- Run a sequence of operations from a fresh `SkipList::new`. -/
def runOps (l : List (Op K V)) : PM (SL K V) :=
  l.foldlM runOp slNew

/-- A call against a standalone `Level` (used for the Level-local claims):
`Level::insert` and `Level::delete` on a single level. -/
inductive LOp (K V : Type) where
  | lins (k : K) (v : V)
  | ldel (k : K)
deriving Repr, DecidableEq

/-- Run one standalone-level operation on level 0. -/
def runLOp (s : SL K V) : LOp K V → PM (SL K V)
  | .lins k v => (levelInsert s 0 k v).map Prod.fst
  | .ldel k => levelDelete s 0 k

/-- Run a sequence of standalone-level operations from a fresh empty
level (`Level::new`). -/
def runLOps (l : List (LOp K V)) : PM (SL K V) :=
  l.foldlM runLOp slNew

/-! ### Concrete operation sequences used as counterexamples

`traceLostGet`: key 2 is promoted to level 1; after `delete(2)` and
`delete(1)` level 1 is completely empty while key 3 still sits in level
0, so the top-level bisect of `get(3)` returns `None` and the descent
never starts.

`traceSevered`: key 1 is inserted three times (values 10, 11); the
level-1 copy of value 11 points `down` at the *level-0 head* (node 0),
which keeps node 0 alive after the first `delete(1)` removes it from
level 0.  The second `delete(1)` then finds node 4 at the level-0 head
but its stale `left` upgrade succeeds (to the removed node 0), so the
interior-splice branch runs on the head: the level keeps node 4 as head
with `right := none`, severing nodes 6 (key 3) from the chain while the
size counter only drops by one.

`traceUnderflow`: as above but with a third duplicate of key 1 keeping
node 0 alive one round longer; the corrupted level-0 chain stays `[4]`
while its size counter drains to 0, and the next `delete(1)` still finds
node 4 and executes `self.size -= 1` on 0 — a `usize` underflow. -/

def traceLostGet : List (Op Nat Nat) :=
  [.ins 1 1 [], .ins 2 2 [true, false], .del 2, .ins 3 3 [], .del 1]

def traceSevered : List (Op Nat Nat) :=
  [.ins 1 10 [], .ins 2 20 [true, false], .ins 1 11 [], .ins 3 30 [], .del 1, .del 1]

def traceDangling : List (Op Nat Nat) :=
  [.ins 1 10 [], .ins 2 20 [true, false], .ins 1 11 [], .del 1]

def traceUnderflow : List (Op Nat Nat) :=
  [.ins 1 10 [], .ins 2 20 [true, false], .ins 1 11 [], .ins 1 12 [],
   .del 2, .del 1, .del 1, .del 1, .del 1]

/-- One insert of the minimum key, used to exhibit the duplicate-minimum
behaviour of the head-propagation branch. -/
def traceOneMin : List (Op Nat Nat) :=
  [.ins 1 10 []]

/-- One standalone `Level::insert`, the setup for the `insert_after`
counterexample. -/
def lopsOne : List (LOp Nat Nat) :=
  [.lins 1 1]

/-! ### Relational chain description and invariants -/

/-- `IsChainFrom a h l`: starting at link `h` and repeatedly following
`right`, one visits exactly the indices in `l` and ends at `none`.  This
is the relational (fuel-free) counterpart of `chainFrom`. -/
inductive IsChainFrom (a : List (NodeR K V)) : Option Nat → List Nat → Prop where
  | nil : IsChainFrom a none []
  | cons {i : Nat} {n : NodeR K V} {rest : List Nat} :
      a[i]? = some n → IsChainFrom a n.right rest → IsChainFrom a (some i) (i :: rest)

/-- The chain of level `j` is `c`. -/
def IsChainOf (s : SL K V) (j : Nat) (c : List Nat) : Prop :=
  ∃ lv, s.levels[j]? = some lv ∧ IsChainFrom s.nodes lv.head c

/-- `IsPathFrom a h l r`: starting at link `h` and following `right`, one
visits exactly `l` and arrives at link `r` (a chain segment with an
explicit continuation; `IsChainFrom a h l` is `IsPathFrom a h l none`). -/
inductive IsPathFrom (a : List (NodeR K V)) : Option Nat → List Nat → Option Nat → Prop where
  | nil (h : Option Nat) : IsPathFrom a h [] h
  | cons {i : Nat} {n : NodeR K V} {rest : List Nat} {r : Option Nat} :
      a[i]? = some n → IsPathFrom a n.right rest r → IsPathFrom a (some i) (i :: rest) r

/-- Adjacent chain members are linked back by `left`. -/
def LeftAdj (a : List (NodeR K V)) (c : List Nat) : Prop :=
  List.Chain' (fun p q => ∀ n, a[q]? = some n → n.left = some p) c

/-- The chain head's `left` is either absent or a dangling reference to a
node outside the chain (the stale link a head deletion leaves behind). -/
def HeadLeftOk (a : List (NodeR K V)) (c : List Nat) : Prop :=
  ∀ h ∈ c.head?, ∀ n, a[h]? = some n → n.left = none ∨ ∃ x, n.left = some x ∧ x ∉ c

/-- Index `p`'s key is at most index `q`'s key (whenever both resolve). -/
def keyLeAt (a : List (NodeR K V)) (p q : Nat) : Prop :=
  ∀ np nq, a[p]? = some np → a[q]? = some nq → np.key ≤ nq.key

/-- Boolean test used to split a chain around an insertion point: does
index `i` resolve to a node with key at most `k`? -/
def keyLeB [LinearOrder K] (a : List (NodeR K V)) (k : K) (i : Nat) : Bool :=
  match a[i]? with
  | some n => decide (n.key ≤ k)
  | none => false

/-- The prefix of chain `c` scanned over by `Level::insert` (all keys
`≤ k`, up to the first strictly greater node). -/
def lePrefixOf [LinearOrder K] (a : List (NodeR K V)) (k : K) (c : List Nat) : List Nat :=
  c.takeWhile (keyLeB a k)

/-- The rest of the chain (from the first node with key `> k`). -/
def gtSuffixOf [LinearOrder K] (a : List (NodeR K V)) (k : K) (c : List Nat) : List Nat :=
  c.dropWhile (keyLeB a k)

/-- The structural invariant of reachable `SkipList` states.  All
components speak about the embedding defined above. -/
structure Inv [LinearOrder K] (s : SL K V) : Prop where
  levelsNe : s.levels ≠ []
  rightT : ∀ (i : Nat) (n : NodeR K V) (j : Nat), s.nodes[i]? = some n → n.right = some j →
    ∃ m, s.nodes[j]? = some m ∧ m.lvl = n.lvl
  leftT : ∀ (i : Nat) (n : NodeR K V) (j : Nat), s.nodes[i]? = some n → n.left = some j →
    j ≠ i ∧ ∃ m, s.nodes[j]? = some m ∧ m.lvl = n.lvl
  downT : ∀ (i : Nat) (n : NodeR K V) (j : Nat), s.nodes[i]? = some n → n.down = some j →
    ∃ m, s.nodes[j]? = some m ∧ m.lvl + 1 = n.lvl ∧ m.key = n.key
  downSome : ∀ (i : Nat) (n : NodeR K V), s.nodes[i]? = some n → 1 ≤ n.lvl → n.down.isSome
  lvlLt : ∀ (i : Nat) (n : NodeR K V), s.nodes[i]? = some n → n.lvl < s.levels.length
  headT : ∀ (j : Nat) (lv : LevelR) (h : Nat), s.levels[j]? = some lv → lv.head = some h →
    ∃ n, s.nodes[h]? = some n ∧ n.lvl = j
  term : ∀ i : Nat, i < s.nodes.length → ∃ l, IsChainFrom s.nodes (some i) l
  chainLeftAdj : ∀ (j : Nat) (c : List Nat), IsChainOf s j c → LeftAdj s.nodes c
  chainHeadLeft : ∀ (j : Nat) (c : List Nat), IsChainOf s j c → HeadLeftOk s.nodes c
  chainSorted : ∀ (j : Nat) (c : List Nat), IsChainOf s j c → c.Pairwise (keyLeAt s.nodes)

/-- Additional invariants of standalone levels (states built by
`Level::insert`/`Level::delete` only): a single level, no vertical
links, and a size counter equal to the chain length. -/
structure LInv [LinearOrder K] (s : SL K V) : Prop where
  inv : Inv s
  oneLevel : s.levels.length = 1
  downNone : ∀ (i : Nat) (n : NodeR K V), s.nodes[i]? = some n → n.down = none
  sizeEq : ∀ (lv : LevelR) (c : List Nat), s.levels[0]? = some lv →
    IsChainFrom s.nodes lv.head c → lv.size = c.length

/-- The effect of `Level::insert` on the state, phrased against the chain
`c` the target level had before the call: the fresh node (index = old
arena length) carries the key/value, its `right` is the first node with
key `> k`, its `left` the last node with key `≤ k`; the only mutated old
nodes are that predecessor (its `right`) and that successor (its
`left`); the level's chain gains the fresh node between the two parts
and its size counter increments. -/
structure InsEff [LinearOrder K] (s : SL K V) (j : Nat) (lv : LevelR) (c : List Nat)
    (k : K) (v : V) (s' : SL K V) : Prop where
  len : s'.nodes.length = s.nodes.length + 1
  size : s'.size = s.size
  levelsLen : s'.levels.length = s.levels.length
  levelsOther : ∀ j' : Nat, j ≠ j' → s'.levels[j']? = s.levels[j']?
  levelsJ : s'.levels[j]? = some (LevelR.mk (lv.size + 1)
    (if lePrefixOf s.nodes k c = [] then some s.nodes.length else lv.head))
  newNode : s'.nodes[s.nodes.length]? = some (NodeR.mk k v
    ((gtSuffixOf s.nodes k c).head?) none ((lePrefixOf s.nodes k c).getLast?) none j)
  oldNodes : ∀ (i : Nat) (n : NodeR K V), s.nodes[i]? = some n → ∃ n', s'.nodes[i]? = some n' ∧
    n'.key = n.key ∧ n'.value = n.value ∧ n'.lvl = n.lvl ∧ n'.down = n.down ∧ n'.up = n.up ∧
    n'.right = (if (lePrefixOf s.nodes k c).getLast? = some i
      then some s.nodes.length else n.right) ∧
    n'.left = (if (gtSuffixOf s.nodes k c).head? = some i
      then some s.nodes.length else n.left)
  newChain : IsChainOf s' j
    (lePrefixOf s.nodes k c ++ s.nodes.length :: gtSuffixOf s.nodes k c)

/-- The parts of a successful `Level::delete` effect common to all its
branches: arena length, skip-list size, other levels and every node's
key/value/level/vertical links are untouched, and the level's size
counter decrements. -/
structure DelCommonEff (s : SL K V) (j : Nat) (lv : LevelR) (s' : SL K V) : Prop where
  len : s'.nodes.length = s.nodes.length
  size : s'.size = s.size
  levelsLen : s'.levels.length = s.levels.length
  levelsOther : ∀ j' : Nat, j ≠ j' → s'.levels[j']? = s.levels[j']?
  sizeJ : ∃ hd', s'.levels[j]? = some (LevelR.mk (lv.size - 1) hd')
  sameMeta : ∀ (i : Nat) (n : NodeR K V), s.nodes[i]? = some n → ∃ n', s'.nodes[i]? = some n' ∧
    n'.key = n.key ∧ n'.value = n.value ∧ n'.lvl = n.lvl ∧ n'.down = n.down ∧ n'.up = n.up

/-- Effect of the interior-splice branch of `Level::delete` (lines
205-213): the deleted node `d` had chain predecessor `q`; `q.right` is
re-pointed past `d`, `d.right` is taken, the successor's `left` (if any)
is re-pointed to `q`, and the chain loses exactly `d`. -/
structure DelInterior (s : SL K V) (j : Nat) (lv : LevelR) (c₁ c₂ : List Nat)
    (d q : Nat) (s' : SL K V) : Prop where
  common : DelCommonEff s j lv s'
  headJ : s'.levels[j]? = some (LevelR.mk (lv.size - 1) lv.head)
  links : ∀ (i : Nat) (n : NodeR K V), s.nodes[i]? = some n → ∃ n', s'.nodes[i]? = some n' ∧
    n'.right = (if i = q then c₂.head? else if i = d then none else n.right) ∧
    n'.left = (if c₂.head? = some i then some q else n.left)
  chain : IsChainOf s' j (c₁ ++ c₂)

/-- Effect of the head branch of `Level::delete` (lines 214-218): the
level head moves to `d.right`, `d`'s links are cleared, everything else
is untouched. -/
structure DelHeadClean (s : SL K V) (j : Nat) (lv : LevelR) (c₂ : List Nat)
    (d : Nat) (s' : SL K V) : Prop where
  common : DelCommonEff s j lv s'
  headJ : s'.levels[j]? = some (LevelR.mk (lv.size - 1) c₂.head?)
  links : ∀ (i : Nat) (n : NodeR K V), s.nodes[i]? = some n → ∃ n', s'.nodes[i]? = some n' ∧
    n'.right = (if i = d then none else n.right) ∧
    n'.left = (if i = d then none else n.left)
  chain : IsChainOf s' j c₂

/-- Effect of the interior-splice branch taken wrongly on the level head
`d` because `d`'s stale weak `left` still upgrades to an old, removed
head `x`: the level head still points at `d` whose `right` was taken, so
the chain collapses to `[d]` and the rest of the level is severed behind
the dead node `x`. -/
structure DelCorrupt (s : SL K V) (j : Nat) (lv : LevelR) (c₂ : List Nat)
    (d x : Nat) (s' : SL K V) : Prop where
  common : DelCommonEff s j lv s'
  headJ : s'.levels[j]? = some (LevelR.mk (lv.size - 1) lv.head)
  xAlive : x ∈ aliveIds s
  xNotChain : x ∉ c₂ ∧ x ≠ d
  links : ∀ (i : Nat) (n : NodeR K V), s.nodes[i]? = some n → ∃ n', s'.nodes[i]? = some n' ∧
    n'.right = (if i = x then c₂.head? else if i = d then none else n.right) ∧
    n'.left = (if c₂.head? = some i then some x else n.left)
  chain : IsChainOf s' j [d]

/-- The invariant of standalone levels reachable through `Level::insert`
and `Level::delete` alone (the setting of the Level-local claims): a
single level, no vertical links, arena-valid `left` targets, and a
chain from the head whose length matches the size counter and whose
weak back links satisfy the chain adjacency discipline (the head's
`left` being absent or a stale reference outside the chain). -/
structure SInv (s : SL K V) : Prop where
  oneLevel : s.levels.length = 1
  downNone : ∀ (i : Nat) (n : NodeR K V), s.nodes[i]? = some n → n.down = none
  leftV : ∀ (i : Nat) (n : NodeR K V) (p : Nat), s.nodes[i]? = some n → n.left = some p →
    p < s.nodes.length
  chain : ∀ lv : LevelR, s.levels[0]? = some lv → ∃ c : List Nat,
    IsChainFrom s.nodes lv.head c ∧ lv.size = c.length ∧
    LeftAdj s.nodes c ∧ HeadLeftOk s.nodes c

/-- Modelled from the spec (section 4.2, `bisect`): walk the chain with a
running predecessor; on meeting the first node whose key is strictly
greater than `k`, return the predecessor; if the walk ends without
meeting one, the last visited node is returned (`none` for an empty
walk).  Used as the specification side of the refinement claims C7/C8. -/
def bisectSpec [LinearOrder K] (a : List (NodeR K V)) (k : K) :
    List Nat → Option Nat → Option Nat
  | [], prev => prev
  | i :: rest, prev =>
    match a[i]? with
    | some n => if k < n.key then prev else bisectSpec a k rest (some i)
    | none => prev

/-- Modelled from the spec (section 4.2, `bisect_after`): absent when the
anchor's key exceeds the target, otherwise the `bisectSpec` walk over the
suffix of the chain that starts at the anchor. -/
def baSpec [LinearOrder K] (a : List (NodeR K V)) (t : K) (c : List Nat) (anchor : Nat) :
    Option Nat :=
  match a[anchor]? with
  | some n =>
    if t < n.key then none
    else bisectSpec a t (c.dropWhile (fun x => x ≠ anchor)) none
  | none => none

/-- A rank certificate: `right` links strictly increase the rank and
`left` links strictly decrease it.  Its existence rules out cycles in
the strong `right` chains (every walk terminates) and rules out
self-referencing weak `left` links (the double-borrow panic in
`Level::delete`). -/
def RankOk (s : SL K V) (r : Nat → Nat) : Prop :=
  (∀ (i : Nat) (n : NodeR K V) (j : Nat), s.nodes[i]? = some n → n.right = some j →
    r i < r j) ∧
  (∀ (i : Nat) (n : NodeR K V) (j : Nat), s.nodes[i]? = some n → n.left = some j →
    r j < r i)

/-- The core safety invariant of reachable `SkipList` states: at least
one level; `right`, `left` and `down` targets resolve inside the arena
(`Rc`/`Weak` pointees are never deallocated there) on the same level
(`down`: one level below, with an equal key); level heads resolve on
their own level; every node's level is in range; and a rank certificate
exists.  The weakened `down` obligations are tracked separately because
`SkipList::insert` wires a fresh node's `down` link one statement after
creating it. -/
structure SafeCore (s : SL K V) : Prop where
  levelsNe : s.levels ≠ []
  rightT : ∀ (i : Nat) (n : NodeR K V) (j : Nat), s.nodes[i]? = some n → n.right = some j →
    ∃ m : NodeR K V, s.nodes[j]? = some m ∧ m.lvl = n.lvl
  leftT : ∀ (i : Nat) (n : NodeR K V) (j : Nat), s.nodes[i]? = some n → n.left = some j →
    ∃ m : NodeR K V, s.nodes[j]? = some m ∧ m.lvl = n.lvl
  downT : ∀ (i : Nat) (n : NodeR K V) (j : Nat), s.nodes[i]? = some n → n.down = some j →
    ∃ m : NodeR K V, s.nodes[j]? = some m ∧ m.lvl + 1 = n.lvl ∧ m.key = n.key
  headT : ∀ (j : Nat) (lv : LevelR) (h : Nat), s.levels[j]? = some lv → lv.head = some h →
    ∃ n : NodeR K V, s.nodes[h]? = some n ∧ n.lvl = j
  lvlLt : ∀ (i : Nat) (n : NodeR K V), s.nodes[i]? = some n → n.lvl < s.levels.length
  rank : ∃ r : Nat → Nat, RankOk s r

/-- Every node above level 0 has a `down` link (unwrapped by the
descent of `SkipList::get`). -/
def DownAll (s : SL K V) : Prop :=
  ∀ (i : Nat) (n : NodeR K V), s.nodes[i]? = some n → 1 ≤ n.lvl → n.down.isSome

/-- The full safety invariant. -/
def SafeInv (s : SL K V) : Prop :=
  SafeCore s ∧ DownAll s

/-- The outcome of a run contains no unwrap/index/borrow panic and no
divergence; the only tolerated abnormal outcome is the size-counter
underflow exhibited by `c6_counterexample`. -/
def SafeOutcome {α : Type} : PM α → Prop
  | .ok _ => True
  | .error .underflow => True
  | .error _ => False

/-- The operation is an insertion. -/
def Op.isIns {K V : Type} : Op K V → Prop
  | .ins _ _ _ => True
  | _ => False

-- ===================================================================
-- Theorems
-- ===================================================================

/-! ### Arena accessor lemmas -/

theorem levels_setRight (s : SL K V) (i : Nat) (r : Option Nat) :
    (setRight s i r).levels = s.levels := by
  unfold setRight; cases s.nodes[i]? <;> rfl

theorem levels_setLeft (s : SL K V) (i : Nat) (r : Option Nat) :
    (setLeft s i r).levels = s.levels := by
  unfold setLeft; cases s.nodes[i]? <;> rfl

theorem levels_setDown (s : SL K V) (i : Nat) (r : Option Nat) :
    (setDown s i r).levels = s.levels := by
  unfold setDown; cases s.nodes[i]? <;> rfl

theorem levels_setUp (s : SL K V) (i : Nat) (r : Option Nat) :
    (setUp s i r).levels = s.levels := by
  unfold setUp; cases s.nodes[i]? <;> rfl

theorem size_setRight (s : SL K V) (i : Nat) (r : Option Nat) :
    (setRight s i r).size = s.size := by
  unfold setRight; cases s.nodes[i]? <;> rfl

theorem size_setLeft (s : SL K V) (i : Nat) (r : Option Nat) :
    (setLeft s i r).size = s.size := by
  unfold setLeft; cases s.nodes[i]? <;> rfl

theorem nodes_setRight (s : SL K V) (i : Nat) (r : Option Nat) (j : Nat) :
    (setRight s i r).nodes[j]? =
      if i = j then (s.nodes[j]?).map (fun n => { n with right := r }) else s.nodes[j]? := by
  unfold setRight
  cases h : s.nodes[i]? with
  | none =>
    by_cases hij : i = j
    · subst hij; simp [h]
    · simp [hij]
  | some n =>
    have hlen : i < s.nodes.length := (List.getElem?_eq_some.mp h).1
    by_cases hij : i = j
    · subst hij; simp [List.getElem?_set, hlen, h]
    · simp [List.getElem?_set, hij]

theorem nodes_setLeft (s : SL K V) (i : Nat) (r : Option Nat) (j : Nat) :
    (setLeft s i r).nodes[j]? =
      if i = j then (s.nodes[j]?).map (fun n => { n with left := r }) else s.nodes[j]? := by
  unfold setLeft
  cases h : s.nodes[i]? with
  | none =>
    by_cases hij : i = j
    · subst hij; simp [h]
    · simp [hij]
  | some n =>
    have hlen : i < s.nodes.length := (List.getElem?_eq_some.mp h).1
    by_cases hij : i = j
    · subst hij; simp [List.getElem?_set, hlen, h]
    · simp [List.getElem?_set, hij]

theorem nodes_setDown (s : SL K V) (i : Nat) (r : Option Nat) (j : Nat) :
    (setDown s i r).nodes[j]? =
      if i = j then (s.nodes[j]?).map (fun n => { n with down := r }) else s.nodes[j]? := by
  unfold setDown
  cases h : s.nodes[i]? with
  | none =>
    by_cases hij : i = j
    · subst hij; simp [h]
    · simp [hij]
  | some n =>
    have hlen : i < s.nodes.length := (List.getElem?_eq_some.mp h).1
    by_cases hij : i = j
    · subst hij; simp [List.getElem?_set, hlen, h]
    · simp [List.getElem?_set, hij]

theorem nodes_setUp (s : SL K V) (i : Nat) (r : Option Nat) (j : Nat) :
    (setUp s i r).nodes[j]? =
      if i = j then (s.nodes[j]?).map (fun n => { n with up := r }) else s.nodes[j]? := by
  unfold setUp
  cases h : s.nodes[i]? with
  | none =>
    by_cases hij : i = j
    · subst hij; simp [h]
    · simp [hij]
  | some n =>
    have hlen : i < s.nodes.length := (List.getElem?_eq_some.mp h).1
    by_cases hij : i = j
    · subst hij; simp [List.getElem?_set, hlen, h]
    · simp [List.getElem?_set, hij]

theorem nodes_length_setRight (s : SL K V) (i : Nat) (r : Option Nat) :
    (setRight s i r).nodes.length = s.nodes.length := by
  unfold setRight; cases s.nodes[i]? <;> simp

theorem nodes_length_setLeft (s : SL K V) (i : Nat) (r : Option Nat) :
    (setLeft s i r).nodes.length = s.nodes.length := by
  unfold setLeft; cases s.nodes[i]? <;> simp

theorem nodes_length_setDown (s : SL K V) (i : Nat) (r : Option Nat) :
    (setDown s i r).nodes.length = s.nodes.length := by
  unfold setDown; cases s.nodes[i]? <;> simp

theorem nodes_length_setUp (s : SL K V) (i : Nat) (r : Option Nat) :
    (setUp s i r).nodes.length = s.nodes.length := by
  unfold setUp; cases s.nodes[i]? <;> simp

theorem nodes_pushNode (s : SL K V) (n : NodeR K V) (j : Nat) :
    (pushNode s n).1.nodes[j]? =
      if j = s.nodes.length then some n else s.nodes[j]? := by
  show (s.nodes ++ [n])[j]? = _
  rcases lt_trichotomy j s.nodes.length with h | h | h
  · rw [List.getElem?_append, if_pos h, if_neg (Nat.ne_of_lt h)]
  · subst h; rw [List.getElem?_concat_length, if_pos rfl]
  · rw [List.getElem?_append_right (Nat.le_of_lt h), if_neg (Nat.ne_of_gt h)]
    have h1 : s.nodes.length ≤ j := Nat.le_of_lt h
    have h2 : 1 ≤ j - s.nodes.length := by omega
    rw [List.getElem?_eq_none, List.getElem?_eq_none]
    · exact Nat.le_of_lt h
    · simpa using h2

theorem levels_pushNode (s : SL K V) (n : NodeR K V) :
    (pushNode s n).1.levels = s.levels := rfl

theorem snd_pushNode (s : SL K V) (n : NodeR K V) :
    (pushNode s n).2 = s.nodes.length := rfl

theorem nodes_length_pushNode (s : SL K V) (n : NodeR K V) :
    (pushNode s n).1.nodes.length = s.nodes.length + 1 := by
  show (s.nodes ++ [n]).length = _
  simp

theorem nodes_setLevel (s : SL K V) (j : Nat) (f : LevelR → LevelR) :
    (setLevel s j f).nodes = s.nodes := by
  unfold setLevel; cases s.levels[j]? <;> rfl

theorem size_setLevel (s : SL K V) (j : Nat) (f : LevelR → LevelR) :
    (setLevel s j f).size = s.size := by
  unfold setLevel; cases s.levels[j]? <;> rfl

theorem levels_setLevel (s : SL K V) (j : Nat) (f : LevelR → LevelR) (j' : Nat) :
    (setLevel s j f).levels[j']? =
      if j = j' then (s.levels[j']?).map f else s.levels[j']? := by
  unfold setLevel
  cases h : s.levels[j]? with
  | none =>
    by_cases hjj : j = j'
    · subst hjj; simp [h]
    · simp [hjj]
  | some lv =>
    have hlen : j < s.levels.length := (List.getElem?_eq_some.mp h).1
    by_cases hjj : j = j'
    · subst hjj; simp [List.getElem?_set, hlen, h]
    · simp [List.getElem?_set, hjj]

theorem levels_length_setLevel (s : SL K V) (j : Nat) (f : LevelR → LevelR) :
    (setLevel s j f).levels.length = s.levels.length := by
  unfold setLevel; cases s.levels[j]? <;> simp

/-! ### Chain relation theory -/

theorem isChainFrom_fun {a : List (NodeR K V)} :
    ∀ {h : Option Nat} {l₁ l₂ : List Nat},
      IsChainFrom a h l₁ → IsChainFrom a h l₂ → l₁ = l₂ := by
  intro h l₁ l₂ h₁ h₂
  induction h₁ generalizing l₂ with
  | nil => cases h₂; rfl
  | cons hget hrest ih =>
    cases h₂ with
    | cons hget2 hrest2 =>
      rw [hget] at hget2
      cases hget2
      rw [ih hrest2]

theorem isChainFrom_mem_suffix {a : List (NodeR K V)} {h : Option Nat} {l : List Nat}
    (hc : IsChainFrom a h l) {i : Nat} (hi : i ∈ l) :
    ∃ t, IsChainFrom a (some i) t ∧ t <:+ l := by
  induction hc with
  | nil => cases hi
  | cons hget hrest ih =>
    rcases List.mem_cons.mp hi with rfl | hmem
    · exact ⟨_, .cons hget hrest, List.suffix_refl _⟩
    · rcases ih hmem with ⟨t, ht, hsuf⟩
      exact ⟨t, ht, hsuf.trans (List.suffix_cons _ _)⟩

theorem isChainFrom_nodup {a : List (NodeR K V)} {h : Option Nat} {l : List Nat}
    (hc : IsChainFrom a h l) : l.Nodup := by
  induction hc with
  | nil => exact List.nodup_nil
  | @cons i n rest hget hrest ih =>
    refine List.nodup_cons.mpr ⟨?_, ih⟩
    intro hmem
    rcases isChainFrom_mem_suffix hrest hmem with ⟨t, ht, hsuf⟩
    have := isChainFrom_fun (IsChainFrom.cons hget hrest) ht
    have hlen := hsuf.length_le
    rw [← this] at hlen
    simp at hlen

theorem isChainFrom_valid {a : List (NodeR K V)} {h : Option Nat} {l : List Nat}
    (hc : IsChainFrom a h l) : ∀ i ∈ l, i < a.length := by
  induction hc with
  | nil => intro i hi; cases hi
  | @cons i n rest hget hrest ih =>
    intro x hx
    rcases List.mem_cons.mp hx with rfl | hmem
    · exact (List.getElem?_eq_some.mp hget).1
    · exact ih x hmem

theorem isChainFrom_length_le {a : List (NodeR K V)} {h : Option Nat} {l : List Nat}
    (hc : IsChainFrom a h l) : l.length ≤ a.length := by
  have hnd := isChainFrom_nodup hc
  have hval := isChainFrom_valid hc
  have hcard : l.toFinset.card = l.length := List.toFinset_card_of_nodup hnd
  have hsub : l.toFinset ⊆ Finset.range a.length := by
    intro x hx
    exact Finset.mem_range.mpr (hval x (List.mem_toFinset.mp hx))
  have := Finset.card_le_card hsub
  rw [hcard, Finset.card_range] at this
  exact this

theorem chainFrom_isChainFrom {a : List (NodeR K V)} :
    ∀ {fuel : Nat} {h : Option Nat} {l : List Nat},
      chainFrom a fuel h = some l → IsChainFrom a h l := by
  intro fuel
  induction fuel with
  | zero =>
    intro h l hl
    cases h with
    | none => cases hl; exact .nil
    | some i => cases hl
  | succ fuel ih =>
    intro h l hl
    cases h with
    | none => cases hl; exact .nil
    | some i =>
      unfold chainFrom at hl
      cases hget : a[i]? with
      | none => rw [hget] at hl; dsimp only at hl; cases hl
      | some n =>
        rw [hget] at hl; dsimp only at hl
        rcases Option.map_eq_some'.mp hl with ⟨rest, hrec, hcons⟩
        subst hcons
        exact .cons hget (ih hrec)

theorem isChainFrom_chainFrom {a : List (NodeR K V)} {h : Option Nat} {l : List Nat}
    (hc : IsChainFrom a h l) :
    ∀ {fuel : Nat}, l.length < fuel → chainFrom a fuel h = some l := by
  induction hc with
  | nil =>
    intro fuel _
    cases fuel <;> rfl
  | @cons i n rest hget hrest ih =>
    intro fuel hfuel
    cases fuel with
    | zero => simp at hfuel
    | succ fuel =>
      unfold chainFrom
      rw [hget]
      dsimp only
      rw [ih (by simpa using hfuel)]
      rfl

theorem isChainOf_chainOf {s : SL K V} {j : Nat} {c : List Nat}
    (hc : IsChainOf s j c) : chainOf s j = some c := by
  rcases hc with ⟨lv, hlv, hchain⟩
  unfold chainOf
  rw [hlv]
  exact isChainFrom_chainFrom hchain
    (Nat.lt_succ_of_le (isChainFrom_length_le hchain))

theorem isChainFrom_mono {a a' : List (NodeR K V)} {h : Option Nat} {l : List Nat}
    (hc : IsChainFrom a h l)
    (H : ∀ i ∈ l, ∀ n, a[i]? = some n → ∃ n', a'[i]? = some n' ∧ n'.right = n.right) :
    IsChainFrom a' h l := by
  induction hc with
  | nil => exact .nil
  | @cons i n rest hget hrest ih =>
    rcases H i (List.mem_cons_self i rest) n hget with ⟨n', hget', hright⟩
    refine .cons hget' ?_
    rw [hright]
    exact ih (fun x hx m hm => H x (List.mem_cons_of_mem _ hx) m hm)

theorem mem_of_getElemQ {α : Type} {l : List α} {n : Nat} {a : α} (h : l[n]? = some a) :
    a ∈ l := by
  rcases List.getElem?_eq_some.mp h with ⟨hlt, rfl⟩
  exact List.getElem_mem hlt

theorem isChainFrom_right_mem {a : List (NodeR K V)} {h : Option Nat} {l : List Nat}
    (hc : IsChainFrom a h l) {i : Nat} (hi : i ∈ l) {n : NodeR K V}
    (hget : a[i]? = some n) {j : Nat} (hj : n.right = some j) : j ∈ l := by
  rcases isChainFrom_mem_suffix hc hi with ⟨t, ht, hsuf⟩
  cases ht with
  | cons hget2 hrest =>
    rw [hget] at hget2
    cases hget2
    rw [hj] at hrest
    cases hrest with
    | cons hget3 hrest3 =>
      exact hsuf.subset (List.mem_cons_of_mem _ (List.mem_cons_self _ _))

/-! ### Path algebra -/

theorem isChainFrom_iff_isPathFrom {a : List (NodeR K V)} {h : Option Nat} {l : List Nat} :
    IsChainFrom a h l ↔ IsPathFrom a h l none := by
  constructor
  · intro hc
    induction hc with
    | nil => exact .nil none
    | cons hget _ ih => exact .cons hget ih
  · intro hp
    generalize hr : (none : Option Nat) = r at hp
    induction hp with
    | nil => cases hr; exact .nil
    | cons hget _ ih => exact .cons hget (ih hr)

theorem isPathFrom_append {a : List (NodeR K V)} {h m r : Option Nat} {xs ys : List Nat}
    (h1 : IsPathFrom a h xs m) (h2 : IsPathFrom a m ys r) :
    IsPathFrom a h (xs ++ ys) r := by
  induction h1 with
  | nil => exact h2
  | cons hget _ ih => exact .cons hget (ih h2)

theorem isPathFrom_split {a : List (NodeR K V)} :
    ∀ {xs : List Nat} {h r : Option Nat} {ys : List Nat},
      IsPathFrom a h (xs ++ ys) r → ∃ m, IsPathFrom a h xs m ∧ IsPathFrom a m ys r := by
  intro xs
  induction xs with
  | nil => intro h r ys hp; exact ⟨h, .nil h, hp⟩
  | cons x xs ih =>
    intro h r ys hp
    cases hp with
    | cons hget hrest =>
      rcases ih hrest with ⟨m, hm1, hm2⟩
      exact ⟨m, .cons hget hm1, hm2⟩

theorem isPathFrom_head {a : List (NodeR K V)} {h r : Option Nat} {l : List Nat}
    (hp : IsPathFrom a h l r) : h = l.head?.or r := by
  cases hp with
  | nil => rfl
  | cons hget hrest => rfl

theorem isPathFrom_nil_inv {a : List (NodeR K V)} {h r : Option Nat}
    (hp : IsPathFrom a h [] r) : h = r := by
  have := isPathFrom_head hp
  simpa [Option.or] using this

theorem isPathFrom_singleton {a : List (NodeR K V)} {h r : Option Nat} {p : Nat}
    (hp : IsPathFrom a h [p] r) : h = some p ∧ ∃ n, a[p]? = some n ∧ n.right = r := by
  cases hp with
  | cons hget hrest => exact ⟨rfl, _, hget, isPathFrom_nil_inv hrest⟩

theorem isPathFrom_mono {a a' : List (NodeR K V)} {h r : Option Nat} {l : List Nat}
    (hc : IsPathFrom a h l r)
    (H : ∀ i ∈ l, ∀ n, a[i]? = some n → ∃ n', a'[i]? = some n' ∧ n'.right = n.right) :
    IsPathFrom a' h l r := by
  induction hc with
  | nil => exact .nil _
  | @cons i n rest r2 hget hrest ih =>
    rcases H i (List.mem_cons_self i rest) n hget with ⟨n', hget', hright⟩
    refine .cons hget' ?_
    rw [hright]
    exact ih (fun x hx m hm => H x (List.mem_cons_of_mem _ hx) m hm)

theorem isPathFrom_mem_valid {a : List (NodeR K V)} {h r : Option Nat} {l : List Nat}
    (hc : IsPathFrom a h l r) : ∀ i ∈ l, i < a.length := by
  induction hc with
  | nil => intro i hi; cases hi
  | cons hget _ ih =>
    intro x hx
    rcases List.mem_cons.mp hx with rfl | hmem
    · exact (List.getElem?_eq_some.mp hget).1
    · exact ih x hmem

/-! ### Scan characterisations -/

theorem getLast?_cons_or {α : Type} (x : α) (t : List α) :
    (x :: t).getLast? = Option.or t.getLast? (some x) := by
  cases t with
  | nil => rfl
  | cons b t =>
    rw [List.getLast?_cons_cons]
    cases h : (b :: t).getLast? with
    | none => simp [List.getLast?_eq_none_iff] at h
    | some y => rfl

theorem insScan_spec {a : List (NodeR K V)} {k : K} :
    ∀ {l : List Nat} {h0 : Option Nat}, IsChainFrom a h0 l →
      ∀ {fuel : Nat}, l.length < fuel → ∀ acc : Option Nat,
        insScan a k fuel h0 acc = .ok (Option.or (l.takeWhile (keyLeB a k)).getLast? acc) := by
  intro l h0 hc
  induction hc with
  | nil =>
    intro fuel _ acc
    cases fuel <;> rfl
  | @cons i n rest hget hrest ih =>
    intro fuel hfuel acc
    cases fuel with
    | zero => simp at hfuel
    | succ fuel =>
      show insScan a k (fuel + 1) (some i) acc = _
      unfold insScan
      rw [hget]
      dsimp only
      by_cases hle : n.key ≤ k
      · rw [if_pos hle, ih (by simpa using hfuel) (some i)]
        have htw : (i :: rest).takeWhile (keyLeB a k) = i :: rest.takeWhile (keyLeB a k) := by
          rw [List.takeWhile_cons, if_pos]
          unfold keyLeB
          rw [hget]
          simpa using hle
        rw [htw, getLast?_cons_or]
        cases hl : (rest.takeWhile (keyLeB a k)).getLast? <;> rfl
      · rw [if_neg hle]
        have htw : (i :: rest).takeWhile (keyLeB a k) = [] := by
          rw [List.takeWhile_cons, if_neg]
          unfold keyLeB
          rw [hget]
          simpa using hle
        rw [htw]
        rfl

theorem findEq_spec {a : List (NodeR K V)} {k : K} :
    ∀ {l : List Nat} {h0 : Option Nat}, IsChainFrom a h0 l →
      ∀ {fuel : Nat}, l.length < fuel →
        findEq a k fuel h0 = .ok (l.find? (fun i => match a[i]? with
          | some n => decide (n.key = k)
          | none => false)) := by
  intro l h0 hc
  induction hc with
  | nil =>
    intro fuel _
    cases fuel <;> rfl
  | @cons i n rest hget hrest ih =>
    intro fuel hfuel
    cases fuel with
    | zero => simp at hfuel
    | succ fuel =>
      show findEq a k (fuel + 1) (some i) = _
      unfold findEq
      rw [hget]
      dsimp only
      rw [List.find?_cons]
      by_cases heq : n.key = k
      · rw [if_pos heq]
        have : (match a[i]? with
            | some n => decide (n.key = k)
            | none => false) = true := by
          rw [hget]; simpa using heq
        rw [this]
      · rw [if_neg heq]
        have : (match a[i]? with
            | some n => decide (n.key = k)
            | none => false) = false := by
          rw [hget]; simpa using heq
        rw [this]
        exact ih (by simpa using hfuel)

theorem findGt_spec {a : List (NodeR K V)} {k : K} :
    ∀ {l : List Nat} {h0 : Option Nat}, IsChainFrom a h0 l →
      ∀ {fuel : Nat}, l.length < fuel →
        findGt a k fuel h0 = .ok (l.find? (fun i => match a[i]? with
          | some n => decide (k < n.key)
          | none => false)) := by
  intro l h0 hc
  induction hc with
  | nil =>
    intro fuel _
    cases fuel <;> rfl
  | @cons i n rest hget hrest ih =>
    intro fuel hfuel
    cases fuel with
    | zero => simp at hfuel
    | succ fuel =>
      show findGt a k (fuel + 1) (some i) = _
      unfold findGt
      rw [hget]
      dsimp only
      rw [List.find?_cons]
      by_cases heq : k < n.key
      · rw [if_pos heq]
        have : (match a[i]? with
            | some n => decide (k < n.key)
            | none => false) = true := by
          rw [hget]; simpa using heq
        rw [this]
      · rw [if_neg heq]
        have : (match a[i]? with
            | some n => decide (k < n.key)
            | none => false) = false := by
          rw [hget]; simpa using heq
        rw [this]
        exact ih (by simpa using hfuel)

theorem lastOf_spec {a : List (NodeR K V)} :
    ∀ {l : List Nat} {h0 : Option Nat}, IsChainFrom a h0 l →
      ∀ {fuel : Nat}, l.length < fuel → ∀ acc : Option Nat,
        lastOf a fuel h0 acc = .ok (Option.or l.getLast? acc) := by
  intro l h0 hc
  induction hc with
  | nil =>
    intro fuel _ acc
    cases fuel <;> rfl
  | @cons i n rest hget hrest ih =>
    intro fuel hfuel acc
    cases fuel with
    | zero => simp at hfuel
    | succ fuel =>
      show lastOf a (fuel + 1) (some i) acc = _
      unfold lastOf
      rw [hget]
      dsimp only
      rw [ih (by simpa using hfuel) (some i), getLast?_cons_or]
      cases hl : rest.getLast? <;> rfl

/-! ### Liveness lemmas: chain members are alive; in a standalone level
nothing else is. -/

theorem mem_aliveStep_self {s : SL K V} {cur : List Nat} {i : Nat} (h : i ∈ cur) :
    i ∈ aliveStep s cur := by
  unfold aliveStep
  rw [List.mem_dedup]
  exact List.mem_append_left _ h

theorem mem_aliveStep_next {s : SL K V} {cur : List Nat} {i j : Nat} (h : i ∈ cur)
    (hj : j ∈ strongNext s i) : j ∈ aliveStep s cur := by
  unfold aliveStep
  rw [List.mem_dedup]
  exact List.mem_append_right _ (List.mem_flatMap.mpr ⟨i, h, hj⟩)

theorem subset_iterate_aliveStep (s : SL K V) :
    ∀ (m : Nat) (cur : List Nat), ∀ i ∈ cur, i ∈ (aliveStep s)^[m] cur := by
  intro m
  induction m with
  | zero => intro cur i h; simpa using h
  | succ m ih =>
    intro cur i h
    rw [Function.iterate_succ_apply]
    exact ih (aliveStep s cur) i (mem_aliveStep_self h)

theorem chain_mem_iterate {s : SL K V} :
    ∀ {l : List Nat} {h0 : Option Nat}, IsChainFrom s.nodes h0 l →
      ∀ (cur : List Nat), (∀ r : Nat, h0 = some r → r ∈ cur) →
      ∀ m : Nat, l.length ≤ m → ∀ i ∈ l, i ∈ (aliveStep s)^[m] cur := by
  intro l h0 hc
  induction hc with
  | nil => intro cur _ m _ i hi; cases hi
  | @cons i n rest hget hrest ih =>
    intro cur hcur m hm x hx
    have hicur : i ∈ cur := hcur i rfl
    rcases List.mem_cons.mp hx with rfl | hmem
    · exact subset_iterate_aliveStep s m cur x hicur
    · cases m with
      | zero => simp at hm
      | succ m =>
        rw [Function.iterate_succ_apply]
        refine ih (aliveStep s cur) ?_ m (by simpa using hm) x hmem
        intro r hr
        refine mem_aliveStep_next hicur ?_
        unfold strongNext
        rw [hget]
        refine List.mem_append_left _ ?_
        rw [hr]
        simp

theorem chain_subset_alive {s : SL K V} {j : Nat} {c : List Nat} (hc : IsChainOf s j c) :
    ∀ i ∈ c, i ∈ aliveIds s := by
  rcases hc with ⟨lv, hlv, hchain⟩
  intro i hi
  unfold aliveIds
  refine chain_mem_iterate hchain _ ?_ s.nodes.length (isChainFrom_length_le hchain) i hi
  intro r hr
  exact List.mem_filterMap.mpr ⟨lv, mem_of_getElemQ hlv, hr⟩

theorem alive_subset_chain {s : SL K V} {lv : LevelR} {c : List Nat}
    (hlevels : s.levels = [lv]) (hchain : IsChainFrom s.nodes lv.head c)
    (hdown : ∀ (i : Nat) (n : NodeR K V), s.nodes[i]? = some n → n.down = none) :
    ∀ i ∈ aliveIds s, i ∈ c := by
  have hclosed : ∀ i ∈ c, ∀ x ∈ strongNext s i, x ∈ c := by
    intro i hi x hx
    unfold strongNext at hx
    cases hget : s.nodes[i]? with
    | none => rw [hget] at hx; cases hx
    | some n =>
      rw [hget] at hx
      rcases List.mem_append.mp hx with hr | hd
      · rcases Option.mem_toList.mp hr with hr2
        exact isChainFrom_right_mem hchain hi hget hr2
      · rw [hdown i n hget] at hd
        cases hd
  have hstep : ∀ (cur : List Nat), (∀ x ∈ cur, x ∈ c) →
      ∀ x ∈ aliveStep s cur, x ∈ c := by
    intro cur hcur x hx
    unfold aliveStep at hx
    rw [List.mem_dedup] at hx
    rcases List.mem_append.mp hx with h1 | h1
    · exact hcur x h1
    · rcases List.mem_flatMap.mp h1 with ⟨y, hy, hxy⟩
      exact hclosed y (hcur y hy) x hxy
  have hiter : ∀ (m : Nat) (cur : List Nat), (∀ x ∈ cur, x ∈ c) →
      ∀ x ∈ (aliveStep s)^[m] cur, x ∈ c := by
    intro m
    induction m with
    | zero => intro cur h x hx; exact h x (by simpa using hx)
    | succ m ih =>
      intro cur h x hx
      rw [Function.iterate_succ_apply] at hx
      exact ih (aliveStep s cur) (hstep cur h) x hx
  intro i hi
  unfold aliveIds at hi
  refine hiter s.nodes.length _ ?_ i hi
  intro x hx
  rw [hlevels] at hx
  simp only [List.filterMap] at hx
  cases hh : lv.head with
  | none => rw [hh] at hx; cases hx
  | some r =>
    rw [hh] at hx
    rcases List.mem_cons.mp hx with rfl | h2
    · rw [hh] at hchain
      cases hchain with
      | cons hget hrest => exact List.mem_cons_self _ _
    · cases h2

/-! ### Effect of `Level::insert` -/

theorem pmBindOk {α β : Type} (a : α) (f : α → PM β) :
    (Except.ok a : PM α) >>= f = f a := rfl

theorem isChainFrom_nil_head {a : List (NodeR K V)} {h : Option Nat}
    (hc : IsChainFrom a h []) : h = none := by
  cases hc; rfl

theorem isChainFrom_cons_head {a : List (NodeR K V)} {h : Option Nat} {x : Nat} {t : List Nat}
    (hc : IsChainFrom a h (x :: t)) : h = some x := by
  cases hc; rfl

theorem isChainFrom_cons_inv {a : List (NodeR K V)} {h : Option Nat} {x : Nat} {t : List Nat}
    (hc : IsChainFrom a h (x :: t)) : ∃ n, a[x]? = some n ∧ IsChainFrom a n.right t := by
  cases hc with
  | cons hget hrest => exact ⟨_, hget, hrest⟩

theorem levelInsert_spec {s : SL K V} {j : Nat} {lv : LevelR} {c : List Nat}
    (k : K) (v : V) (hlv : s.levels[j]? = some lv) (hchain : IsChainFrom s.nodes lv.head c) :
    ∃ s', levelInsert s j k v = .ok (s', s.nodes.length) ∧ InsEff s j lv c k v s' := by
  have hgl : getLevel s j = .ok lv := by unfold getLevel; rw [hlv]
  have hfuel : c.length < fuelOf s := Nat.lt_succ_of_le (isChainFrom_length_le hchain)
  have hscan0 := insScan_spec (k := k) hchain hfuel none
  rw [Option.or_none] at hscan0
  have hscan : insScan s.nodes k (fuelOf s) lv.head none =
      .ok (lePrefixOf s.nodes k c).getLast? := hscan0
  have hsplit : lePrefixOf s.nodes k c ++ gtSuffixOf s.nodes k c = c :=
    List.takeWhile_append_dropWhile _ _
  have hnd : c.Nodup := isChainFrom_nodup hchain
  have hvalid : ∀ i ∈ c, i < s.nodes.length := isChainFrom_valid hchain
  cases hc1 : (lePrefixOf s.nodes k c).getLast? with
  | none =>
    have hc1e : lePrefixOf s.nodes k c = [] := List.getLast?_eq_none_iff.mp hc1
    have hc2e : gtSuffixOf s.nodes k c = c := by
      have h2 := hsplit
      rw [hc1e] at h2
      simpa using h2
    cases hhead : lv.head with
    | none =>
      have hcc : c = [] := by
        cases hhead ▸ hchain
        rfl
      refine ⟨setLevel (pushNode s (NodeR.mk k v none none none none j) : SL K V × Nat).1 j
        (fun l => { l with head := some s.nodes.length, size := l.size + 1 }), ?_, ?_⟩
      · unfold levelInsert
        rw [hgl, pmBindOk, hscan, hc1, pmBindOk]
        dsimp only
        rw [hhead]
        rfl
      · constructor
        · rw [nodes_setLevel]; exact nodes_length_pushNode s _
        · rw [size_setLevel]; rfl
        · rw [levels_length_setLevel]; rfl
        · intro j' hj'
          rw [levels_setLevel, if_neg hj']; rfl
        · rw [levels_setLevel, if_pos rfl, levels_pushNode, hlv, hc1e, if_pos rfl]
          rfl
        · rw [nodes_setLevel, nodes_pushNode, if_pos rfl, hc1e, hc2e, hcc]
          rfl
        · intro i n hget
          have hi : i < s.nodes.length := (List.getElem?_eq_some.mp hget).1
          refine ⟨n, ?_, rfl, rfl, rfl, rfl, rfl, ?_, ?_⟩
          · rw [nodes_setLevel, nodes_pushNode, if_neg (Nat.ne_of_lt hi), hget]
          · rw [hc1, if_neg (by simp)]
          · rw [hc2e, hcc, if_neg (by simp)]
        · refine ⟨LevelR.mk (lv.size + 1) (some s.nodes.length), ?_, ?_⟩
          · rw [levels_setLevel, if_pos rfl, levels_pushNode, hlv]; rfl
          · rw [hc1e, hc2e, hcc]
            dsimp only
            refine .cons (n := NodeR.mk k v none none none none j) ?_ ?_
            · rw [nodes_setLevel, nodes_pushNode, if_pos rfl]
            · show IsChainFrom _ (Option.none) _
              exact .nil
    | some h0 =>
      obtain ⟨rest, hcc⟩ : ∃ t, c = h0 :: t := by
        cases hhead ▸ hchain with
        | cons hget2 hrest2 => exact ⟨_, rfl⟩
      have hh0 : h0 < s.nodes.length := hvalid h0 (by rw [hcc]; exact List.mem_cons_self _ _)
      refine ⟨setLeft (setLevel (pushNode s (NodeR.mk k v (some h0) none none none j)
          : SL K V × Nat).1 j
        (fun l => { l with head := some s.nodes.length, size := l.size + 1 }))
        h0 (some s.nodes.length), ?_, ?_⟩
      · unfold levelInsert
        rw [hgl, pmBindOk, hscan, hc1, pmBindOk]
        dsimp only
        rw [hhead]
        rfl
      · have hnodes : ∀ q : Nat,
            (setLeft (setLevel (pushNode s (NodeR.mk k v (some h0) none none none j)
                : SL K V × Nat).1 j
              (fun l => { l with head := some s.nodes.length, size := l.size + 1 }))
              h0 (some s.nodes.length)).nodes[q]? =
            if h0 = q then ((pushNode s (NodeR.mk k v (some h0) none none none j)
                : SL K V × Nat).1.nodes[q]?).map
                  (fun n => { n with left := some s.nodes.length })
            else (pushNode s (NodeR.mk k v (some h0) none none none j)
                : SL K V × Nat).1.nodes[q]? := by
          intro q
          rw [nodes_setLeft]
          by_cases hq : h0 = q
          · rw [if_pos hq, if_pos hq, nodes_setLevel]
          · rw [if_neg hq, if_neg hq, nodes_setLevel]
        constructor
        · rw [nodes_length_setLeft, nodes_setLevel]; exact nodes_length_pushNode s _
        · rw [size_setLeft, size_setLevel]; rfl
        · rw [levels_setLeft, levels_length_setLevel]; rfl
        · intro j' hj'
          rw [levels_setLeft, levels_setLevel, if_neg hj']; rfl
        · rw [levels_setLeft, levels_setLevel, if_pos rfl, levels_pushNode, hlv, hc1e,
            if_pos rfl]
          rfl
        · rw [hnodes, if_neg (Nat.ne_of_lt hh0), nodes_pushNode, if_pos rfl, hc1e, hc2e, hcc]
          rfl
        · intro i n hget
          have hi : i < s.nodes.length := (List.getElem?_eq_some.mp hget).1
          by_cases hih : h0 = i
          · subst hih
            refine ⟨{ n with left := some s.nodes.length }, ?_, rfl, rfl, rfl, rfl, rfl, ?_, ?_⟩
            · rw [hnodes, if_pos rfl, nodes_pushNode, if_neg (Nat.ne_of_lt hi), hget]
              rfl
            · rw [hc1, if_neg (by simp)]
            · rw [hc2e, hcc, if_pos (by simp)]
          · refine ⟨n, ?_, rfl, rfl, rfl, rfl, rfl, ?_, ?_⟩
            · rw [hnodes, if_neg hih, nodes_pushNode, if_neg (Nat.ne_of_lt hi), hget]
            · rw [hc1, if_neg (by simp)]
            · rw [hc2e, hcc, if_neg (by simp [hih])]
        · refine ⟨LevelR.mk (lv.size + 1) (some s.nodes.length), ?_, ?_⟩
          · rw [levels_setLeft, levels_setLevel, if_pos rfl, levels_pushNode, hlv]; rfl
          · rw [hc1e, hc2e]
            dsimp only
            refine .cons (n := NodeR.mk k v (some h0) none none none j) ?_ ?_
            · rw [hnodes, if_neg (Nat.ne_of_lt hh0), nodes_pushNode, if_pos rfl]
            · show IsChainFrom _ (some h0) _
              refine isChainFrom_mono (hhead ▸ hchain) ?_
              intro i hi n hget
              have hilt : i < s.nodes.length := hvalid i hi
              by_cases hih : h0 = i
              · subst hih
                refine ⟨{ n with left := some s.nodes.length }, ?_, rfl⟩
                rw [hnodes, if_pos rfl, nodes_pushNode, if_neg (Nat.ne_of_lt hilt), hget]
                rfl
              · exact ⟨n, by
                  rw [hnodes, if_neg hih, nodes_pushNode, if_neg (Nat.ne_of_lt hilt), hget], rfl⟩
  | some p =>
    rcases List.getLast?_eq_some_iff.mp hc1 with ⟨c₁x, hc₁x⟩
    have hpath : IsPathFrom s.nodes lv.head c none := isChainFrom_iff_isPathFrom.mp hchain
    have hceq : c = (c₁x ++ [p]) ++ gtSuffixOf s.nodes k c := by
      conv_lhs => rw [← hsplit, hc₁x]
    have hpath2 : IsPathFrom s.nodes lv.head ((c₁x ++ [p]) ++ gtSuffixOf s.nodes k c) none := by
      rw [← hceq]; exact hpath
    rcases isPathFrom_split hpath2 with ⟨m, hp1, hp2⟩
    rcases isPathFrom_split hp1 with ⟨m1, hp1a, hp1b⟩
    rcases isPathFrom_singleton hp1b with ⟨hm1, pn, hpn, hpnr⟩
    have hm : m = (gtSuffixOf s.nodes k c).head? := by
      have h2 := isPathFrom_head hp2
      rw [Option.or_none] at h2
      exact h2
    have hgetp : getNode s p = .ok pn := by unfold getNode; rw [hpn]
    have hplt : p < s.nodes.length := (List.getElem?_eq_some.mp hpn).1
    have hndc : ((c₁x ++ [p]) ++ gtSuffixOf s.nodes k c).Nodup := by
      rw [← hceq]; exact hnd
    have hdisj : (c₁x ++ [p]).Disjoint (gtSuffixOf s.nodes k c) :=
      (List.nodup_append.mp hndc).2.2
    have hpc1 : p ∉ c₁x := by
      intro hmem
      have hnd1 : (c₁x ++ [p]).Nodup := (List.nodup_append.mp hndc).1
      exact (List.nodup_append.mp hnd1).2.2 hmem (List.mem_singleton.mpr rfl)
    have hpg : p ∉ gtSuffixOf s.nodes k c := by
      intro hmem
      exact hdisj (List.mem_append_right _ (List.mem_singleton.mpr rfl)) hmem
    have hmemc1 : ∀ i ∈ c₁x, i ∈ c := by
      intro i hi
      rw [hceq]
      exact List.mem_append_left _ (List.mem_append_left _ hi)
    have hmemg : ∀ i ∈ gtSuffixOf s.nodes k c, i ∈ c := by
      intro i hi
      rw [hceq]
      exact List.mem_append_right _ hi
    cases hc2 : gtSuffixOf s.nodes k c with
    | nil =>
      have hpnr2 : pn.right = none := by rw [hpnr, hm, hc2]; rfl
      refine ⟨setLevel (setRight (pushNode s (NodeR.mk k v none none (some p) none j)
          : SL K V × Nat).1 p (some s.nodes.length)) j
        (fun l => { l with size := l.size + 1 }), ?_, ?_⟩
      · unfold levelInsert
        rw [hgl, pmBindOk, hscan, hc1, pmBindOk]
        dsimp only
        rw [hgetp, pmBindOk, hpnr2]
        rfl
      · have hnodes : ∀ q : Nat,
            (setLevel (setRight (pushNode s (NodeR.mk k v none none (some p) none j)
                : SL K V × Nat).1 p (some s.nodes.length)) j
              (fun l => { l with size := l.size + 1 })).nodes[q]? =
            if p = q
              then ((pushNode s (NodeR.mk k v none none (some p) none j)
                : SL K V × Nat).1.nodes[q]?).map (fun n => { n with right := some s.nodes.length })
              else (pushNode s (NodeR.mk k v none none (some p) none j)
                : SL K V × Nat).1.nodes[q]? := by
          intro q
          rw [nodes_setLevel, nodes_setRight]
        constructor
        · rw [nodes_setLevel, nodes_length_setRight]; exact nodes_length_pushNode s _
        · rw [size_setLevel, size_setRight]; rfl
        · rw [levels_length_setLevel, levels_setRight]; rfl
        · intro j' hj'
          rw [levels_setLevel, if_neg hj', levels_setRight]; rfl
        · rw [levels_setLevel, if_pos rfl, levels_setRight, levels_pushNode, hlv]
          dsimp only [Option.map]
          rw [hc₁x, if_neg (by simp)]
        · rw [hnodes, if_neg (Nat.ne_of_lt hplt), nodes_pushNode, if_pos rfl, hc1, hc2]
          rfl
        · intro i n hget
          have hi : i < s.nodes.length := (List.getElem?_eq_some.mp hget).1
          by_cases hip : p = i
          · subst hip
            have hn : n = pn := by rw [hget] at hpn; cases hpn; rfl
            subst hn
            refine ⟨{ n with right := some s.nodes.length }, ?_, rfl, rfl, rfl, rfl, rfl, ?_, ?_⟩
            · rw [hnodes, if_pos rfl, nodes_pushNode, if_neg (Nat.ne_of_lt hi), hget]
              rfl
            · rw [hc1, if_pos rfl]
            · rw [hc2, if_neg (by simp)]
          · refine ⟨n, ?_, rfl, rfl, rfl, rfl, rfl, ?_, ?_⟩
            · rw [hnodes, if_neg hip, nodes_pushNode, if_neg (Nat.ne_of_lt hi), hget]
            · rw [hc1, if_neg ?_]
              intro hcontra
              cases hcontra
              exact hip rfl
            · rw [hc2, if_neg (by simp)]
        · refine ⟨LevelR.mk (lv.size + 1) lv.head, ?_, ?_⟩
          · rw [levels_setLevel, if_pos rfl, levels_setRight, levels_pushNode, hlv]; rfl
          · dsimp only
            rw [hc₁x, hc2]
            have hrpres : ∀ i ∈ c₁x, ∀ n : NodeR K V, s.nodes[i]? = some n →
                ∃ n', (setLevel (setRight (pushNode s (NodeR.mk k v none none (some p) none j)
                    : SL K V × Nat).1 p (some s.nodes.length)) j
                  (fun l => { l with size := l.size + 1 })).nodes[i]? = some n' ∧
                  n'.right = n.right := by
              intro i hi n hget
              have hilt : i < s.nodes.length := hvalid i (hmemc1 i hi)
              have hip : p ≠ i := fun hh => hpc1 (hh ▸ hi)
              exact ⟨n, by
                rw [hnodes, if_neg hip, nodes_pushNode, if_neg (Nat.ne_of_lt hilt), hget], rfl⟩
            refine isChainFrom_iff_isPathFrom.mpr ?_
            have hP1 := isPathFrom_mono hp1a hrpres
            have hP2 : IsPathFrom (setLevel (setRight (pushNode s
                (NodeR.mk k v none none (some p) none j) : SL K V × Nat).1 p
                  (some s.nodes.length)) j
                (fun l => { l with size := l.size + 1 })).nodes m1 [p]
                (some s.nodes.length) := by
              rw [hm1]
              refine .cons (n := { pn with right := some s.nodes.length }) ?_ ?_
              · rw [hnodes, if_pos rfl, nodes_pushNode, if_neg (Nat.ne_of_lt hplt), hpn]
                rfl
              · exact .nil _
            have hP3 : IsPathFrom (setLevel (setRight (pushNode s
                (NodeR.mk k v none none (some p) none j) : SL K V × Nat).1 p
                  (some s.nodes.length)) j
                (fun l => { l with size := l.size + 1 })).nodes (some s.nodes.length)
                [s.nodes.length] none := by
              refine .cons (n := NodeR.mk k v none none (some p) none j) ?_ ?_
              · rw [hnodes, if_neg (Nat.ne_of_lt hplt), nodes_pushNode, if_pos rfl]
              · exact .nil _
            have := isPathFrom_append (isPathFrom_append hP1 hP2) hP3
            simpa using this
    | cons nxt c₂x =>
      have hpnr2 : pn.right = some nxt := by rw [hpnr, hm, hc2]; rfl
      have hnxtg : nxt ∈ gtSuffixOf s.nodes k c := by rw [hc2]; exact List.mem_cons_self _ _
      have hnxtlt : nxt < s.nodes.length := hvalid nxt (hmemg nxt hnxtg)
      have hpnxt : p ≠ nxt := by
        intro hh
        exact hpg (hh ▸ hnxtg)
      refine ⟨setLevel (setRight (setLeft (pushNode s
          (NodeR.mk k v (some nxt) none (some p) none j) : SL K V × Nat).1
          nxt (some s.nodes.length)) p (some s.nodes.length)) j
        (fun l => { l with size := l.size + 1 }), ?_, ?_⟩
      · unfold levelInsert
        rw [hgl, pmBindOk, hscan, hc1, pmBindOk]
        dsimp only
        rw [hgetp, pmBindOk, hpnr2]
        rfl
      · have hnodes : ∀ q : Nat,
            (setLevel (setRight (setLeft (pushNode s
                (NodeR.mk k v (some nxt) none (some p) none j) : SL K V × Nat).1
                nxt (some s.nodes.length)) p (some s.nodes.length)) j
              (fun l => { l with size := l.size + 1 })).nodes[q]? =
            if p = q
              then ((pushNode s (NodeR.mk k v (some nxt) none (some p) none j)
                : SL K V × Nat).1.nodes[q]?).map (fun n => { n with right := some s.nodes.length })
              else if nxt = q
                then ((pushNode s (NodeR.mk k v (some nxt) none (some p) none j)
                  : SL K V × Nat).1.nodes[q]?).map (fun n => { n with left := some s.nodes.length })
                else (pushNode s (NodeR.mk k v (some nxt) none (some p) none j)
                  : SL K V × Nat).1.nodes[q]? := by
          intro q
          rw [nodes_setLevel, nodes_setRight, nodes_setLeft]
          by_cases hq : p = q
          · rw [if_pos hq, if_pos hq,
              if_neg (show ¬ nxt = q from fun h => hpnxt (hq.trans h.symm))]
          · rw [if_neg hq, if_neg hq]
        constructor
        · rw [nodes_setLevel, nodes_length_setRight, nodes_length_setLeft]
          exact nodes_length_pushNode s _
        · rw [size_setLevel, size_setRight, size_setLeft]; rfl
        · rw [levels_length_setLevel, levels_setRight, levels_setLeft]; rfl
        · intro j' hj'
          rw [levels_setLevel, if_neg hj', levels_setRight, levels_setLeft]; rfl
        · rw [levels_setLevel, if_pos rfl, levels_setRight, levels_setLeft, levels_pushNode, hlv]
          dsimp only [Option.map]
          rw [hc₁x, if_neg (by simp)]
        · rw [hnodes, if_neg (Nat.ne_of_lt hplt), if_neg (Nat.ne_of_lt hnxtlt),
            nodes_pushNode, if_pos rfl, hc1, hc2]
          rfl
        · intro i n hget
          have hi : i < s.nodes.length := (List.getElem?_eq_some.mp hget).1
          by_cases hip : p = i
          · subst hip
            have hn : n = pn := by rw [hget] at hpn; cases hpn; rfl
            subst hn
            refine ⟨{ n with right := some s.nodes.length }, ?_, rfl, rfl, rfl, rfl, rfl, ?_, ?_⟩
            · rw [hnodes, if_pos rfl, nodes_pushNode, if_neg (Nat.ne_of_lt hi), hget]
              rfl
            · rw [hc1, if_pos rfl]
            · have hcond : ¬ ((nxt :: c₂x).head? = some p) := by
                simp
                exact fun h => hpnxt h.symm
              rw [hc2, if_neg hcond]
          · by_cases hin : nxt = i
            · subst hin
              refine ⟨{ n with left := some s.nodes.length }, ?_, rfl, rfl, rfl, rfl, rfl, ?_, ?_⟩
              · rw [hnodes, if_neg hip, if_pos rfl, nodes_pushNode,
                  if_neg (Nat.ne_of_lt hi), hget]
                rfl
              · have hcond : ¬ ((some p : Option Nat) = some nxt) := by
                  simp
                  exact fun h => hip h
                rw [hc1, if_neg hcond]
              · rw [hc2, if_pos (by simp)]
            · refine ⟨n, ?_, rfl, rfl, rfl, rfl, rfl, ?_, ?_⟩
              · rw [hnodes, if_neg hip, if_neg hin, nodes_pushNode,
                  if_neg (Nat.ne_of_lt hi), hget]
              · have hcond : ¬ ((some p : Option Nat) = some i) := by
                  simp
                  exact fun h => hip h
                rw [hc1, if_neg hcond]
              · have hcond : ¬ ((nxt :: c₂x).head? = some i) := by
                  simp
                  exact fun h => hin h
                rw [hc2, if_neg hcond]
        · refine ⟨LevelR.mk (lv.size + 1) lv.head, ?_, ?_⟩
          · rw [levels_setLevel, if_pos rfl, levels_setRight, levels_setLeft,
              levels_pushNode, hlv]
            rfl
          · dsimp only
            rw [hc₁x, hc2]
            have hrpres1 : ∀ i ∈ c₁x, ∀ n : NodeR K V, s.nodes[i]? = some n →
                ∃ n', (setLevel (setRight (setLeft (pushNode s
                    (NodeR.mk k v (some nxt) none (some p) none j) : SL K V × Nat).1
                    nxt (some s.nodes.length)) p (some s.nodes.length)) j
                  (fun l => { l with size := l.size + 1 })).nodes[i]? = some n' ∧
                  n'.right = n.right := by
              intro i hi n hget
              have hilt : i < s.nodes.length := hvalid i (hmemc1 i hi)
              have hip : p ≠ i := fun hh => hpc1 (hh ▸ hi)
              by_cases hin : nxt = i
              · refine ⟨{ n with left := some s.nodes.length }, ?_, rfl⟩
                rw [hnodes, if_neg hip, if_pos hin, nodes_pushNode,
                  if_neg (Nat.ne_of_lt hilt), hget]
                rfl
              · exact ⟨n, by
                  rw [hnodes, if_neg hip, if_neg hin, nodes_pushNode,
                    if_neg (Nat.ne_of_lt hilt), hget], rfl⟩
            refine isChainFrom_iff_isPathFrom.mpr ?_
            have hP1 := isPathFrom_mono hp1a hrpres1
            have hP2 : IsPathFrom (setLevel (setRight (setLeft (pushNode s
                (NodeR.mk k v (some nxt) none (some p) none j) : SL K V × Nat).1
                nxt (some s.nodes.length)) p (some s.nodes.length)) j
                (fun l => { l with size := l.size + 1 })).nodes m1 [p]
                (some s.nodes.length) := by
              rw [hm1]
              refine .cons (n := { pn with right := some s.nodes.length }) ?_ ?_
              · rw [hnodes, if_pos rfl, nodes_pushNode, if_neg (Nat.ne_of_lt hplt), hpn]
                rfl
              · exact .nil _
            have hP3 : IsPathFrom (setLevel (setRight (setLeft (pushNode s
                (NodeR.mk k v (some nxt) none (some p) none j) : SL K V × Nat).1
                nxt (some s.nodes.length)) p (some s.nodes.length)) j
                (fun l => { l with size := l.size + 1 })).nodes (some s.nodes.length)
                [s.nodes.length] (some nxt) := by
              refine .cons (n := NodeR.mk k v (some nxt) none (some p) none j) ?_ ?_
              · rw [hnodes, if_neg (Nat.ne_of_lt hplt), if_neg (Nat.ne_of_lt hnxtlt),
                  nodes_pushNode, if_pos rfl]
              · exact .nil _
            have hP4 : IsPathFrom (setLevel (setRight (setLeft (pushNode s
                (NodeR.mk k v (some nxt) none (some p) none j) : SL K V × Nat).1
                nxt (some s.nodes.length)) p (some s.nodes.length)) j
                (fun l => { l with size := l.size + 1 })).nodes (some nxt)
                (gtSuffixOf s.nodes k c) none := by
              have hm2 : m = some nxt := by rw [hm, hc2]; rfl
              refine isPathFrom_mono (hm2 ▸ hp2) ?_
              intro i hi n hget
              have hilt : i < s.nodes.length := hvalid i (hmemg i hi)
              have hip : p ≠ i := fun hh => hpg (hh ▸ hi)
              by_cases hin : nxt = i
              · refine ⟨{ n with left := some s.nodes.length }, ?_, rfl⟩
                rw [hnodes, if_neg hip, if_pos hin, nodes_pushNode,
                  if_neg (Nat.ne_of_lt hilt), hget]
                rfl
              · exact ⟨n, by
                  rw [hnodes, if_neg hip, if_neg hin, nodes_pushNode,
                    if_neg (Nat.ne_of_lt hilt), hget], rfl⟩
            have hall := isPathFrom_append (isPathFrom_append (isPathFrom_append hP1 hP2) hP3)
              (hc2 ▸ hP4)
            simpa using hall

/-! ### Effect of `Level::delete` -/

theorem find?_split {α : Type} {p : α → Bool} :
    ∀ {l : List α} {a : α}, l.find? p = some a →
      ∃ l₁ l₂, l = l₁ ++ a :: l₂ ∧ ∀ x ∈ l₁, p x = false := by
  intro l
  induction l with
  | nil => intro a h; cases h
  | cons x t ih =>
    intro a h
    by_cases hx : p x = true
    · rw [List.find?_cons_of_pos t hx] at h
      obtain rfl : x = a := Option.some.inj h
      exact ⟨[], t, rfl, fun y hy => absurd hy (List.not_mem_nil y)⟩
    · rw [List.find?_cons_of_neg t hx] at h
      rcases ih h with ⟨l₁, l₂, hle, hl₁⟩
      refine ⟨x :: l₁, l₂, by rw [hle]; rfl, ?_⟩
      intro y hy
      rcases List.mem_cons.mp hy with rfl | hy2
      · cases hpx : p y with
        | false => rfl
        | true => exact absurd hpx hx
      · exact hl₁ y hy2

/-- Characterisation of `Level::delete` (skiplist.rs lines 195-221)
against the chain `c` of the target level: either no node carries the
key and the state is returned unchanged, or the chain splits as
`c₁ ++ d :: c₂` around the first node `d` carrying the key, with the
scanned part `c₁` key-free; the call then underflows when the size
counter is already zero, and otherwise lands in one of three regimes
decided by `d.left.upgrade()`: the interior splice around the chain
predecessor `q` (when `c₁` ends in `q`), the clean head splice (when
`d` heads the chain and its `left` is dead), or the corrupting splice
through a stale but still-live `left` target `x` outside the chain. -/
theorem levelDelete_spec {s : SL K V} {j : Nat} {lv : LevelR} {c : List Nat} (k : K)
    (hlv : s.levels[j]? = some lv) (hchain : IsChainFrom s.nodes lv.head c)
    (hadj : LeftAdj s.nodes c) (hhlo : HeadLeftOk s.nodes c) :
    (levelDelete s j k = .ok s ∧
      ∀ i ∈ c, ∀ n : NodeR K V, s.nodes[i]? = some n → n.key ≠ k) ∨
    ∃ c₁ d c₂, c = c₁ ++ d :: c₂ ∧
      (∀ i ∈ c₁, ∀ n : NodeR K V, s.nodes[i]? = some n → n.key ≠ k) ∧
      (∃ dn : NodeR K V, s.nodes[d]? = some dn ∧ dn.key = k) ∧
      ((lv.size = 0 ∧ levelDelete s j k = .error .underflow) ∨
       ∃ s', levelDelete s j k = .ok s' ∧ lv.size ≠ 0 ∧
         ((∃ c₁x q, c₁ = c₁x ++ [q] ∧ DelInterior s j lv c₁ c₂ d q s') ∨
          (c₁ = [] ∧ DelHeadClean s j lv c₂ d s') ∨
          (c₁ = [] ∧ ∃ x, DelCorrupt s j lv c₂ d x s'))) := by
  have hgl : getLevel s j = .ok lv := by unfold getLevel; rw [hlv]
  have hfuel : c.length < fuelOf s := Nat.lt_succ_of_le (isChainFrom_length_le hchain)
  have hfind := findEq_spec (k := k) hchain hfuel
  cases hfq : c.find? (fun i => match s.nodes[i]? with
      | some n => decide (n.key = k)
      | none => false) with
  | none =>
    rw [hfq] at hfind
    refine .inl ⟨?_, ?_⟩
    · unfold levelDelete
      rw [hgl, pmBindOk, hfind, pmBindOk]
      rfl
    · intro i hi n hget
      have h2 := List.find?_eq_none.mp hfq i hi
      rw [hget] at h2
      simpa using h2
  | some d =>
    rw [hfq] at hfind
    have hpredd := List.find?_some hfq
    obtain ⟨dn, hdget, hdkey⟩ : ∃ dn : NodeR K V, s.nodes[d]? = some dn ∧ dn.key = k := by
      cases hget : s.nodes[d]? with
      | none => rw [hget] at hpredd; simp at hpredd
      | some n =>
        rw [hget] at hpredd
        exact ⟨n, rfl, by simpa using hpredd⟩
    rcases find?_split hfq with ⟨c₁, c₂, hceq, hc₁f⟩
    refine .inr ⟨c₁, d, c₂, hceq, ?_, ⟨dn, hdget, hdkey⟩, ?_⟩
    · intro i hi n hget
      have h2 := hc₁f i hi
      rw [hget] at h2
      simpa using h2
    · have hgn : getNode s d = .ok dn := by unfold getNode; rw [hdget]
      have hnd : c.Nodup := isChainFrom_nodup hchain
      have hchain2 : IsChainFrom s.nodes lv.head (c₁ ++ d :: c₂) := by
        rw [← hceq]; exact hchain
      rcases isPathFrom_split (isChainFrom_iff_isPathFrom.mp hchain2) with ⟨m, hp1, hp2⟩
      have hsplit2 : m = some d ∧ ∃ dn2 : NodeR K V, s.nodes[d]? = some dn2 ∧
          IsChainFrom s.nodes dn2.right c₂ := by
        cases hp2 with
        | cons hget2 hrest2 =>
          exact ⟨rfl, _, hget2, isChainFrom_iff_isPathFrom.mpr hrest2⟩
      obtain ⟨hm, dn2, hd2, hc2chain⟩ := hsplit2
      rw [hdget] at hd2
      obtain rfl : dn = dn2 := Option.some.inj hd2
      subst hm
      have hdr : dn.right = c₂.head? := by
        cases c₂ with
        | nil => simpa using isChainFrom_nil_head hc2chain
        | cons y t => simpa using isChainFrom_cons_head hc2chain
      have hnd2 : (c₁ ++ d :: c₂).Nodup := by rw [← hceq]; exact hnd
      rw [List.nodup_append] at hnd2
      have hdisj : ∀ a ∈ c₁, a ∉ d :: c₂ := fun a ha hb => hnd2.2.2 ha hb
      have hdc₂ : d ∉ c₂ := (List.nodup_cons.mp hnd2.2.1).1
      rcases List.eq_nil_or_concat c₁ with hc₁e | ⟨c₁x, q, hc₁e⟩
      · -- d heads the chain: its weak left is dead or dangles outside the chain
        have hceq2 : c = d :: c₂ := by rw [hceq, hc₁e]; rfl
        have hchain3 : IsChainFrom s.nodes lv.head (d :: c₂) := by
          rw [← hceq2]; exact hchain
        have hhead : lv.head = some d := isChainFrom_cons_head hchain3
        have hch : c.head? = some d := by rw [hceq2]; rfl
        have hdmem : d ∈ c := by rw [hceq2]; exact List.mem_cons_self _ _
        have hHC : upgradeW s dn.left = none →
            (lv.size = 0 ∧ levelDelete s j k = .error .underflow) ∨
            ∃ s', levelDelete s j k = .ok s' ∧ lv.size ≠ 0 ∧
              ((∃ c₁x q, c₁ = c₁x ++ [q] ∧ DelInterior s j lv c₁ c₂ d q s') ∨
               (c₁ = [] ∧ DelHeadClean s j lv c₂ d s') ∨
               (c₁ = [] ∧ ∃ x, DelCorrupt s j lv c₂ d x s')) := by
          intro hupg
          by_cases hsz0 : lv.size = 0
          · refine .inl ⟨hsz0, ?_⟩
            unfold levelDelete
            rw [hgl, pmBindOk, hfind, pmBindOk]
            dsimp only
            rw [hgn, pmBindOk, hupg]
            dsimp only
            rw [if_pos hsz0]
          · refine .inr ⟨setLevel (setLeft (setRight (setLevel s j
                (fun l => { l with head := dn.right })) d none) d none) j
                (fun l => { l with size := l.size - 1 }), ?_, hsz0,
                .inr (.inl ⟨hc₁e, ?_⟩)⟩
            · unfold levelDelete
              rw [hgl, pmBindOk, hfind, pmBindOk]
              dsimp only
              rw [hgn, pmBindOk, hupg]
              dsimp only
              rw [if_neg hsz0]
              rfl
            · have hnodesH : ∀ i : Nat, (setLevel (setLeft (setRight (setLevel s j
                  (fun l => { l with head := dn.right })) d none) d none) j
                  (fun l => { l with size := l.size - 1 })).nodes[i]? =
                  if d = i then (s.nodes[i]?).map
                    (fun n => { n with right := none, left := none })
                  else s.nodes[i]? := by
                intro i
                rw [nodes_setLevel, nodes_setLeft, nodes_setRight, nodes_setLevel]
                by_cases hdi : d = i
                · rw [if_pos hdi, if_pos hdi, if_pos hdi]
                  cases s.nodes[i]? <;> rfl
                · rw [if_neg hdi, if_neg hdi, if_neg hdi]
              have hlevH : ∀ j' : Nat, (setLevel (setLeft (setRight (setLevel s j
                  (fun l => { l with head := dn.right })) d none) d none) j
                  (fun l => { l with size := l.size - 1 })).levels[j']? =
                  if j = j' then some (LevelR.mk (lv.size - 1) dn.right)
                  else s.levels[j']? := by
                intro j'
                rw [levels_setLevel, levels_setLeft, levels_setRight, levels_setLevel]
                by_cases hjj : j = j'
                · rw [if_pos hjj, if_pos hjj, if_pos hjj, ← hjj, hlv]
                  rfl
                · rw [if_neg hjj, if_neg hjj, if_neg hjj]
              refine ⟨⟨?_, ?_, ?_, ?_, ?_, ?_⟩, ?_, ?_, ?_⟩
              · rw [nodes_setLevel, nodes_length_setLeft, nodes_length_setRight,
                  nodes_setLevel]
              · rw [size_setLevel, size_setLeft, size_setRight, size_setLevel]
              · rw [levels_length_setLevel, levels_setLeft, levels_setRight,
                  levels_length_setLevel]
              · intro j' hj'
                rw [hlevH, if_neg hj']
              · exact ⟨dn.right, by rw [hlevH, if_pos rfl]⟩
              · intro i n hget
                by_cases hdi : d = i
                · refine ⟨{ n with right := none, left := none }, ?_, rfl, rfl, rfl, rfl, rfl⟩
                  rw [hnodesH, if_pos hdi, hget]
                  rfl
                · exact ⟨n, by rw [hnodesH, if_neg hdi, hget], rfl, rfl, rfl, rfl, rfl⟩
              · rw [hlevH, if_pos rfl, hdr]
              · intro i n hget
                by_cases hdi : d = i
                · refine ⟨{ n with right := none, left := none }, ?_, ?_, ?_⟩
                  · rw [hnodesH, if_pos hdi, hget]
                    rfl
                  · rw [if_pos hdi.symm]
                  · rw [if_pos hdi.symm]
                · refine ⟨n, ?_, ?_, ?_⟩
                  · rw [hnodesH, if_neg hdi, hget]
                  · rw [if_neg (fun h : i = d => hdi h.symm)]
                  · rw [if_neg (fun h : i = d => hdi h.symm)]
              · refine ⟨LevelR.mk (lv.size - 1) c₂.head?, ?_, ?_⟩
                · rw [hlevH, if_pos rfl, hdr]
                · show IsChainFrom _ c₂.head? c₂
                  refine isChainFrom_mono (hdr ▸ hc2chain) ?_
                  intro i hi n hget
                  have hdi : ¬ (d = i) := fun h => hdc₂ (by rw [h]; exact hi)
                  exact ⟨n, by rw [hnodesH, if_neg hdi, hget], rfl⟩
        rcases hhlo d (Option.mem_def.mpr hch) dn hdget with hln | ⟨x, hlx, hxc⟩
        · refine hHC ?_
          unfold upgradeW
          rw [hln]
        · by_cases hxa : x ∈ aliveIds s
          · -- the stale left still upgrades: corrupting interior splice on the head
            have hxd : x ≠ d := fun h => hxc (by rw [h]; exact hdmem)
            have hxc₂ : x ∉ c₂ := fun h => hxc (by
              rw [hceq2]; exact List.mem_cons_of_mem _ h)
            have hupg : upgradeW s dn.left = some x := by
              unfold upgradeW
              rw [hlx]
              dsimp only
              rw [if_pos hxa]
            by_cases hsz0 : lv.size = 0
            · refine .inl ⟨hsz0, ?_⟩
              unfold levelDelete
              rw [hgl, pmBindOk, hfind, pmBindOk]
              dsimp only
              rw [hgn, pmBindOk, hupg]
              dsimp only
              rw [if_neg (fun h : x = d => hxd h)]
              rw [if_pos hsz0]
            · refine .inr ⟨setLevel (setRight (setRight (match dn.right with
                  | some nxt => setLeft s nxt (some x)
                  | none => s) x dn.right) d none) j
                  (fun l => { l with size := l.size - 1 }), ?_, hsz0,
                  .inr (.inr ⟨hc₁e, x, ?_⟩)⟩
              · unfold levelDelete
                rw [hgl, pmBindOk, hfind, pmBindOk]
                dsimp only
                rw [hgn, pmBindOk, hupg]
                dsimp only
                rw [if_neg (fun h : x = d => hxd h)]
                rw [if_neg hsz0]
                rfl
              · have hn1 : ∀ i : Nat, (match dn.right with
                    | some nxt => setLeft s nxt (some x)
                    | none => s).nodes[i]? =
                    if c₂.head? = some i then (s.nodes[i]?).map
                      (fun n => { n with left := some x })
                    else s.nodes[i]? := by
                  intro i
                  rw [← hdr]
                  cases dn.right with
                  | none => simp
                  | some nxt =>
                    dsimp only
                    rw [nodes_setLeft]
                    by_cases hni : nxt = i
                    · rw [if_pos hni, if_pos (by rw [hni])]
                    · rw [if_neg hni, if_neg (fun h => hni (Option.some.inj h))]
                have hml : (match dn.right with
                    | some nxt => setLeft s nxt (some x)
                    | none => s).nodes.length = s.nodes.length := by
                  cases dn.right with
                  | none => rfl
                  | some nxt => exact nodes_length_setLeft s nxt (some x)
                have hmlev : (match dn.right with
                    | some nxt => setLeft s nxt (some x)
                    | none => s).levels = s.levels := by
                  cases dn.right with
                  | none => rfl
                  | some nxt => exact levels_setLeft s nxt (some x)
                have hmsz : (match dn.right with
                    | some nxt => setLeft s nxt (some x)
                    | none => s).size = s.size := by
                  cases dn.right with
                  | none => rfl
                  | some nxt => exact size_setLeft s nxt (some x)
                have hnodes : ∀ i : Nat, (setLevel (setRight (setRight (match dn.right with
                    | some nxt => setLeft s nxt (some x)
                    | none => s) x dn.right) d none) j
                    (fun l => { l with size := l.size - 1 })).nodes[i]? =
                    if d = i then (s.nodes[i]?).map (fun n => { n with right := none })
                    else if x = i then (s.nodes[i]?).map
                      (fun n => { n with right := dn.right })
                    else if c₂.head? = some i then (s.nodes[i]?).map
                      (fun n => { n with left := some x })
                    else s.nodes[i]? := by
                  intro i
                  rw [nodes_setLevel, nodes_setRight, nodes_setRight, hn1]
                  by_cases hdi : d = i
                  · have hxi : ¬ (x = i) := fun h => hxd (h.trans hdi.symm)
                    have hci : ¬ (c₂.head? = some i) := fun h => hdc₂ (by
                      rw [hdi]
                      exact List.mem_of_mem_head? (Option.mem_def.mpr h))
                    rw [if_pos hdi, if_pos hdi, if_neg hxi, if_neg hci]
                  · rw [if_neg hdi, if_neg hdi]
                    by_cases hxi : x = i
                    · have hci : ¬ (c₂.head? = some i) := fun h => hxc₂ (by
                        rw [hxi]
                        exact List.mem_of_mem_head? (Option.mem_def.mpr h))
                      rw [if_pos hxi, if_pos hxi, if_neg hci]
                    · rw [if_neg hxi, if_neg hxi]
                have hlevC : ∀ j' : Nat, (setLevel (setRight (setRight (match dn.right with
                    | some nxt => setLeft s nxt (some x)
                    | none => s) x dn.right) d none) j
                    (fun l => { l with size := l.size - 1 })).levels[j']? =
                    if j = j' then some (LevelR.mk (lv.size - 1) lv.head)
                    else s.levels[j']? := by
                  intro j'
                  rw [levels_setLevel, levels_setRight, levels_setRight, hmlev]
                  by_cases hjj : j = j'
                  · rw [if_pos hjj, if_pos hjj, ← hjj, hlv]
                    rfl
                  · rw [if_neg hjj, if_neg hjj]
                refine ⟨⟨?_, ?_, ?_, ?_, ?_, ?_⟩, ?_, hxa, ⟨hxc₂, hxd⟩, ?_, ?_⟩
                · rw [nodes_setLevel, nodes_length_setRight, nodes_length_setRight, hml]
                · rw [size_setLevel, size_setRight, size_setRight, hmsz]
                · rw [levels_length_setLevel, levels_setRight, levels_setRight, hmlev]
                · intro j' hj'
                  rw [hlevC, if_neg hj']
                · exact ⟨lv.head, by rw [hlevC, if_pos rfl]⟩
                · intro i n hget
                  by_cases hdi : d = i
                  · refine ⟨{ n with right := none }, ?_, rfl, rfl, rfl, rfl, rfl⟩
                    rw [hnodes, if_pos hdi, hget]
                    rfl
                  · by_cases hxi : x = i
                    · refine ⟨{ n with right := dn.right }, ?_, rfl, rfl, rfl, rfl, rfl⟩
                      rw [hnodes, if_neg hdi, if_pos hxi, hget]
                      rfl
                    · by_cases hci : c₂.head? = some i
                      · refine ⟨{ n with left := some x }, ?_, rfl, rfl, rfl, rfl, rfl⟩
                        rw [hnodes, if_neg hdi, if_neg hxi, if_pos hci, hget]
                        rfl
                      · exact ⟨n, by rw [hnodes, if_neg hdi, if_neg hxi, if_neg hci, hget],
                          rfl, rfl, rfl, rfl, rfl⟩
                · rw [hlevC, if_pos rfl]
                · intro i n hget
                  by_cases hdi : d = i
                  · refine ⟨{ n with right := none }, ?_, ?_, ?_⟩
                    · rw [hnodes, if_pos hdi, hget]
                      rfl
                    · rw [if_neg (fun h : i = x => hxd (h.symm.trans hdi.symm)),
                        if_pos hdi.symm]
                    · have hci : ¬ (c₂.head? = some i) := fun h => hdc₂ (by
                        rw [hdi]
                        exact List.mem_of_mem_head? (Option.mem_def.mpr h))
                      rw [if_neg hci]
                  · by_cases hxi : x = i
                    · refine ⟨{ n with right := dn.right }, ?_, ?_, ?_⟩
                      · rw [hnodes, if_neg hdi, if_pos hxi, hget]
                        rfl
                      · rw [if_pos hxi.symm]
                        exact hdr
                      · have hci : ¬ (c₂.head? = some i) := fun h => hxc₂ (by
                          rw [hxi]
                          exact List.mem_of_mem_head? (Option.mem_def.mpr h))
                        rw [if_neg hci]
                    · by_cases hci : c₂.head? = some i
                      · refine ⟨{ n with left := some x }, ?_, ?_, ?_⟩
                        · rw [hnodes, if_neg hdi, if_neg hxi, if_pos hci, hget]
                          rfl
                        · rw [if_neg (fun h : i = x => hxi h.symm),
                            if_neg (fun h : i = d => hdi h.symm)]
                        · rw [if_pos hci]
                      · refine ⟨n, ?_, ?_, ?_⟩
                        · rw [hnodes, if_neg hdi, if_neg hxi, if_neg hci, hget]
                        · rw [if_neg (fun h : i = x => hxi h.symm),
                            if_neg (fun h : i = d => hdi h.symm)]
                        · rw [if_neg hci]
                · refine ⟨LevelR.mk (lv.size - 1) lv.head, ?_, ?_⟩
                  · rw [hlevC, if_pos rfl]
                  · show IsChainFrom _ lv.head [d]
                    rw [hhead]
                    refine .cons (n := { dn with right := none }) ?_ ?_
                    · rw [hnodes, if_pos rfl, hdget]
                      rfl
                    · show IsChainFrom _ (Option.none) _
                      exact .nil
          · refine hHC ?_
            unfold upgradeW
            rw [hlx]
            dsimp only
            rw [if_neg hxa]
      · -- c₁ ends in the genuine chain predecessor q: interior splice
        rw [List.concat_eq_append] at hc₁e
        have hadj2 : LeftAdj s.nodes ((c₁x ++ [q]) ++ d :: c₂) := by
          rw [← hc₁e, ← hceq]
          exact hadj
        have hR := (List.chain'_append.mp hadj2).2.2
        have hdl : dn.left = some q :=
          hR q (Option.mem_def.mpr (List.getLast?_concat c₁x)) d
            (Option.mem_def.mpr rfl) dn hdget
        have hqc₁ : q ∈ c₁ := by
          rw [hc₁e]
          exact List.mem_append_right _ (List.mem_cons_self _ _)
        have hqc : q ∈ c := by rw [hceq]; exact List.mem_append_left _ hqc₁
        have hqd : q ≠ d := fun h => hdisj q hqc₁ (by rw [h]; exact List.mem_cons_self _ _)
        have hqc₂ : q ∉ c₂ := fun h => hdisj q hqc₁ (List.mem_cons_of_mem _ h)
        have halive : q ∈ aliveIds s := chain_subset_alive ⟨lv, hlv, hchain⟩ q hqc
        have hupg : upgradeW s dn.left = some q := by
          unfold upgradeW
          rw [hdl]
          dsimp only
          rw [if_pos halive]
        by_cases hsz0 : lv.size = 0
        · refine .inl ⟨hsz0, ?_⟩
          unfold levelDelete
          rw [hgl, pmBindOk, hfind, pmBindOk]
          dsimp only
          rw [hgn, pmBindOk, hupg]
          dsimp only
          rw [if_neg hqd]
          rw [if_pos hsz0]
        · refine .inr ⟨setLevel (setRight (setRight (match dn.right with
              | some nxt => setLeft s nxt (some q)
              | none => s) q dn.right) d none) j
              (fun l => { l with size := l.size - 1 }), ?_, hsz0,
              .inl ⟨c₁x, q, hc₁e, ?_⟩⟩
          · unfold levelDelete
            rw [hgl, pmBindOk, hfind, pmBindOk]
            dsimp only
            rw [hgn, pmBindOk, hupg]
            dsimp only
            rw [if_neg hqd]
            rw [if_neg hsz0]
            rfl
          · have hn1 : ∀ i : Nat, (match dn.right with
                | some nxt => setLeft s nxt (some q)
                | none => s).nodes[i]? =
                if c₂.head? = some i then (s.nodes[i]?).map
                  (fun n => { n with left := some q })
                else s.nodes[i]? := by
              intro i
              rw [← hdr]
              cases dn.right with
              | none => simp
              | some nxt =>
                dsimp only
                rw [nodes_setLeft]
                by_cases hni : nxt = i
                · rw [if_pos hni, if_pos (by rw [hni])]
                · rw [if_neg hni, if_neg (fun h => hni (Option.some.inj h))]
            have hml : (match dn.right with
                | some nxt => setLeft s nxt (some q)
                | none => s).nodes.length = s.nodes.length := by
              cases dn.right with
              | none => rfl
              | some nxt => exact nodes_length_setLeft s nxt (some q)
            have hmlev : (match dn.right with
                | some nxt => setLeft s nxt (some q)
                | none => s).levels = s.levels := by
              cases dn.right with
              | none => rfl
              | some nxt => exact levels_setLeft s nxt (some q)
            have hmsz : (match dn.right with
                | some nxt => setLeft s nxt (some q)
                | none => s).size = s.size := by
              cases dn.right with
              | none => rfl
              | some nxt => exact size_setLeft s nxt (some q)
            have hnodes : ∀ i : Nat, (setLevel (setRight (setRight (match dn.right with
                | some nxt => setLeft s nxt (some q)
                | none => s) q dn.right) d none) j
                (fun l => { l with size := l.size - 1 })).nodes[i]? =
                if d = i then (s.nodes[i]?).map (fun n => { n with right := none })
                else if q = i then (s.nodes[i]?).map
                  (fun n => { n with right := dn.right })
                else if c₂.head? = some i then (s.nodes[i]?).map
                  (fun n => { n with left := some q })
                else s.nodes[i]? := by
              intro i
              rw [nodes_setLevel, nodes_setRight, nodes_setRight, hn1]
              by_cases hdi : d = i
              · have hqi : ¬ (q = i) := fun h => hqd (h.trans hdi.symm)
                have hci : ¬ (c₂.head? = some i) := fun h => hdc₂ (by
                  rw [hdi]
                  exact List.mem_of_mem_head? (Option.mem_def.mpr h))
                rw [if_pos hdi, if_pos hdi, if_neg hqi, if_neg hci]
              · rw [if_neg hdi, if_neg hdi]
                by_cases hqi : q = i
                · have hci : ¬ (c₂.head? = some i) := fun h => hqc₂ (by
                    rw [hqi]
                    exact List.mem_of_mem_head? (Option.mem_def.mpr h))
                  rw [if_pos hqi, if_pos hqi, if_neg hci]
                · rw [if_neg hqi, if_neg hqi]
            have hlevC : ∀ j' : Nat, (setLevel (setRight (setRight (match dn.right with
                | some nxt => setLeft s nxt (some q)
                | none => s) q dn.right) d none) j
                (fun l => { l with size := l.size - 1 })).levels[j']? =
                if j = j' then some (LevelR.mk (lv.size - 1) lv.head)
                else s.levels[j']? := by
              intro j'
              rw [levels_setLevel, levels_setRight, levels_setRight, hmlev]
              by_cases hjj : j = j'
              · rw [if_pos hjj, if_pos hjj, ← hjj, hlv]
                rfl
              · rw [if_neg hjj, if_neg hjj]
            have hmono : ∀ i : Nat, ¬ (d = i) → ¬ (q = i) →
                ∀ n : NodeR K V, s.nodes[i]? = some n →
                ∃ n', (setLevel (setRight (setRight (match dn.right with
                  | some nxt => setLeft s nxt (some q)
                  | none => s) q dn.right) d none) j
                  (fun l => { l with size := l.size - 1 })).nodes[i]? = some n' ∧
                  n'.right = n.right := by
              intro i hdi hqi n hget
              by_cases hci : c₂.head? = some i
              · exact ⟨{ n with left := some q },
                  by rw [hnodes, if_neg hdi, if_neg hqi, if_pos hci, hget]; rfl, rfl⟩
              · exact ⟨n, by rw [hnodes, if_neg hdi, if_neg hqi, if_neg hci, hget], rfl⟩
            refine ⟨⟨?_, ?_, ?_, ?_, ?_, ?_⟩, ?_, ?_, ?_⟩
            · rw [nodes_setLevel, nodes_length_setRight, nodes_length_setRight, hml]
            · rw [size_setLevel, size_setRight, size_setRight, hmsz]
            · rw [levels_length_setLevel, levels_setRight, levels_setRight, hmlev]
            · intro j' hj'
              rw [hlevC, if_neg hj']
            · exact ⟨lv.head, by rw [hlevC, if_pos rfl]⟩
            · intro i n hget
              by_cases hdi : d = i
              · refine ⟨{ n with right := none }, ?_, rfl, rfl, rfl, rfl, rfl⟩
                rw [hnodes, if_pos hdi, hget]
                rfl
              · by_cases hqi : q = i
                · refine ⟨{ n with right := dn.right }, ?_, rfl, rfl, rfl, rfl, rfl⟩
                  rw [hnodes, if_neg hdi, if_pos hqi, hget]
                  rfl
                · by_cases hci : c₂.head? = some i
                  · refine ⟨{ n with left := some q }, ?_, rfl, rfl, rfl, rfl, rfl⟩
                    rw [hnodes, if_neg hdi, if_neg hqi, if_pos hci, hget]
                    rfl
                  · exact ⟨n, by rw [hnodes, if_neg hdi, if_neg hqi, if_neg hci, hget],
                      rfl, rfl, rfl, rfl, rfl⟩
            · rw [hlevC, if_pos rfl]
            · intro i n hget
              by_cases hdi : d = i
              · refine ⟨{ n with right := none }, ?_, ?_, ?_⟩
                · rw [hnodes, if_pos hdi, hget]
                  rfl
                · rw [if_neg (fun h : i = q => hqd (h.symm.trans hdi.symm)),
                    if_pos hdi.symm]
                · have hci : ¬ (c₂.head? = some i) := fun h => hdc₂ (by
                    rw [hdi]
                    exact List.mem_of_mem_head? (Option.mem_def.mpr h))
                  rw [if_neg hci]
              · by_cases hqi : q = i
                · refine ⟨{ n with right := dn.right }, ?_, ?_, ?_⟩
                  · rw [hnodes, if_neg hdi, if_pos hqi, hget]
                    rfl
                  · rw [if_pos hqi.symm]
                    exact hdr
                  · have hci : ¬ (c₂.head? = some i) := fun h => hqc₂ (by
                      rw [hqi]
                      exact List.mem_of_mem_head? (Option.mem_def.mpr h))
                    rw [if_neg hci]
                · by_cases hci : c₂.head? = some i
                  · refine ⟨{ n with left := some q }, ?_, ?_, ?_⟩
                    · rw [hnodes, if_neg hdi, if_neg hqi, if_pos hci, hget]
                      rfl
                    · rw [if_neg (fun h : i = q => hqi h.symm),
                        if_neg (fun h : i = d => hdi h.symm)]
                    · rw [if_pos hci]
                  · refine ⟨n, ?_, ?_, ?_⟩
                    · rw [hnodes, if_neg hdi, if_neg hqi, if_neg hci, hget]
                    · rw [if_neg (fun h : i = q => hqi h.symm),
                        if_neg (fun h : i = d => hdi h.symm)]
                    · rw [if_neg hci]
            · refine ⟨LevelR.mk (lv.size - 1) lv.head, ?_, ?_⟩
              · rw [hlevC, if_pos rfl]
              · show IsChainFrom _ lv.head (c₁ ++ c₂)
                rw [hc₁e]
                have hp1b : IsPathFrom s.nodes lv.head (c₁x ++ [q]) (some d) := by
                  rw [← hc₁e]
                  exact hp1
                rcases isPathFrom_split hp1b with ⟨m2, hpa, hpb⟩
                rcases isPathFrom_singleton hpb with ⟨hm2, qn, hqget, hqright⟩
                subst hm2
                have hndc₁ : (c₁x ++ [q]).Nodup := by rw [← hc₁e]; exact hnd2.1
                rw [List.nodup_append] at hndc₁
                refine isChainFrom_iff_isPathFrom.mpr
                  (isPathFrom_append (m := dn.right)
                    (isPathFrom_append (m := some q) ?_ ?_) ?_)
                · refine isPathFrom_mono hpa ?_
                  intro i hi n hget
                  have hic₁ : i ∈ c₁ := by rw [hc₁e]; exact List.mem_append_left _ hi
                  have hdi : ¬ (d = i) := fun h => hdisj i hic₁ (by
                    rw [← h]
                    exact List.mem_cons_self _ _)
                  have hqi : ¬ (q = i) := fun h => hndc₁.2.2 hi
                    (List.mem_singleton.mpr h.symm)
                  exact hmono i hdi hqi n hget
                · refine .cons (n := { qn with right := dn.right }) ?_ (.nil _)
                  rw [hnodes, if_neg (fun h : d = q => hqd h.symm), if_pos rfl, hqget]
                  rfl
                · refine isChainFrom_iff_isPathFrom.mp (isChainFrom_mono hc2chain ?_)
                  intro i hi n hget
                  have hdi : ¬ (d = i) := fun h => hdc₂ (by rw [h]; exact hi)
                  have hqi : ¬ (q = i) := fun h => hqc₂ (by rw [h]; exact hi)
                  exact hmono i hdi hqi n hget

/-! ### The standalone-level invariant and its preservation -/

theorem levels_eq_singleton {s : SL K V} {lv : LevelR} (h1 : s.levels.length = 1)
    (h0 : s.levels[0]? = some lv) : s.levels = [lv] := by
  cases hl : s.levels with
  | nil => rw [hl] at h1; simp at h1
  | cons a t =>
    rw [hl] at h0 h1
    simp at h0 h1
    subst h0
    rw [h1]

theorem levels_head_exists {s : SL K V} (h1 : s.levels.length = 1) :
    ∃ lv, s.levels[0]? = some lv := by
  cases h : s.levels[0]? with
  | some lv => exact ⟨lv, rfl⟩
  | none =>
    cases hl : s.levels with
    | nil => rw [hl] at h1; simp at h1
    | cons a t => rw [hl] at h; simp at h

/-- Transfer the back-link adjacency of a chain to a mutated arena that
preserves the `left` field of every member after the first. -/
theorem leftAdj_transfer_tail {a a' : List (NodeR K V)} :
    ∀ {l : List Nat}, LeftAdj a l →
      (∀ y ∈ l.drop 1, ∃ n, a[y]? = some n) →
      (∀ y ∈ l.drop 1, ∀ n : NodeR K V, a[y]? = some n →
        ∃ n', a'[y]? = some n' ∧ n'.left = n.left) →
      LeftAdj a' l := by
  intro l
  induction l with
  | nil => intro _ _ _; exact List.chain'_nil
  | cons x t ih =>
    intro h hres H
    cases t with
    | nil => exact List.chain'_singleton x
    | cons y t2 =>
      rw [show (x :: y :: t2 : List Nat).drop 1 = y :: t2 from rfl] at hres H
      rcases List.chain'_cons.mp h with ⟨hxy, htail⟩
      refine List.chain'_cons.mpr ⟨?_, ?_⟩
      · intro n' hget'
        rcases hres y (List.mem_cons_self _ _) with ⟨n, hget⟩
        rcases H y (List.mem_cons_self _ _) n hget with ⟨n2, hget2, hleft⟩
        rw [hget'] at hget2
        cases Option.some.inj hget2
        rw [hleft]
        exact hxy n hget
      · refine ih htail ?_ ?_
        · intro z hz
          exact hres z (List.mem_cons_of_mem _ (by simpa using hz))
        · intro z hz
          exact H z (List.mem_cons_of_mem _ (by simpa using hz))

/-- `Level::insert` on a well-formed standalone level succeeds and
preserves the invariant. -/
theorem levelInsert_sinv {s : SL K V} (hs : SInv s) (k : K) (v : V) :
    ∃ s', levelInsert s 0 k v = .ok (s', s.nodes.length) ∧ SInv s' := by
  obtain ⟨lv, hlv⟩ := levels_head_exists (s := s) hs.oneLevel
  obtain ⟨c, hchain, hsz, hadj, hhlo⟩ := hs.chain lv hlv
  obtain ⟨s', heq, eff⟩ := levelInsert_spec k v hlv hchain
  refine ⟨s', heq, ?_⟩
  have hPG : lePrefixOf s.nodes k c ++ gtSuffixOf s.nodes k c = c :=
    List.takeWhile_append_dropWhile _ _
  have hnd : c.Nodup := isChainFrom_nodup hchain
  have hval : ∀ i ∈ c, i < s.nodes.length := isChainFrom_valid hchain
  have hndPG : (lePrefixOf s.nodes k c ++ gtSuffixOf s.nodes k c).Nodup := by
    rw [hPG]; exact hnd
  rw [List.nodup_append] at hndPG
  have hdisjPG : ∀ y ∈ lePrefixOf s.nodes k c, y ∉ gtSuffixOf s.nodes k c :=
    fun y hy hz => hndPG.2.2 hy hz
  have hmemP : ∀ y ∈ lePrefixOf s.nodes k c, y ∈ c := by
    intro y hy
    rw [← hPG]
    exact List.mem_append_left _ hy
  have hmemG : ∀ y ∈ gtSuffixOf s.nodes k c, y ∈ c := by
    intro y hy
    rw [← hPG]
    exact List.mem_append_right _ hy
  have hold : ∀ (i : Nat) (n' : NodeR K V), s'.nodes[i]? = some n' → i ≠ s.nodes.length →
      ∃ n0 : NodeR K V, s.nodes[i]? = some n0 ∧ n'.key = n0.key ∧ n'.down = n0.down ∧
        n'.left = (if (gtSuffixOf s.nodes k c).head? = some i
          then some s.nodes.length else n0.left) := by
    intro i n' hget' hne
    have hi1 : i < s.nodes.length + 1 := by
      have := (List.getElem?_eq_some.mp hget').1
      rw [eff.len] at this
      exact this
    have hi : i < s.nodes.length := by omega
    have hget := List.getElem?_eq_getElem hi
    rcases eff.oldNodes i _ hget with ⟨n2, hget2, hkey, hv2, hl2, hd2, hu2, hr2, hlf2⟩
    rw [hget'] at hget2
    cases Option.some.inj hget2
    exact ⟨_, hget, hkey, hd2, hlf2⟩
  refine ⟨?_, ?_, ?_, ?_⟩
  · rw [eff.levelsLen]; exact hs.oneLevel
  · intro i n hget'
    by_cases hiN : i = s.nodes.length
    · subst hiN
      rw [eff.newNode] at hget'
      cases Option.some.inj hget'
      rfl
    · rcases hold i n hget' hiN with ⟨n0, hget, _, hd, _⟩
      rw [hd]
      exact hs.downNone i n0 hget
  · intro i n p hget' hp
    rw [eff.len]
    by_cases hiN : i = s.nodes.length
    · subst hiN
      rw [eff.newNode] at hget'
      cases Option.some.inj hget'
      have hp2 : (lePrefixOf s.nodes k c).getLast? = some p := hp
      have hpP : p ∈ lePrefixOf s.nodes k c :=
        List.mem_of_mem_getLast? (Option.mem_def.mpr hp2)
      have := hval p (hmemP p hpP)
      omega
    · rcases hold i n hget' hiN with ⟨n0, hget, _, _, hlf⟩
      rw [hlf] at hp
      by_cases hgh : (gtSuffixOf s.nodes k c).head? = some i
      · rw [if_pos hgh] at hp
        cases Option.some.inj hp
        omega
      · rw [if_neg hgh] at hp
        have := hs.leftV i n0 p hget hp
        omega
  · intro lv' hlv'
    rw [eff.levelsJ] at hlv'
    cases Option.some.inj hlv'
    rcases eff.newChain with ⟨lv2, hlv2, hchain2⟩
    rw [eff.levelsJ] at hlv2
    cases Option.some.inj hlv2
    refine ⟨lePrefixOf s.nodes k c ++ s.nodes.length :: gtSuffixOf s.nodes k c,
      hchain2, ?_, ?_, ?_⟩
    · show lv.size + 1 = _
      have hlenc : (lePrefixOf s.nodes k c).length + (gtSuffixOf s.nodes k c).length
          = c.length := by
        rw [← List.length_append, hPG]
      simp only [List.length_append, List.length_cons]
      omega
    · have hadj2 : LeftAdj s.nodes (lePrefixOf s.nodes k c ++ gtSuffixOf s.nodes k c) := by
        rw [hPG]; exact hadj
      rcases List.chain'_append.mp hadj2 with ⟨hcP, hcG, _⟩
      refine List.chain'_append.mpr ⟨?_, ?_, ?_⟩
      · refine leftAdj_transfer_tail hcP ?_ ?_
        · intro y hy
          exact ⟨_, List.getElem?_eq_getElem
            (hval y (hmemP y (List.mem_of_mem_drop hy)))⟩
        · intro y hy n hget
          rcases eff.oldNodes y n hget with ⟨n', hget', _, _, _, _, _, _, hlf⟩
          refine ⟨n', hget', ?_⟩
          rw [hlf, if_neg ?_]
          intro hgh
          exact hdisjPG y (List.mem_of_mem_drop hy)
            (List.mem_of_mem_head? (Option.mem_def.mpr hgh))
      · cases hG : gtSuffixOf s.nodes k c with
        | nil => exact List.chain'_singleton _
        | cons g0 G2 =>
          refine List.chain'_cons.mpr ⟨?_, ?_⟩
          · intro n' hget'
            have hg0 : g0 < s.nodes.length := hval g0 (hmemG g0 (by rw [hG]; simp))
            rcases hold g0 n' hget' (Nat.ne_of_lt hg0) with ⟨n0, hget, _, _, hlf⟩
            rw [hlf, if_pos (show (gtSuffixOf s.nodes k c).head? = some g0 by rw [hG]; rfl)]
          · rw [hG] at hcG
            refine leftAdj_transfer_tail hcG ?_ ?_
            · intro y hy
              refine ⟨_, List.getElem?_eq_getElem (hval y (hmemG y ?_))⟩
              rw [hG]
              exact List.mem_cons_of_mem _ (by simpa using hy)
            · intro y hy n hget
              rcases eff.oldNodes y n hget with ⟨n', hget', _, _, _, _, _, _, hlf⟩
              refine ⟨n', hget', ?_⟩
              rw [hlf, if_neg ?_]
              intro hgh
              have hyg : y ∈ G2 := by simpa using hy
              have h2 : (g0 :: G2 : List Nat).head? = some y := by rw [← hG]; exact hgh
              have hy0 : g0 = y := by simpa using h2
              have hndG : (g0 :: G2).Nodup := by rw [← hG]; exact hndPG.2.1
              rw [hy0] at hndG
              exact (List.nodup_cons.mp hndG).1 hyg
      · intro x hx y hy
        have hyN : s.nodes.length = y := by simpa using hy
        subst hyN
        intro n' hget'
        rw [eff.newNode] at hget'
        cases Option.some.inj hget'
        show (lePrefixOf s.nodes k c).getLast? = some x
        exact Option.mem_def.mp hx
    · intro h hmem n hget'
      cases hP : lePrefixOf s.nodes k c with
      | nil =>
        rw [hP] at hmem
        have hhN : s.nodes.length = h := by simpa using hmem
        subst hhN
        rw [eff.newNode] at hget'
        cases Option.some.inj hget'
        left
        show (lePrefixOf s.nodes k c).getLast? = none
        rw [hP]
        rfl
      | cons p0 P2 =>
        have hhp : p0 = h := by
          rw [hP] at hmem
          simpa using hmem
        subst hhp
        have hp0c : p0 ∈ c := hmemP p0 (by rw [hP]; simp)
        have hp0 : p0 < s.nodes.length := hval p0 hp0c
        rcases hold p0 n hget' (Nat.ne_of_lt hp0) with ⟨n0, hget, _, _, hlf⟩
        have hch : c.head? = some p0 := by
          rw [← hPG, hP]
          rfl
        rcases hhlo p0 (Option.mem_def.mpr hch) n0 hget with h0 | ⟨x, hx, hxc⟩
        · left
          rw [hlf, if_neg ?_, h0]
          intro hgh
          exact hdisjPG p0 (by rw [hP]; simp)
            (List.mem_of_mem_head? (Option.mem_def.mpr hgh))
        · right
          refine ⟨x, ?_, ?_⟩
          · rw [hlf, if_neg ?_, hx]
            intro hgh
            exact hdisjPG p0 (by rw [hP]; simp)
              (List.mem_of_mem_head? (Option.mem_def.mpr hgh))
          · intro hxin
            rcases List.mem_append.mp hxin with h1 | h1
            · exact hxc (hmemP x (by rw [hP]; exact h1))
            · rcases List.mem_cons.mp h1 with h2 | h2
              · have := hs.leftV p0 n0 x hget hx
                omega
              · exact hxc (hmemG x h2)

/-- `Level::delete` on a well-formed standalone level succeeds (the
underflow, double-borrow and head-corruption paths are unreachable
there) and preserves the invariant. -/
theorem levelDelete_sinv {s : SL K V} (hs : SInv s) (k : K) :
    ∃ s', levelDelete s 0 k = .ok s' ∧ SInv s' := by
  obtain ⟨lv, hlv⟩ := levels_head_exists (s := s) hs.oneLevel
  obtain ⟨c, hchain, hsz, hadj, hhlo⟩ := hs.chain lv hlv
  have hnd : c.Nodup := isChainFrom_nodup hchain
  have hval : ∀ i ∈ c, i < s.nodes.length := isChainFrom_valid hchain
  have hlevels : s.levels = [lv] := levels_eq_singleton hs.oneLevel hlv
  rcases levelDelete_spec k hlv hchain hadj hhlo with ⟨heq, _⟩ |
    ⟨c₁, d, c₂, hceq, hc₁f, ⟨dn, hdget, hdkey⟩, hrest⟩
  · exact ⟨s, heq, hs⟩
  · have hnd2 : (c₁ ++ d :: c₂).Nodup := by rw [← hceq]; exact hnd
    rw [List.nodup_append] at hnd2
    have hdisj : ∀ a ∈ c₁, a ∉ d :: c₂ := fun a ha hb => hnd2.2.2 ha hb
    have hdc₂ : d ∉ c₂ := (List.nodup_cons.mp hnd2.2.1).1
    have hdmem : d ∈ c := by
      rw [hceq]
      exact List.mem_append_right _ (List.mem_cons_self _ _)
    have hclen : c.length = c₁.length + 1 + c₂.length := by
      rw [hceq]
      simp only [List.length_append, List.length_cons]
      omega
    rcases hrest with ⟨hsz0, _⟩ | ⟨s', heq, hne0, hbr⟩
    · exfalso
      rw [hsz, List.length_eq_zero] at hsz0
      rw [hsz0] at hdmem
      cases hdmem
    · refine ⟨s', heq, ?_⟩
      rcases hbr with ⟨c₁x, q, hc₁e, DI⟩ | ⟨hc₁nil, DH⟩ | ⟨hc₁nil, x, DC⟩
      · -- interior splice around the predecessor q
        have hcov : ∀ (i : Nat) (n' : NodeR K V), s'.nodes[i]? = some n' →
            i < s.nodes.length := by
          intro i n' hget'
          have := (List.getElem?_eq_some.mp hget').1
          rw [DI.common.len] at this
          exact this
        refine ⟨?_, ?_, ?_, ?_⟩
        · rw [DI.common.levelsLen]
          exact hs.oneLevel
        · intro i n hget'
          have hget0 := List.getElem?_eq_getElem (hcov i n hget')
          rcases DI.common.sameMeta i _ hget0 with ⟨n2, hg2, _, _, _, hdw, _⟩
          rw [hget'] at hg2
          cases Option.some.inj hg2
          rw [hdw]
          exact hs.downNone i _ hget0
        · intro i n p hget' hp
          have hiv := hcov i n hget'
          have hget0 := List.getElem?_eq_getElem hiv
          rcases DI.links i _ hget0 with ⟨n2, hg2, _, hl2⟩
          rw [hget'] at hg2
          cases Option.some.inj hg2
          rw [hl2] at hp
          rw [DI.common.len]
          by_cases hc2h : c₂.head? = some i
          · rw [if_pos hc2h] at hp
            cases Option.some.inj hp
            refine hval q ?_
            rw [hceq, hc₁e]
            exact List.mem_append_left _ (List.mem_append_right _ (List.mem_cons_self _ _))
          · rw [if_neg hc2h] at hp
            exact hs.leftV i _ p hget0 hp
        · intro lv' hlv'
          rw [DI.headJ] at hlv'
          cases Option.some.inj hlv'
          rcases DI.chain with ⟨lv2, hlv2, hch2⟩
          rw [DI.headJ] at hlv2
          cases Option.some.inj hlv2
          have hadj0 : LeftAdj s.nodes (c₁ ++ d :: c₂) := by rw [← hceq]; exact hadj
          rcases List.chain'_append.mp hadj0 with ⟨hcC1, hcDC2, hseam0⟩
          have hcC2 := (List.chain'_cons'.mp hcDC2).2
          refine ⟨c₁ ++ c₂, hch2, ?_, ?_, ?_⟩
          · show lv.size - 1 = _
            simp only [List.length_append]
            omega
          · refine List.chain'_append.mpr ⟨?_, ?_, ?_⟩
            · refine leftAdj_transfer_tail hcC1 ?_ ?_
              · intro y hy
                refine ⟨_, List.getElem?_eq_getElem (hval y ?_)⟩
                rw [hceq]
                exact List.mem_append_left _ (List.mem_of_mem_drop hy)
              · intro y hy n hget
                rcases DI.links y n hget with ⟨n2, hg2, _, hl2⟩
                refine ⟨n2, hg2, ?_⟩
                rw [hl2, if_neg ?_]
                intro hc2h
                exact hdisj y (List.mem_of_mem_drop hy) (List.mem_cons_of_mem _
                  (List.mem_of_mem_head? (Option.mem_def.mpr hc2h)))
            · refine leftAdj_transfer_tail hcC2 ?_ ?_
              · intro y hy
                refine ⟨_, List.getElem?_eq_getElem (hval y ?_)⟩
                rw [hceq]
                exact List.mem_append_right _ (List.mem_cons_of_mem _
                  (List.mem_of_mem_drop hy))
              · intro y hy n hget
                rcases DI.links y n hget with ⟨n2, hg2, _, hl2⟩
                refine ⟨n2, hg2, ?_⟩
                rw [hl2, if_neg ?_]
                intro hc2h
                have hndc2 : c₂.Nodup := (List.nodup_cons.mp hnd2.2.1).2
                cases hc2 : c₂ with
                | nil =>
                  rw [hc2] at hc2h
                  cases hc2h
                | cons y0 t =>
                  rw [hc2] at hc2h
                  have hy0 : y0 = y := by simpa using hc2h
                  rw [hc2] at hy hndc2
                  have hytail : y ∈ t := by simpa using hy
                  rw [hy0] at hndc2
                  exact (List.nodup_cons.mp hndc2).1 hytail
            · intro a ha y hy
              have h2 := Option.mem_def.mp ha
              rw [hc₁e, List.getLast?_concat] at h2
              have haq : q = a := Option.some.inj h2
              subst haq
              intro n hget'
              have hyc2 : y ∈ c₂ := List.mem_of_mem_head? hy
              have hyv : y < s.nodes.length := hval y (by
                rw [hceq]
                exact List.mem_append_right _ (List.mem_cons_of_mem _ hyc2))
              have hget0 := List.getElem?_eq_getElem hyv
              rcases DI.links y _ hget0 with ⟨n2, hg2, _, hl2⟩
              rw [hget'] at hg2
              cases Option.some.inj hg2
              rw [hl2, if_pos (Option.mem_def.mp hy)]
          · intro h hmem n hget'
            have hc₁ne : c₁ ≠ [] := by rw [hc₁e]; simp
            obtain ⟨h0, c₁t, hc₁cons⟩ := List.exists_cons_of_ne_nil hc₁ne
            rw [hc₁cons] at hmem
            have hh0 : h0 = h := by simpa using hmem
            subst hh0
            have hh0c₁ : h0 ∈ c₁ := by rw [hc₁cons]; exact List.mem_cons_self _ _
            have hh0v : h0 < s.nodes.length := hval h0 (by
              rw [hceq]
              exact List.mem_append_left _ hh0c₁)
            have hget0 := List.getElem?_eq_getElem hh0v
            rcases DI.links h0 _ hget0 with ⟨n2, hg2, _, hl2⟩
            rw [hget'] at hg2
            cases Option.some.inj hg2
            have hch : c.head? = some h0 := by
              rw [hceq, hc₁cons]
              rfl
            have hnc2h : ¬ (c₂.head? = some h0) := by
              intro hc2h
              exact hdisj h0 hh0c₁ (List.mem_cons_of_mem _
                (List.mem_of_mem_head? (Option.mem_def.mpr hc2h)))
            rcases hhlo h0 (Option.mem_def.mpr hch) _ hget0 with h1 | ⟨x, hx, hxc⟩
            · left
              rw [hl2, if_neg hnc2h, h1]
            · right
              refine ⟨x, ?_, ?_⟩
              · rw [hl2, if_neg hnc2h, hx]
              · intro hxin
                rcases List.mem_append.mp hxin with h1 | h1
                · exact hxc (by rw [hceq]; exact List.mem_append_left _ h1)
                · exact hxc (by
                    rw [hceq]
                    exact List.mem_append_right _ (List.mem_cons_of_mem _ h1))
      · -- clean head splice
        have hceq2 : c = d :: c₂ := by rw [hceq, hc₁nil]; rfl
        have hcov : ∀ (i : Nat) (n' : NodeR K V), s'.nodes[i]? = some n' →
            i < s.nodes.length := by
          intro i n' hget'
          have := (List.getElem?_eq_some.mp hget').1
          rw [DH.common.len] at this
          exact this
        have hadj0 : LeftAdj s.nodes (d :: c₂) := by rw [← hceq2]; exact hadj
        refine ⟨?_, ?_, ?_, ?_⟩
        · rw [DH.common.levelsLen]
          exact hs.oneLevel
        · intro i n hget'
          have hget0 := List.getElem?_eq_getElem (hcov i n hget')
          rcases DH.common.sameMeta i _ hget0 with ⟨n2, hg2, _, _, _, hdw, _⟩
          rw [hget'] at hg2
          cases Option.some.inj hg2
          rw [hdw]
          exact hs.downNone i _ hget0
        · intro i n p hget' hp
          have hiv := hcov i n hget'
          have hget0 := List.getElem?_eq_getElem hiv
          rcases DH.links i _ hget0 with ⟨n2, hg2, _, hl2⟩
          rw [hget'] at hg2
          cases Option.some.inj hg2
          rw [hl2] at hp
          rw [DH.common.len]
          by_cases hid : i = d
          · rw [if_pos hid] at hp
            cases hp
          · rw [if_neg hid] at hp
            exact hs.leftV i _ p hget0 hp
        · intro lv' hlv'
          rw [DH.headJ] at hlv'
          cases Option.some.inj hlv'
          rcases DH.chain with ⟨lv2, hlv2, hch2⟩
          rw [DH.headJ] at hlv2
          cases Option.some.inj hlv2
          refine ⟨c₂, hch2, ?_, ?_, ?_⟩
          · show lv.size - 1 = _
            have h0 : c₁.length = 0 := by rw [hc₁nil]; rfl
            omega
          · refine leftAdj_transfer_tail (List.chain'_cons'.mp hadj0).2 ?_ ?_
            · intro y hy
              refine ⟨_, List.getElem?_eq_getElem (hval y ?_)⟩
              rw [hceq2]
              exact List.mem_cons_of_mem _ (List.mem_of_mem_drop hy)
            · intro y hy n hget
              rcases DH.links y n hget with ⟨n2, hg2, _, hl2⟩
              refine ⟨n2, hg2, ?_⟩
              rw [hl2, if_neg (fun h : y = d => hdc₂ (by
                rw [← h]
                exact List.mem_of_mem_drop hy))]
          · intro h hmem n hget'
            have hR := (List.chain'_cons'.mp hadj0).1 h hmem
            have hhc2 : h ∈ c₂ := List.mem_of_mem_head? hmem
            have hhv : h < s.nodes.length := hval h (by
              rw [hceq2]
              exact List.mem_cons_of_mem _ hhc2)
            have hget0 := List.getElem?_eq_getElem hhv
            rcases DH.links h _ hget0 with ⟨n2, hg2, _, hl2⟩
            rw [hget'] at hg2
            cases Option.some.inj hg2
            right
            refine ⟨d, ?_, hdc₂⟩
            rw [hl2, if_neg (fun hh : h = d => hdc₂ (by
              rw [← hh]
              exact hhc2)), hR _ hget0]
      · -- the corrupting branch cannot fire on a standalone level
        exfalso
        have hxc : x ∈ c := alive_subset_chain hlevels hchain hs.downNone x DC.xAlive
        rw [hceq, hc₁nil] at hxc
        rcases List.mem_cons.mp (by simpa using hxc) with h1 | h1
        · exact DC.xNotChain.2 h1
        · exact DC.xNotChain.1 h1

/-- A fresh `SkipList::new` is a well-formed standalone level. -/
theorem sinv_slNew : SInv (slNew : SL K V) := by
  refine ⟨rfl, ?_, ?_, ?_⟩
  · intro i n h
    simp [slNew] at h
  · intro i n p h
    simp [slNew] at h
  · intro lv hlv
    simp [slNew] at hlv
    subst hlv
    refine ⟨[], ?_, rfl, List.chain'_nil, ?_⟩
    · exact .nil
    · intro h hmem
      simp at hmem

/-- Standalone runs of `Level::insert`/`Level::delete` never fail and
maintain the invariant. -/
theorem foldl_runLOp_sinv : ∀ (ops : List (LOp K V)) (s : SL K V), SInv s →
    ∃ s', ops.foldlM runLOp s = .ok s' ∧ SInv s' := by
  intro ops
  induction ops with
  | nil =>
    intro s hs
    exact ⟨s, rfl, hs⟩
  | cons op rest ih =>
    intro s hs
    cases op with
    | lins k v =>
      rcases levelInsert_sinv hs k v with ⟨s1, heq, hs1⟩
      rcases ih s1 hs1 with ⟨s2, heq2, hs2⟩
      refine ⟨s2, ?_, hs2⟩
      have hstep : runLOp s (LOp.lins k v) = .ok s1 := by
        show (levelInsert s 0 k v).map Prod.fst = _
        rw [heq]
        rfl
      rw [List.foldlM_cons, hstep, pmBindOk]
      exact heq2
    | ldel k =>
      rcases levelDelete_sinv hs k with ⟨s1, heq, hs1⟩
      rcases ih s1 hs1 with ⟨s2, heq2, hs2⟩
      refine ⟨s2, ?_, hs2⟩
      have hstep : runLOp s (LOp.ldel k) = .ok s1 := heq
      rw [List.foldlM_cons, hstep, pmBindOk]
      exact heq2

/-- Every state reached by a standalone-level run satisfies the
invariant. -/
theorem runLOps_sinv {ops : List (LOp K V)} {s : SL K V} (h : runLOps ops = .ok s) :
    SInv s := by
  rcases foldl_runLOp_sinv ops slNew sinv_slNew with ⟨s', heq, hs'⟩
  have h2 : (Except.ok s : PM (SL K V)) = Except.ok s' := by
    rw [← h]
    exact heq
  exact (Except.ok.inj h2).symm ▸ hs'

/-! ### `Level::bisect` and `Level::bisect_after` refine the spec walk -/

theorem bisectSpec_none {a : List (NodeR K V)} {t : K} :
    ∀ {l : List Nat}, (∀ i ∈ l, ∃ n : NodeR K V, a[i]? = some n ∧ ¬ t < n.key) →
      ∀ prev, bisectSpec a t l prev = Option.or l.getLast? prev := by
  intro l
  induction l with
  | nil => intro _ prev; rfl
  | cons x rest ih =>
    intro H prev
    rcases H x (List.mem_cons_self _ _) with ⟨n, hget, hle⟩
    unfold bisectSpec
    rw [hget]
    dsimp only
    rw [if_neg hle, ih (fun i hi => H i (List.mem_cons_of_mem _ hi)) (some x),
      getLast?_cons_or]
    cases hl : rest.getLast? <;> rfl

theorem bisectSpec_found {a : List (NodeR K V)} {t : K} {g : Nat} {gn : NodeR K V}
    (hg : a[g]? = some gn) (hgt : t < gn.key) :
    ∀ {w : List Nat}, (∀ i ∈ w, ∃ n : NodeR K V, a[i]? = some n ∧ ¬ t < n.key) →
      ∀ (w₂ : List Nat) (prev : Option Nat),
        bisectSpec a t (w ++ g :: w₂) prev = Option.or w.getLast? prev := by
  intro w
  induction w with
  | nil =>
    intro _ w₂ prev
    show bisectSpec a t (g :: w₂) prev = _
    unfold bisectSpec
    rw [hg]
    dsimp only
    rw [if_pos hgt]
    rfl
  | cons x rest ih =>
    intro H w₂ prev
    rcases H x (List.mem_cons_self _ _) with ⟨n, hget, hle⟩
    show bisectSpec a t (x :: (rest ++ g :: w₂)) prev = _
    unfold bisectSpec
    rw [hget]
    dsimp only
    rw [if_neg hle, ih (fun i hi => H i (List.mem_cons_of_mem _ hi)) w₂ (some x),
      getLast?_cons_or]
    cases hl : rest.getLast? <;> rfl

theorem baLoop_none {s : SL K V} {t : K} :
    ∀ {l : List Nat} {h0 : Option Nat}, IsChainFrom s.nodes h0 l →
      ∀ {fuel : Nat}, l.length < fuel →
        (∀ i ∈ l, ∀ n : NodeR K V, s.nodes[i]? = some n → ¬ t < n.key) →
        ∀ prev, baLoop s t fuel h0 prev = .ok (Option.or l.getLast? prev) := by
  intro l h0 hc
  induction hc with
  | nil => intro fuel _ _ prev; cases fuel <;> rfl
  | @cons i n rest hget hrest ih =>
    intro fuel hfuel H prev
    cases fuel with
    | zero => simp at hfuel
    | succ fuel =>
      show baLoop s t (fuel + 1) (some i) prev = _
      unfold baLoop
      have hgn : getNode s i = .ok n := by unfold getNode; rw [hget]
      rw [hgn, pmBindOk, if_neg (H i (List.mem_cons_self _ _) n hget),
        ih (by simpa using hfuel) (fun x hx m hm => H x (List.mem_cons_of_mem _ hx) m hm)
          (some i), getLast?_cons_or]
      cases hl : rest.getLast? <;> rfl

theorem baLoop_found {s : SL K V} {t : K} {g : Nat} {gn : NodeR K V}
    (hg : s.nodes[g]? = some gn) (hgt : t < gn.key) :
    ∀ {w : List Nat} {h0 : Option Nat}, IsPathFrom s.nodes h0 w (some g) →
      (∀ i ∈ w, ∀ n : NodeR K V, s.nodes[i]? = some n → ¬ t < n.key) →
      ∀ {fuel : Nat}, w.length + 1 < fuel → ∀ prev,
        baLoop s t fuel h0 prev = .ok (match upgradeW s gn.left with
          | some o => some o
          | none => some g) := by
  intro w
  induction w with
  | nil =>
    intro h0 hp H fuel hfuel prev
    have hh0 : h0 = some g := isPathFrom_nil_inv hp
    subst hh0
    cases fuel with
    | zero => simp at hfuel
    | succ fuel =>
      show baLoop s t (fuel + 1) (some g) prev = _
      unfold baLoop
      have hgn : getNode s g = .ok gn := by unfold getNode; rw [hg]
      rw [hgn, pmBindOk, if_pos hgt]
      cases hu : upgradeW s gn.left <;> rfl
  | cons x rest ih =>
    intro h0 hp H fuel hfuel prev
    have hinv : ∃ n : NodeR K V, s.nodes[x]? = some n ∧
        IsPathFrom s.nodes n.right rest (some g) := by
      cases hp with
      | cons hget hrest => exact ⟨_, hget, hrest⟩
    obtain ⟨n, hget, hrest⟩ := hinv
    have hh0 : h0 = some x := isPathFrom_head hp
    subst hh0
    cases fuel with
    | zero => simp at hfuel
    | succ fuel =>
      show baLoop s t (fuel + 1) (some x) prev = _
      unfold baLoop
      have hgn : getNode s x = .ok n := by unfold getNode; rw [hget]
      rw [hgn, pmBindOk, if_neg (H x (List.mem_cons_self _ _) n hget)]
      exact ih hrest (fun i hi m hm => H i (List.mem_cons_of_mem _ hi) m hm)
        (by simpa using hfuel) (some x)

theorem dropWhile_to_anchor {anchor : Nat} :
    ∀ {c₁ : List Nat}, (∀ i ∈ c₁, i ≠ anchor) → ∀ c₂ : List Nat,
      (c₁ ++ anchor :: c₂).dropWhile (fun x => x ≠ anchor) = anchor :: c₂ := by
  intro c₁
  induction c₁ with
  | nil =>
    intro _ c₂
    show (anchor :: c₂).dropWhile _ = _
    rw [List.dropWhile_cons]
    simp
  | cons x t ih =>
    intro H c₂
    have hx : x ≠ anchor := H x (List.mem_cons_self _ _)
    show ((x :: (t ++ anchor :: c₂)).dropWhile _) = _
    rw [List.dropWhile_cons, if_pos (by simpa using hx)]
    exact ih (fun i hi => H i (List.mem_cons_of_mem _ hi)) c₂

/-- Claim C7: on every standalone level reachable through
`Level::insert`/`Level::delete`, `Level::bisect(k)` computes exactly
the spec-side walk `bisectSpec`: the predecessor of the first node with
key strictly greater than `k`, the last node when no key exceeds `k`,
and absent when the level is empty or every key exceeds `k`. -/
theorem c7_bisect_refines_spec {ops : List (LOp K V)} {s : SL K V}
    (hrun : runLOps ops = .ok s) (k : K) {c : List Nat} (hc : IsChainOf s 0 c) :
    levelBisect s 0 k = .ok (bisectSpec s.nodes k c none) := by
  have hs := runLOps_sinv hrun
  rcases hc with ⟨lv, hlv, hchain⟩
  obtain ⟨c0, hchain0, hsz, hadj, hhlo⟩ := hs.chain lv hlv
  have hcc : c0 = c := isChainFrom_fun hchain0 hchain
  subst hcc
  have hgl : getLevel s 0 = .ok lv := by unfold getLevel; rw [hlv]
  have hfuel : c0.length < fuelOf s := Nat.lt_succ_of_le (isChainFrom_length_le hchain0)
  have hval : ∀ i ∈ c0, i < s.nodes.length := isChainFrom_valid hchain0
  have hres : ∀ i ∈ c0, ∃ n : NodeR K V, s.nodes[i]? = some n :=
    fun i hi => ⟨_, List.getElem?_eq_getElem (hval i hi)⟩
  have hfind := findGt_spec (k := k) hchain0 hfuel
  cases hfq : c0.find? (fun i => match s.nodes[i]? with
      | some n => decide (k < n.key)
      | none => false) with
  | none =>
    rw [hfq] at hfind
    have hlast := lastOf_spec hchain0 hfuel none
    unfold levelBisect
    rw [hgl, pmBindOk, hfind, pmBindOk]
    dsimp only
    rw [hlast, bisectSpec_none ?_ none]
    intro i hi
    rcases hres i hi with ⟨n, hget⟩
    refine ⟨n, hget, ?_⟩
    have h2 := List.find?_eq_none.mp hfq i hi
    rw [hget] at h2
    simpa using h2
  | some g =>
    rw [hfq] at hfind
    have hpredg := List.find?_some hfq
    obtain ⟨gn, hgget, hggt⟩ : ∃ gn : NodeR K V, s.nodes[g]? = some gn ∧ k < gn.key := by
      cases hget : s.nodes[g]? with
      | none => rw [hget] at hpredg; simp at hpredg
      | some n =>
        rw [hget] at hpredg
        exact ⟨n, rfl, by simpa using hpredg⟩
    have hgn : getNode s g = .ok gn := by unfold getNode; rw [hgget]
    rcases find?_split hfq with ⟨w₁, w₂, hw, hwf⟩
    have hw1le : ∀ i ∈ w₁, ∃ n : NodeR K V, s.nodes[i]? = some n ∧ ¬ k < n.key := by
      intro i hi
      rcases hres i (by rw [hw]; exact List.mem_append_left _ hi) with ⟨n, hget⟩
      refine ⟨n, hget, ?_⟩
      have h2 := hwf i hi
      rw [hget] at h2
      simpa using h2
    unfold levelBisect
    rw [hgl, pmBindOk, hfind, pmBindOk]
    dsimp only
    rw [hgn, pmBindOk, hw, bisectSpec_found hgget hggt hw1le w₂ none, Option.or_none]
    rcases List.eq_nil_or_concat w₁ with h1 | ⟨w₁x, q, h1⟩
    · subst h1
      have hch : c0.head? = some g := by rw [hw]; rfl
      rcases hhlo g (Option.mem_def.mpr hch) gn hgget with h2 | ⟨x, hx, hxc⟩
      · unfold upgradeW
        rw [h2]
        rfl
      · have hlevels : s.levels = [lv] := levels_eq_singleton hs.oneLevel hlv
        have hxdead : x ∉ aliveIds s := fun hmem =>
          hxc (alive_subset_chain hlevels hchain0 hs.downNone x hmem)
        unfold upgradeW
        rw [hx]
        dsimp only
        rw [if_neg hxdead]
        rfl
    · rw [List.concat_eq_append] at h1
      rw [h1] at hw
      have hadj2 : LeftAdj s.nodes ((w₁x ++ [q]) ++ g :: w₂) := by rw [← hw]; exact hadj
      have hR := (List.chain'_append.mp hadj2).2.2
      have hgl2 : gn.left = some q :=
        hR q (Option.mem_def.mpr (List.getLast?_concat w₁x)) g (Option.mem_def.mpr rfl)
          gn hgget
      have hqmem : q ∈ c0 := by
        rw [hw]
        exact List.mem_append_left _ (List.mem_append_right _ (List.mem_cons_self _ _))
      have halive : q ∈ aliveIds s := chain_subset_alive ⟨lv, hlv, hchain0⟩ q hqmem
      unfold upgradeW
      rw [hgl2]
      dsimp only
      rw [if_pos halive, h1, List.getLast?_concat]
      rfl

/-- Witness for C7 at the singleton level `[(1, 1)]` reached by one
`Level::insert`. -/
theorem c7_refines_witness :
    runLOps [LOp.lins 1 1] =
      .ok (SL.mk 0 [LevelR.mk 1 (some 0)] [NodeR.mk 1 1 none none none none 0]) ∧
    levelBisect (SL.mk 0 [LevelR.mk 1 (some 0)]
        [NodeR.mk 1 1 none none none none 0]) 0 1 =
      .ok (bisectSpec (SL.mk 0 [LevelR.mk 1 (some 0)]
        [NodeR.mk (1 : Nat) (1 : Nat) none none none none 0]).nodes 1 [0] none) :=
  ⟨by decide, c7_bisect_refines_spec
    (show runLOps [LOp.lins 1 1] = .ok (SL.mk 0 [LevelR.mk 1 (some 0)]
      [NodeR.mk 1 1 none none none none 0]) by decide) 1
    ⟨LevelR.mk 1 (some 0), rfl, .cons rfl .nil⟩⟩

/-- Claim C8: on every standalone level reachable through
`Level::insert`/`Level::delete`, for every anchor node in the level's
chain and every target key, `Level::bisect_after(anchor, t)` computes
the spec-side walk `baSpec`: absent when the anchor's key exceeds `t`,
otherwise the predecessor of the first scanned node with key strictly
greater than `t`, or the last node when the scan exhausts the level. -/
theorem c8_bisect_after_refines_spec {ops : List (LOp K V)} {s : SL K V}
    (hrun : runLOps ops = .ok s) (t : K) {c : List Nat} (hc : IsChainOf s 0 c)
    {anchor : Nat} (hanc : anchor ∈ c) :
    bisectAfter s anchor t = .ok (baSpec s.nodes t c anchor) := by
  have hs := runLOps_sinv hrun
  rcases hc with ⟨lv, hlv, hchain⟩
  obtain ⟨c0, hchain0, hsz, hadj, hhlo⟩ := hs.chain lv hlv
  have hcc : c0 = c := isChainFrom_fun hchain0 hchain
  subst hcc
  have hval : ∀ i ∈ c0, i < s.nodes.length := isChainFrom_valid hchain0
  have hnd : c0.Nodup := isChainFrom_nodup hchain0
  obtain ⟨an, hanget⟩ : ∃ an : NodeR K V, s.nodes[anchor]? = some an :=
    ⟨_, List.getElem?_eq_getElem (hval anchor hanc)⟩
  have hgna : getNode s anchor = .ok an := by unfold getNode; rw [hanget]
  by_cases hlt : t < an.key
  · unfold bisectAfter
    rw [hgna, pmBindOk, if_pos hlt]
    unfold baSpec
    rw [hanget]
    dsimp only
    rw [if_pos hlt]
    rfl
  · rcases List.append_of_mem hanc with ⟨c₁, c₂, hceq⟩
    have hnd2 : (c₁ ++ anchor :: c₂).Nodup := by rw [← hceq]; exact hnd
    rw [List.nodup_append] at hnd2
    have hc₁ne : ∀ i ∈ c₁, i ≠ anchor := by
      intro i hi he
      exact hnd2.2.2 hi (by rw [he]; exact List.mem_cons_self _ _)
    rcases isPathFrom_split (isChainFrom_iff_isPathFrom.mp
        (show IsChainFrom s.nodes lv.head (c₁ ++ anchor :: c₂) by
          rw [← hceq]; exact hchain0)) with ⟨m, hp1, hp2⟩
    have hm : m = some anchor := by
      have h2 := isPathFrom_head hp2
      simpa [Option.or] using h2
    subst hm
    have hsufchain : IsChainFrom s.nodes (some anchor) (anchor :: c₂) :=
      isChainFrom_iff_isPathFrom.mpr hp2
    have hsufmem : ∀ i ∈ anchor :: c₂, i ∈ c0 := by
      intro i hi
      rw [hceq]
      exact List.mem_append_right _ hi
    have hspec : baSpec s.nodes t c0 anchor = bisectSpec s.nodes t (anchor :: c₂) none := by
      unfold baSpec
      rw [hanget]
      dsimp only
      rw [if_neg hlt, hceq, dropWhile_to_anchor hc₁ne c₂]
    rw [hspec]
    unfold bisectAfter
    rw [hgna, pmBindOk, if_neg hlt]
    have hfuel2 : (anchor :: c₂).length < fuelOf s :=
      Nat.lt_succ_of_le (isChainFrom_length_le hsufchain)
    cases hfq : (anchor :: c₂).find? (fun i => match s.nodes[i]? with
        | some n => decide (t < n.key)
        | none => false) with
    | none =>
      have hle : ∀ i ∈ anchor :: c₂, ∀ n : NodeR K V, s.nodes[i]? = some n →
          ¬ t < n.key := by
        intro i hi n hget
        have h2 := List.find?_eq_none.mp hfq i hi
        rw [hget] at h2
        simpa using h2
      rw [baLoop_none hsufchain hfuel2 hle _, bisectSpec_none ?_ none]
      · rw [getLast?_cons_or]
        cases hgl2 : c₂.getLast? <;> rfl
      · intro i hi
        obtain ⟨n, hget⟩ : ∃ n : NodeR K V, s.nodes[i]? = some n :=
          ⟨_, List.getElem?_eq_getElem (hval i (hsufmem i hi))⟩
        exact ⟨n, hget, hle i hi n hget⟩
    | some g =>
      have hpredg := List.find?_some hfq
      obtain ⟨gn, hgget, hggt⟩ : ∃ gn : NodeR K V, s.nodes[g]? = some gn ∧ t < gn.key := by
        cases hget : s.nodes[g]? with
        | none => rw [hget] at hpredg; simp at hpredg
        | some n =>
          rw [hget] at hpredg
          exact ⟨n, rfl, by simpa using hpredg⟩
      rcases find?_split hfq with ⟨w₁, w₂, hw, hwf⟩
      have hw1le : ∀ i ∈ w₁, ∀ n : NodeR K V, s.nodes[i]? = some n → ¬ t < n.key := by
        intro i hi n hget
        have h2 := hwf i hi
        rw [hget] at h2
        simpa using h2
      obtain ⟨w₁x, q, h1⟩ : ∃ L b, w₁ = L ++ [b] := by
        rcases List.eq_nil_or_concat w₁ with h1 | ⟨L, b, h1⟩
        · exfalso
          rw [h1] at hw
          have hga : g = anchor := by
            have h2 := congrArg List.head? hw
            exact (by simpa using h2 : anchor = g).symm
          rw [hga, hanget] at hpredg
          exact hlt (by simpa using hpredg)
        · exact ⟨L, b, by rw [h1, List.concat_eq_append]⟩
      rcases isPathFrom_split (show IsPathFrom s.nodes (some anchor) (w₁ ++ g :: w₂) none by
        rw [← hw]; exact hp2) with ⟨m2, hpw1, hpw2⟩
      have hm2 : m2 = some g := by
        have h2 := isPathFrom_head hpw2
        simpa [Option.or] using h2
      subst hm2
      have hassoc : c0 = ((c₁ ++ w₁x) ++ [q]) ++ g :: w₂ := by
        rw [hceq, show anchor :: c₂ = w₁ ++ g :: w₂ from hw, h1]
        simp [List.append_assoc]
      have hadj2 : LeftAdj s.nodes (((c₁ ++ w₁x) ++ [q]) ++ g :: w₂) := by
        rw [← hassoc]; exact hadj
      have hR := (List.chain'_append.mp hadj2).2.2
      have hgl2 : gn.left = some q :=
        hR q (Option.mem_def.mpr (List.getLast?_concat _)) g (Option.mem_def.mpr rfl)
          gn hgget
      have hqmem : q ∈ c0 := by
        rw [hassoc]
        exact List.mem_append_left _ (List.mem_append_right _ (List.mem_cons_self _ _))
      have halive : q ∈ aliveIds s := chain_subset_alive ⟨lv, hlv, hchain0⟩ q hqmem
      have hup : upgradeW s gn.left = some q := by
        unfold upgradeW
        rw [hgl2]
        dsimp only
        rw [if_pos halive]
      have hfw : w₁.length + 1 < fuelOf s := by
        have hlen : (w₁ ++ g :: w₂).length ≤ s.nodes.length := by
          rw [← hw]; exact isChainFrom_length_le hsufchain
        simp only [List.length_append, List.length_cons] at hlen
        show w₁.length + 1 < s.nodes.length + 1
        omega
      rw [baLoop_found hgget hggt hpw1 hw1le hfw _, hup]
      rw [hw, bisectSpec_found hgget hggt ?_ w₂ none, Option.or_none, h1,
        List.getLast?_concat]
      intro i hi
      obtain ⟨n, hget⟩ : ∃ n : NodeR K V, s.nodes[i]? = some n :=
        ⟨_, List.getElem?_eq_getElem (hval i (hsufmem i (by
          rw [hw]
          exact List.mem_append_left _ hi)))⟩
      exact ⟨n, hget, hw1le i hi n hget⟩

/-- Witness for C8 at the two-element level `[(1, 1), (2, 2)]` reached
by two `Level::insert`s, anchored at the head with target 2. -/
theorem c8_refines_witness :
    runLOps [LOp.lins 1 1, LOp.lins 2 2] =
      .ok (SL.mk 0 [LevelR.mk 2 (some 0)]
        [NodeR.mk 1 1 (some 1) none none none 0, NodeR.mk 2 2 none none (some 0) none 0]) ∧
    bisectAfter (SL.mk 0 [LevelR.mk 2 (some 0)]
        [NodeR.mk 1 1 (some 1) none none none 0,
         NodeR.mk 2 2 none none (some 0) none 0]) 0 2 =
      .ok (baSpec (SL.mk 0 [LevelR.mk 2 (some 0)]
        [NodeR.mk (1 : Nat) (1 : Nat) (some 1) none none none 0,
         NodeR.mk 2 2 none none (some 0) none 0]).nodes 2 [0, 1] 0) :=
  ⟨by decide, c8_bisect_after_refines_spec
    (show runLOps [LOp.lins 1 1, LOp.lins 2 2] = .ok (SL.mk 0 [LevelR.mk 2 (some 0)]
      [NodeR.mk 1 1 (some 1) none none none 0, NodeR.mk 2 2 none none (some 0) none 0])
      by decide) 2
    ⟨LevelR.mk 2 (some 0), rfl, .cons rfl (.cons rfl .nil)⟩ (by decide)⟩

/-- Claim C9 (amended): `Level::insert` and `Level::delete` do preserve
the invariant that the size counter counts the nodes reachable from the
head and that `size = 0` iff the head is absent — but `insert_after`
does not (see `c9_counterexample`), so the claim holds only for the
insert/delete operation set. -/
theorem c9_level_size_invariant {ops : List (LOp K V)} {s : SL K V}
    (hrun : runLOps ops = .ok s) :
    ∃ (lv : LevelR) (c : List Nat), s.levels[0]? = some lv ∧
      IsChainFrom s.nodes lv.head c ∧ lv.size = c.length ∧
      (lv.size = 0 ↔ lv.head = none) := by
  have hs := runLOps_sinv hrun
  obtain ⟨lv, hlv⟩ := levels_head_exists (s := s) hs.oneLevel
  obtain ⟨c, hchain, hsz, _, _⟩ := hs.chain lv hlv
  refine ⟨lv, c, hlv, hchain, hsz, ?_, ?_⟩
  · intro h0
    rw [hsz, List.length_eq_zero] at h0
    rw [h0] at hchain
    exact isChainFrom_nil_head hchain
  · intro hh
    rw [hh] at hchain
    cases hchain
    rw [hsz]
    rfl

/-- Witness for C9 (amended) after one insert and one delete. -/
theorem c9_invariant_witness :
    runLOps [LOp.lins 1 1, LOp.ldel 1] =
      .ok (SL.mk 0 [LevelR.mk 0 none] [NodeR.mk 1 1 none none none none 0]) ∧
    ∃ (lv : LevelR) (c : List Nat),
      (SL.mk 0 [LevelR.mk 0 none]
        [NodeR.mk (1 : Nat) (1 : Nat) none none none none 0]).levels[0]? = some lv ∧
      IsChainFrom (SL.mk 0 [LevelR.mk 0 none]
        [NodeR.mk (1 : Nat) (1 : Nat) none none none none 0]).nodes lv.head c ∧
      lv.size = c.length ∧ (lv.size = 0 ↔ lv.head = none) :=
  ⟨by decide, c9_level_size_invariant
    (show runLOps [LOp.lins 1 1, LOp.ldel 1] = .ok (SL.mk 0 [LevelR.mk 0 none]
      [NodeR.mk 1 1 none none none none 0]) by decide)⟩

/-! ### The head-propagation branch of `SkipList::insert` -/

/-- Claim C4 (amended): the unconditional upward-propagation path of
`SkipList::insert` is taken iff the inserted node became the new
level-0 head (the scanned `≤ k` prefix of the old chain is empty)
**or** the pre-insert level-0 head already carries exactly the key `k`.
The code compares the post-insert head's key with `k`, not the head's
identity with the fresh node, so a duplicate of the current minimum
also triggers the propagation even though the fresh node did not become
the head (`c4_counterexample`). -/
theorem c4_headprop_iff {s : SL K V} {lv : LevelR} {c : List Nat} {k : K} {v : V}
    {flips : List Bool} {out : SL K V × Bool}
    (hlv : s.levels[0]? = some lv) (hchain : IsChainFrom s.nodes lv.head c)
    (hok : slInsert s k v flips = .ok out) :
    out.2 = true ↔ (lePrefixOf s.nodes k c = [] ∨
      ∃ (h0 : Nat) (n0 : NodeR K V), lv.head = some h0 ∧ s.nodes[h0]? = some n0 ∧
        n0.key = k) := by
  obtain ⟨s', heq, eff⟩ := levelInsert_spec k v hlv hchain
  have hPG : lePrefixOf s.nodes k c ++ gtSuffixOf s.nodes k c = c :=
    List.takeWhile_append_dropWhile _ _
  have hval : ∀ i ∈ c, i < s.nodes.length := isChainFrom_valid hchain
  unfold slInsert at hok
  rw [heq, pmBindOk] at hok
  dsimp only at hok
  have hgl : getLevel s' 0 = .ok (LevelR.mk (lv.size + 1)
      (if lePrefixOf s.nodes k c = [] then some s.nodes.length else lv.head)) := by
    unfold getLevel
    rw [eff.levelsJ]
  rw [hgl, pmBindOk] at hok
  dsimp only at hok
  by_cases hP : lePrefixOf s.nodes k c = []
  · rw [if_pos hP] at hok
    dsimp only at hok
    have hgn : getNode s' s.nodes.length = .ok (NodeR.mk k v
        ((gtSuffixOf s.nodes k c).head?) none
        ((lePrefixOf s.nodes k c).getLast?) none 0) := by
      unfold getNode
      rw [eff.newNode]
    rw [hgn, pmBindOk] at hok
    dsimp only at hok
    rw [if_pos rfl] at hok
    cases hh : headProp s' k v (s'.levels.length + 1) 1 s.nodes.length with
    | error e =>
      rw [hh] at hok
      simp at hok
    | ok s2 =>
      rw [hh, pmBindOk] at hok
      have h2 := Except.ok.inj hok
      constructor
      · intro _
        exact .inl hP
      · intro _
        rw [← h2]
  · rw [if_neg hP] at hok
    obtain ⟨p0, P2, hPc⟩ := List.exists_cons_of_ne_nil hP
    have hp0c : p0 ∈ c := by
      rw [← hPG]
      exact List.mem_append_left _ (by rw [hPc]; exact List.mem_cons_self _ _)
    have hch : c.head? = some p0 := by
      rw [← hPG, hPc]
      rfl
    have hlvh : lv.head = some p0 := by
      cases hc0 : c with
      | nil =>
        rw [hc0] at hch
        cases hch
      | cons a ct =>
        rw [hc0] at hch
        have ha : a = p0 := by simpa using hch
        rw [hc0] at hchain
        rw [← ha]
        exact isChainFrom_cons_head hchain
    have hp0v : p0 < s.nodes.length := hval p0 hp0c
    have hget0 := List.getElem?_eq_getElem hp0v
    rcases eff.oldNodes p0 _ hget0 with ⟨n', hget', hkey, _, _, _, _, _, _⟩
    have hgn : getNode s' p0 = .ok n' := by unfold getNode; rw [hget']
    rw [hlvh] at hok
    dsimp only at hok
    rw [hgn, pmBindOk] at hok
    by_cases hk : n'.key = k
    · rw [if_pos hk] at hok
      rw [hkey] at hk
      cases hh : headProp s' k v (s'.levels.length + 1) 1 p0 with
      | error e =>
        rw [hh] at hok
        simp at hok
      | ok s2 =>
        rw [hh, pmBindOk] at hok
        have h2 := Except.ok.inj hok
        constructor
        · intro _
          exact .inr ⟨p0, _, hlvh, hget0, hk⟩
        · intro _
          rw [← h2]
    · rw [if_neg hk] at hok
      cases hh : coinLoop s' k v s.nodes.length 1 flips with
      | error e =>
        rw [hh] at hok
        simp at hok
      | ok s2 =>
        rw [hh, pmBindOk] at hok
        have h2 := Except.ok.inj hok
        constructor
        · intro hfalse
          exfalso
          rw [← h2] at hfalse
          simp at hfalse
        · intro hrhs
          exfalso
          rcases hrhs with h3 | ⟨h0, n0, hh0, hn0, hkk⟩
          · exact hP h3
          · rw [hlvh] at hh0
            cases Option.some.inj hh0
            rw [hget0] at hn0
            cases Option.some.inj hn0
            rw [← hkey] at hkk
            exact hk hkk

/-- Witness for C4 (amended): the very first insert into an empty list
takes the propagation branch, and the characterisation applies. -/
theorem c4_headprop_witness :
    (slNew : SL Nat Nat).levels[0]? = some (LevelR.mk 0 none) ∧
    slInsert (slNew : SL Nat Nat) 1 1 [] =
      .ok (SL.mk 1 [LevelR.mk 1 (some 0)] [NodeR.mk 1 1 none none none none 0], true) ∧
    ((SL.mk 1 [LevelR.mk 1 (some 0)]
        [NodeR.mk (1 : Nat) (1 : Nat) none none none none 0], true).2 = true ↔
      (lePrefixOf (slNew : SL Nat Nat).nodes 1 [] = [] ∨
        ∃ (h0 : Nat) (n0 : NodeR Nat Nat), (LevelR.mk 0 none).head = some h0 ∧
          (slNew : SL Nat Nat).nodes[h0]? = some n0 ∧ n0.key = 1)) :=
  ⟨by decide, by decide, c4_headprop_iff (by decide) .nil
    (show slInsert (slNew : SL Nat Nat) 1 1 [] = .ok (SL.mk 1 [LevelR.mk 1 (some 0)]
      [NodeR.mk 1 1 none none none none 0], true) by decide)⟩

/-! ### Safety infrastructure: ranks, liveness validity, chain existence -/

theorem upgradeW_some_inv {s : SL K V} {o : Option Nat} {p : Nat}
    (h : upgradeW s o = some p) : o = some p ∧ p ∈ aliveIds s := by
  cases o with
  | none => cases h
  | some i =>
    unfold upgradeW at h
    dsimp only at h
    by_cases hm : i ∈ aliveIds s
    · rw [if_pos hm] at h
      cases Option.some.inj h
      exact ⟨rfl, hm⟩
    · rw [if_neg hm] at h
      simp at h

theorem alive_valid {s : SL K V} (hc : SafeCore s) :
    ∀ i ∈ aliveIds s, i < s.nodes.length := by
  have hstep : ∀ (cur : List Nat), (∀ x ∈ cur, x < s.nodes.length) →
      ∀ x ∈ aliveStep s cur, x < s.nodes.length := by
    intro cur hcur x hx
    unfold aliveStep at hx
    rw [List.mem_dedup] at hx
    rcases List.mem_append.mp hx with h1 | h1
    · exact hcur x h1
    · rcases List.mem_flatMap.mp h1 with ⟨y, hy, hxy⟩
      unfold strongNext at hxy
      cases hget : s.nodes[y]? with
      | none => rw [hget] at hxy; cases hxy
      | some n =>
        rw [hget] at hxy
        rcases List.mem_append.mp hxy with h2 | h2
        · rcases hc.rightT y n x hget (Option.mem_def.mp (Option.mem_toList.mp h2))
            with ⟨m, hm, _⟩
          exact (List.getElem?_eq_some.mp hm).1
        · rcases hc.downT y n x hget (Option.mem_def.mp (Option.mem_toList.mp h2))
            with ⟨m, hm, _⟩
          exact (List.getElem?_eq_some.mp hm).1
  have hiter : ∀ (m : Nat) (cur : List Nat), (∀ x ∈ cur, x < s.nodes.length) →
      ∀ x ∈ (aliveStep s)^[m] cur, x < s.nodes.length := by
    intro m
    induction m with
    | zero => intro cur h x hx; exact h x (by simpa using hx)
    | succ m ih =>
      intro cur h x hx
      rw [Function.iterate_succ_apply] at hx
      exact ih _ (hstep cur h) x hx
  intro i hi
  unfold aliveIds at hi
  refine hiter _ _ ?_ i hi
  intro x hx
  rcases List.mem_filterMap.mp hx with ⟨lv, hlv, hhead⟩
  rcases List.getElem?_of_mem hlv with ⟨j, hj⟩
  rcases hc.headT j lv x hj hhead with ⟨n, hn, _⟩
  exact (List.getElem?_eq_some.mp hn).1

theorem chain_of_rank {s : SL K V} {r : Nat → Nat} (hr : RankOk s r)
    (hright : ∀ (i : Nat) (n : NodeR K V) (j : Nat), s.nodes[i]? = some n →
      n.right = some j → ∃ m : NodeR K V, s.nodes[j]? = some m) :
    ∀ (N i : Nat) (n : NodeR K V), s.nodes[i]? = some n →
      ((Finset.range s.nodes.length).filter (fun x => r i < r x)).card ≤ N →
      ∃ l, IsChainFrom s.nodes (some i) l := by
  intro N
  induction N with
  | zero =>
    intro i n hget hcard
    cases hrt : n.right with
    | none => exact ⟨[i], .cons hget (by rw [hrt]; exact .nil)⟩
    | some j =>
      exfalso
      rcases hright i n j hget hrt with ⟨m, hm⟩
      have hjv : j < s.nodes.length := (List.getElem?_eq_some.mp hm).1
      have hjm : j ∈ (Finset.range s.nodes.length).filter (fun x => r i < r x) := by
        simp only [Finset.mem_filter, Finset.mem_range]
        exact ⟨hjv, hr.1 i n j hget hrt⟩
      have h1 := Finset.card_pos.mpr ⟨j, hjm⟩
      omega
  | succ N ih =>
    intro i n hget hcard
    cases hrt : n.right with
    | none => exact ⟨[i], .cons hget (by rw [hrt]; exact .nil)⟩
    | some j =>
      rcases hright i n j hget hrt with ⟨m, hm⟩
      have hjv : j < s.nodes.length := (List.getElem?_eq_some.mp hm).1
      have hjm : j ∈ (Finset.range s.nodes.length).filter (fun x => r i < r x) := by
        simp only [Finset.mem_filter, Finset.mem_range]
        exact ⟨hjv, hr.1 i n j hget hrt⟩
      have hsub : (Finset.range s.nodes.length).filter (fun x => r j < r x) ⊆
          ((Finset.range s.nodes.length).filter (fun x => r i < r x)).erase j := by
        intro x hx
        simp only [Finset.mem_filter, Finset.mem_range] at hx
        refine Finset.mem_erase.mpr ⟨?_, ?_⟩
        · intro hxj
          subst hxj
          exact lt_irrefl _ hx.2
        · simp only [Finset.mem_filter, Finset.mem_range]
          exact ⟨hx.1, lt_trans (hr.1 i n j hget hrt) hx.2⟩
      have h1 := Finset.card_le_card hsub
      have h2 := Finset.card_erase_of_mem hjm
      have h3 := Finset.card_pos.mpr ⟨j, hjm⟩
      rcases ih j m hm (by omega) with ⟨l, hl⟩
      exact ⟨i :: l, .cons hget (by rw [hrt]; exact hl)⟩

theorem chain_from_start {s : SL K V} (hc : SafeCore s) (i : Nat) (n : NodeR K V)
    (hget : s.nodes[i]? = some n) : ∃ l, IsChainFrom s.nodes (some i) l := by
  rcases hc.rank with ⟨r, hr⟩
  exact chain_of_rank hr (fun i2 n2 j hg hr2 => (hc.rightT i2 n2 j hg hr2).imp
    (fun m hm => hm.1)) _ i n hget le_rfl

theorem chain_from_opt {s : SL K V} (hc : SafeCore s) (h0 : Option Nat)
    (hv : ∀ t, h0 = some t → ∃ n : NodeR K V, s.nodes[t]? = some n) :
    ∃ l, IsChainFrom s.nodes h0 l := by
  cases h0 with
  | none => exact ⟨[], .nil⟩
  | some t =>
    rcases hv t rfl with ⟨n, hn⟩
    exact chain_from_start hc t n hn

theorem chain_from_head {s : SL K V} (hc : SafeCore s) {j : Nat} {lv : LevelR}
    (hlv : s.levels[j]? = some lv) : ∃ c, IsChainFrom s.nodes lv.head c := by
  refine chain_from_opt hc lv.head ?_
  intro t ht
  rcases hc.headT j lv t hlv ht with ⟨n, hn, _⟩
  exact ⟨n, hn⟩

theorem chain_lvl {s : SL K V} (hc : SafeCore s) :
    ∀ {l : List Nat} {h0 : Option Nat}, IsChainFrom s.nodes h0 l →
      ∀ {j : Nat}, (∀ t, h0 = some t → ∃ n : NodeR K V, s.nodes[t]? = some n ∧ n.lvl = j) →
      ∀ i ∈ l, ∃ n : NodeR K V, s.nodes[i]? = some n ∧ n.lvl = j := by
  intro l h0 hchain
  induction hchain with
  | nil => intro j _ i hi; cases hi
  | @cons i n rest hget hrest ih =>
    intro j hh x hx
    rcases hh i rfl with ⟨n2, hn2, hlvl⟩
    rw [hget] at hn2
    cases Option.some.inj hn2
    rcases List.mem_cons.mp hx with rfl | hmem
    · exact ⟨n, hget, hlvl⟩
    · refine ih ?_ x hmem
      intro t ht
      rcases hc.rightT i n t hget ht with ⟨m, hm, hml⟩
      exact ⟨m, hm, by rw [hml, hlvl]⟩

/-- `Level::insert` (through its effect description `InsEff`) preserves
the core safety invariant; the `down` obligation is preserved
everywhere except at the fresh node, whose `down` link the callers wire
in the next statement. -/
theorem insEff_safeCore {s : SL K V} {j : Nat} {lv : LevelR} {c : List Nat}
    {k : K} {v : V} {s' : SL K V}
    (hc : SafeCore s) (hd : DownAll s)
    (hlv : s.levels[j]? = some lv) (hchain : IsChainFrom s.nodes lv.head c)
    (eff : InsEff s j lv c k v s') :
    SafeCore s' ∧
    (∀ (i : Nat) (n : NodeR K V), s'.nodes[i]? = some n → 1 ≤ n.lvl →
      i ≠ s.nodes.length → n.down.isSome) ∧
    s'.nodes[s.nodes.length]? = some (NodeR.mk k v ((gtSuffixOf s.nodes k c).head?)
      none ((lePrefixOf s.nodes k c).getLast?) none j) := by
  have hPG : lePrefixOf s.nodes k c ++ gtSuffixOf s.nodes k c = c :=
    List.takeWhile_append_dropWhile _ _
  have hval : ∀ i ∈ c, i < s.nodes.length := isChainFrom_valid hchain
  have hmemP : ∀ y ∈ lePrefixOf s.nodes k c, y ∈ c := by
    intro y hy
    rw [← hPG]
    exact List.mem_append_left _ hy
  have hmemG : ∀ y ∈ gtSuffixOf s.nodes k c, y ∈ c := by
    intro y hy
    rw [← hPG]
    exact List.mem_append_right _ hy
  have hchlvl : ∀ i ∈ c, ∃ n : NodeR K V, s.nodes[i]? = some n ∧ n.lvl = j := by
    refine chain_lvl hc hchain ?_
    intro t ht
    rcases hc.headT j lv t hlv ht with ⟨n, hn, hl⟩
    exact ⟨n, hn, hl⟩
  have hjlt : j < s.levels.length := (List.getElem?_eq_some.mp hlv).1
  have hold : ∀ (i : Nat) (n' : NodeR K V), s'.nodes[i]? = some n' → i ≠ s.nodes.length →
      ∃ n0 : NodeR K V, s.nodes[i]? = some n0 ∧ n'.key = n0.key ∧ n'.value = n0.value ∧
        n'.lvl = n0.lvl ∧ n'.down = n0.down ∧ n'.up = n0.up ∧
        n'.right = (if (lePrefixOf s.nodes k c).getLast? = some i
          then some s.nodes.length else n0.right) ∧
        n'.left = (if (gtSuffixOf s.nodes k c).head? = some i
          then some s.nodes.length else n0.left) := by
    intro i n' hget' hne
    have hi : i < s.nodes.length := by
      have h2 := (List.getElem?_eq_some.mp hget').1
      rw [eff.len] at h2
      omega
    have hget := List.getElem?_eq_getElem hi
    rcases eff.oldNodes i _ hget with ⟨n2, hg2, h3, h4, h5, h6, h7, h8, h9⟩
    rw [hget'] at hg2
    cases Option.some.inj hg2
    exact ⟨_, hget, h3, h4, h5, h6, h7, h8, h9⟩
  have hpersist : ∀ (i : Nat) (n0 : NodeR K V), s.nodes[i]? = some n0 →
      ∃ n' : NodeR K V, s'.nodes[i]? = some n' ∧ n'.key = n0.key ∧ n'.lvl = n0.lvl := by
    intro i n0 hget
    rcases eff.oldNodes i n0 hget with ⟨n', hg, h3, _, h5, _⟩
    exact ⟨n', hg, h3, h5⟩
  have hpg : ∀ p g, (lePrefixOf s.nodes k c).getLast? = some p →
      (gtSuffixOf s.nodes k c).head? = some g →
      ∃ pn : NodeR K V, s.nodes[p]? = some pn ∧ pn.right = some g := by
    intro p g hp hg
    obtain ⟨Px, hPx⟩ : ∃ Px, lePrefixOf s.nodes k c = Px ++ [p] := by
      rcases List.eq_nil_or_concat (lePrefixOf s.nodes k c) with h1 | ⟨L, b, h1⟩
      · rw [h1] at hp
        cases hp
      · rw [h1, List.concat_eq_append] at hp ⊢
        rw [List.getLast?_concat] at hp
        cases Option.some.inj hp
        exact ⟨L, rfl⟩
    have hpath := isChainFrom_iff_isPathFrom.mp (show IsChainFrom s.nodes lv.head
      (lePrefixOf s.nodes k c ++ gtSuffixOf s.nodes k c) by rw [hPG]; exact hchain)
    rcases isPathFrom_split hpath with ⟨m, hp1, hp2⟩
    have hm : m = some g := by
      obtain ⟨G2, hG2⟩ : ∃ G2, gtSuffixOf s.nodes k c = g :: G2 := by
        cases hG : (gtSuffixOf s.nodes k c) with
        | nil => rw [hG] at hg; cases hg
        | cons a t =>
          rw [hG] at hg
          have ha : a = g := by simpa using hg
          rw [← ha]
          exact ⟨t, rfl⟩
      have h2 := isPathFrom_head hp2
      rw [hG2] at h2
      simpa [Option.or] using h2
    subst hm
    rw [hPx] at hp1
    rcases isPathFrom_split hp1 with ⟨m2, hpa, hpb⟩
    rcases isPathFrom_singleton hpb with ⟨hm2, pn, hpn, hpr⟩
    exact ⟨pn, hpn, hpr⟩
  have hnew := eff.newNode
  refine ⟨⟨?_, ?_, ?_, ?_, ?_, ?_, ?_⟩, ?_, hnew⟩
  · intro h
    have h2 : s.levels.length = 0 := by rw [← eff.levelsLen, h]; rfl
    exact hc.levelsNe (List.length_eq_zero.mp h2)
  · -- rightT
    intro i n t hget' hrt
    by_cases hiN : i = s.nodes.length
    · subst hiN
      rw [hnew] at hget'
      cases Option.some.inj hget'
      have hrt2 : (gtSuffixOf s.nodes k c).head? = some t := hrt
      have htc : t ∈ c := hmemG t (List.mem_of_mem_head? (Option.mem_def.mpr hrt2))
      rcases hchlvl t htc with ⟨nt, hnt, hntl⟩
      rcases hpersist t nt hnt with ⟨nt', hnt', _, hl'⟩
      refine ⟨nt', hnt', ?_⟩
      rw [hl', hntl]
    · rcases hold i n hget' hiN with ⟨n0, hget0, _, _, hlvl0, _, _, hr8, _⟩
      rw [hr8] at hrt
      by_cases hPl : (lePrefixOf s.nodes k c).getLast? = some i
      · rw [if_pos hPl] at hrt
        cases Option.some.inj hrt
        refine ⟨_, hnew, ?_⟩
        have hic : i ∈ c := hmemP i (List.mem_of_mem_getLast? (Option.mem_def.mpr hPl))
        rcases hchlvl i hic with ⟨ni, hni, hnil⟩
        rw [hget0] at hni
        cases Option.some.inj hni
        rw [hlvl0, hnil]
      · rw [if_neg hPl] at hrt
        rcases hc.rightT i n0 t hget0 hrt with ⟨m, hm, hml⟩
        rcases hpersist t m hm with ⟨m', hm', _, hml'⟩
        refine ⟨m', hm', ?_⟩
        rw [hml', hml, hlvl0]
  · -- leftT
    intro i n t hget' hlt
    by_cases hiN : i = s.nodes.length
    · subst hiN
      rw [hnew] at hget'
      cases Option.some.inj hget'
      have hlt2 : (lePrefixOf s.nodes k c).getLast? = some t := hlt
      have htc : t ∈ c := hmemP t (List.mem_of_mem_getLast? (Option.mem_def.mpr hlt2))
      rcases hchlvl t htc with ⟨nt, hnt, hntl⟩
      rcases hpersist t nt hnt with ⟨nt', hnt', _, hl'⟩
      refine ⟨nt', hnt', ?_⟩
      rw [hl', hntl]
    · rcases hold i n hget' hiN with ⟨n0, hget0, _, _, hlvl0, _, _, _, hl9⟩
      rw [hl9] at hlt
      by_cases hGh : (gtSuffixOf s.nodes k c).head? = some i
      · rw [if_pos hGh] at hlt
        cases Option.some.inj hlt
        refine ⟨_, hnew, ?_⟩
        have hic : i ∈ c := hmemG i (List.mem_of_mem_head? (Option.mem_def.mpr hGh))
        rcases hchlvl i hic with ⟨ni, hni, hnil⟩
        rw [hget0] at hni
        cases Option.some.inj hni
        rw [hlvl0, hnil]
      · rw [if_neg hGh] at hlt
        rcases hc.leftT i n0 t hget0 hlt with ⟨m, hm, hml⟩
        rcases hpersist t m hm with ⟨m', hm', _, hml'⟩
        refine ⟨m', hm', ?_⟩
        rw [hml', hml, hlvl0]
  · -- downT
    intro i n t hget' hdt
    by_cases hiN : i = s.nodes.length
    · subst hiN
      rw [hnew] at hget'
      cases Option.some.inj hget'
      cases hdt
    · rcases hold i n hget' hiN with ⟨n0, hget0, hkey0, _, hlvl0, hdown0, _, _, _⟩
      rw [hdown0] at hdt
      rcases hc.downT i n0 t hget0 hdt with ⟨m, hm, hml, hmk⟩
      rcases hpersist t m hm with ⟨m', hm', hmk', hml'⟩
      refine ⟨m', hm', ?_, ?_⟩
      · rw [hml', hlvl0]
        exact hml
      · rw [hmk', hkey0]
        exact hmk
  · -- headT
    intro j2 lv2 h hlv2 hh
    by_cases hjj : j = j2
    · subst hjj
      rw [eff.levelsJ] at hlv2
      cases Option.some.inj hlv2
      have hh2 : (if lePrefixOf s.nodes k c = [] then some s.nodes.length
          else lv.head) = some h := hh
      by_cases hP : lePrefixOf s.nodes k c = []
      · rw [if_pos hP] at hh2
        cases Option.some.inj hh2
        exact ⟨_, hnew, rfl⟩
      · rw [if_neg hP] at hh2
        rcases hc.headT j lv h hlv hh2 with ⟨n0, hn0, hl0⟩
        rcases hpersist h n0 hn0 with ⟨n', hn', _, hl'⟩
        refine ⟨n', hn', ?_⟩
        rw [hl', hl0]
    · rw [eff.levelsOther j2 hjj] at hlv2
      rcases hc.headT j2 lv2 h hlv2 hh with ⟨n0, hn0, hl0⟩
      rcases hpersist h n0 hn0 with ⟨n', hn', _, hl'⟩
      refine ⟨n', hn', ?_⟩
      rw [hl', hl0]
  · -- lvlLt
    intro i n hget'
    rw [eff.levelsLen]
    by_cases hiN : i = s.nodes.length
    · subst hiN
      rw [hnew] at hget'
      cases Option.some.inj hget'
      exact hjlt
    · rcases hold i n hget' hiN with ⟨n0, hget0, _, _, hlvl0, _⟩
      rw [hlvl0]
      exact hc.lvlLt i n0 hget0
  · -- rank
    rcases hc.rank with ⟨r, hr⟩
    refine ⟨fun i => if i = s.nodes.length
        then (match (lePrefixOf s.nodes k c).getLast? with
          | some p => 2 * r p + 3
          | none => match (gtSuffixOf s.nodes k c).head? with
            | some g => 2 * r g + 1
            | none => 0)
        else 2 * r i + 2, ?_, ?_⟩
    · intro i n t hget' hrt
      dsimp only
      by_cases hiN : i = s.nodes.length
      · subst hiN
        rw [hnew] at hget'
        cases Option.some.inj hget'
        have hrt2 : (gtSuffixOf s.nodes k c).head? = some t := hrt
        have htc : t ∈ c := hmemG t (List.mem_of_mem_head? (Option.mem_def.mpr hrt2))
        have htv : t < s.nodes.length := hval t htc
        rw [if_pos rfl, if_neg (Nat.ne_of_lt htv)]
        cases hPl : (lePrefixOf s.nodes k c).getLast? with
        | some p =>
          rcases hpg p t hPl hrt2 with ⟨pn, hpn, hpr⟩
          have := hr.1 p pn t hpn hpr
          show 2 * r p + 3 < 2 * r t + 2
          omega
        | none =>
          rw [hrt2]
          show 2 * r t + 1 < 2 * r t + 2
          omega
      · rcases hold i n hget' hiN with ⟨n0, hget0, _, _, _, _, _, hr8, _⟩
        rw [hr8] at hrt
        rw [if_neg hiN]
        by_cases hPl : (lePrefixOf s.nodes k c).getLast? = some i
        · rw [if_pos hPl] at hrt
          cases Option.some.inj hrt
          rw [if_pos rfl, hPl]
          show 2 * r i + 2 < 2 * r i + 3
          omega
        · rw [if_neg hPl] at hrt
          have htv : t < s.nodes.length := by
            rcases hc.rightT i n0 t hget0 hrt with ⟨m, hm, _⟩
            exact (List.getElem?_eq_some.mp hm).1
          rw [if_neg (Nat.ne_of_lt htv)]
          have := hr.1 i n0 t hget0 hrt
          omega
    · intro i n t hget' hlt
      dsimp only
      by_cases hiN : i = s.nodes.length
      · subst hiN
        rw [hnew] at hget'
        cases Option.some.inj hget'
        have hlt2 : (lePrefixOf s.nodes k c).getLast? = some t := hlt
        have htc : t ∈ c := hmemP t (List.mem_of_mem_getLast? (Option.mem_def.mpr hlt2))
        have htv : t < s.nodes.length := hval t htc
        rw [if_pos rfl, if_neg (Nat.ne_of_lt htv), hlt2]
        show 2 * r t + 2 < 2 * r t + 3
        omega
      · rcases hold i n hget' hiN with ⟨n0, hget0, _, _, _, _, _, _, hl9⟩
        rw [hl9] at hlt
        rw [if_neg hiN]
        by_cases hGh : (gtSuffixOf s.nodes k c).head? = some i
        · rw [if_pos hGh] at hlt
          cases Option.some.inj hlt
          rw [if_pos rfl]
          cases hPl : (lePrefixOf s.nodes k c).getLast? with
          | some p =>
            rcases hpg p i hPl hGh with ⟨pn, hpn, hpr⟩
            have := hr.1 p pn i hpn hpr
            show 2 * r p + 3 < 2 * r i + 2
            omega
          | none =>
            rw [hGh]
            show 2 * r i + 1 < 2 * r i + 2
            omega
        · rw [if_neg hGh] at hlt
          have htv : t < s.nodes.length := by
            rcases hc.leftT i n0 t hget0 hlt with ⟨m, hm, _⟩
            exact (List.getElem?_eq_some.mp hm).1
          rw [if_neg (Nat.ne_of_lt htv)]
          have := hr.2 i n0 t hget0 hlt
          omega
  · -- weakened DownAll
    intro i n hget' hlvl hiN
    rcases hold i n hget' hiN with ⟨n0, hget0, _, _, hlvl0, hdown0, _⟩
    rw [hdown0]
    exact hd i n0 hget0 (by rw [← hlvl0]; exact hlvl)

/-! ### Safety transfer across the vertical-link writes -/

theorem safeCore_links_transfer {s s' : SL K V}
    (hlev : ∀ j : Nat, s'.levels[j]? = s.levels[j]?)
    (hlen : s'.levels.length = s.levels.length)
    (hfwd : ∀ (i : Nat) (n : NodeR K V), s.nodes[i]? = some n →
      ∃ n' : NodeR K V, s'.nodes[i]? = some n' ∧ n'.key = n.key ∧ n'.lvl = n.lvl ∧
        n'.right = n.right ∧ n'.left = n.left ∧ n'.down = n.down)
    (hbwd : ∀ (i : Nat) (n' : NodeR K V), s'.nodes[i]? = some n' →
      ∃ n : NodeR K V, s.nodes[i]? = some n)
    (hc : SafeCore s) : SafeCore s' := by
  have hchar : ∀ (i : Nat) (n' : NodeR K V), s'.nodes[i]? = some n' →
      ∃ n : NodeR K V, s.nodes[i]? = some n ∧ n'.key = n.key ∧ n'.lvl = n.lvl ∧
        n'.right = n.right ∧ n'.left = n.left ∧ n'.down = n.down := by
    intro i n' hget'
    rcases hbwd i n' hget' with ⟨n, hn⟩
    rcases hfwd i n hn with ⟨n2, hn2, h3⟩
    rw [hget'] at hn2
    cases Option.some.inj hn2
    exact ⟨n, hn, h3⟩
  refine ⟨?_, ?_, ?_, ?_, ?_, ?_, ?_⟩
  · intro h
    have h2 : s.levels.length = 0 := by rw [← hlen, h]; rfl
    exact hc.levelsNe (List.length_eq_zero.mp h2)
  · intro i n t hget' hrt
    rcases hchar i n hget' with ⟨n0, hn0, _, hlvl, hright, _, _⟩
    rcases hc.rightT i n0 t hn0 (by rw [← hright]; exact hrt) with ⟨m, hm, hml⟩
    rcases hfwd t m hm with ⟨m', hm', _, hml', _⟩
    exact ⟨m', hm', by rw [hml', hml, hlvl]⟩
  · intro i n t hget' hlt
    rcases hchar i n hget' with ⟨n0, hn0, _, hlvl, _, hleft, _⟩
    rcases hc.leftT i n0 t hn0 (by rw [← hleft]; exact hlt) with ⟨m, hm, hml⟩
    rcases hfwd t m hm with ⟨m', hm', _, hml', _⟩
    exact ⟨m', hm', by rw [hml', hml, hlvl]⟩
  · intro i n t hget' hdt
    rcases hchar i n hget' with ⟨n0, hn0, hkey, hlvl, _, _, hdown⟩
    rcases hc.downT i n0 t hn0 (by rw [← hdown]; exact hdt) with ⟨m, hm, hml, hmk⟩
    rcases hfwd t m hm with ⟨m', hm', hmk', hml', _⟩
    refine ⟨m', hm', ?_, ?_⟩
    · rw [hml', hlvl]
      exact hml
    · rw [hmk', hkey]
      exact hmk
  · intro j lv h hlv hh
    rw [hlev j] at hlv
    rcases hc.headT j lv h hlv hh with ⟨n, hn, hl⟩
    rcases hfwd h n hn with ⟨n', hn', _, hl', _⟩
    exact ⟨n', hn', by rw [hl', hl]⟩
  · intro i n hget'
    rcases hchar i n hget' with ⟨n0, hn0, _, hlvl, _⟩
    rw [hlen, hlvl]
    exact hc.lvlLt i n0 hn0
  · rcases hc.rank with ⟨r, hr⟩
    refine ⟨r, ?_, ?_⟩
    · intro i n t hget' hrt
      rcases hchar i n hget' with ⟨n0, hn0, _, _, hright, _, _⟩
      exact hr.1 i n0 t hn0 (by rw [← hright]; exact hrt)
    · intro i n t hget' hlt
      rcases hchar i n hget' with ⟨n0, hn0, _, _, _, hleft, _⟩
      exact hr.2 i n0 t hn0 (by rw [← hleft]; exact hlt)

theorem safeCore_setUp {s : SL K V} (hc : SafeCore s) (i : Nat) (r : Option Nat) :
    SafeCore (setUp s i r) := by
  refine safeCore_links_transfer ?_ ?_ ?_ ?_ hc
  · intro j
    rw [levels_setUp]
  · rw [levels_setUp]
  · intro i2 n hget
    rw [nodes_setUp]
    by_cases hii : i = i2
    · subst hii
      rw [if_pos rfl, hget]
      exact ⟨_, rfl, rfl, rfl, rfl, rfl, rfl⟩
    · rw [if_neg hii]
      exact ⟨n, hget, rfl, rfl, rfl, rfl, rfl⟩
  · intro i2 n' hget'
    rw [nodes_setUp] at hget'
    by_cases hii : i = i2
    · subst hii
      cases hg : s.nodes[i]? with
      | none => rw [if_pos rfl, hg] at hget'; cases hget'
      | some n => exact ⟨n, rfl⟩
    · rw [if_neg hii] at hget'
      exact ⟨_, hget'⟩

theorem down_setUp_char (s : SL K V) (i : Nat) (r : Option Nat) :
    ∀ (j : Nat) (n' : NodeR K V), (setUp s i r).nodes[j]? = some n' →
      ∃ n : NodeR K V, s.nodes[j]? = some n ∧ n'.down = n.down ∧ n'.lvl = n.lvl := by
  intro j n' hget'
  rw [nodes_setUp] at hget'
  by_cases hii : i = j
  · subst hii
    cases hg : s.nodes[i]? with
    | none => rw [if_pos rfl, hg] at hget'; cases hget'
    | some n =>
      rw [if_pos rfl, hg] at hget'
      cases Option.some.inj hget'
      exact ⟨n, rfl, rfl, rfl⟩
  · rw [if_neg hii] at hget'
    exact ⟨n', hget', rfl, rfl⟩

theorem nodes_setUp_fwd (s : SL K V) (i : Nat) (r : Option Nat) {j : Nat} {n : NodeR K V}
    (hget : s.nodes[j]? = some n) :
    ∃ n' : NodeR K V, (setUp s i r).nodes[j]? = some n' ∧ n'.key = n.key ∧
      n'.lvl = n.lvl ∧ n'.right = n.right ∧ n'.left = n.left ∧ n'.down = n.down := by
  rw [nodes_setUp]
  by_cases hii : i = j
  · subst hii
    rw [if_pos rfl, hget]
    exact ⟨_, rfl, rfl, rfl, rfl, rfl, rfl⟩
  · rw [if_neg hii]
    exact ⟨n, hget, rfl, rfl, rfl, rfl, rfl⟩

theorem nodes_setDown_fwd (s : SL K V) (i : Nat) (r : Option Nat) {j : Nat} {n : NodeR K V}
    (hget : s.nodes[j]? = some n) :
    ∃ n' : NodeR K V, (setDown s i r).nodes[j]? = some n' ∧ n'.key = n.key ∧
      n'.lvl = n.lvl ∧ n'.right = n.right ∧ n'.left = n.left := by
  rw [nodes_setDown]
  by_cases hii : i = j
  · subst hii
    rw [if_pos rfl, hget]
    exact ⟨_, rfl, rfl, rfl, rfl, rfl⟩
  · rw [if_neg hii]
    exact ⟨n, hget, rfl, rfl, rfl, rfl⟩

theorem safeCore_setDown {s : SL K V} (hc : SafeCore s) (i t : Nat)
    (htgt : ∀ n : NodeR K V, s.nodes[i]? = some n →
      ∃ m : NodeR K V, s.nodes[t]? = some m ∧ m.lvl + 1 = n.lvl ∧ m.key = n.key) :
    SafeCore (setDown s i (some t)) := by
  have hchar : ∀ (j : Nat) (n' : NodeR K V), (setDown s i (some t)).nodes[j]? = some n' →
      ∃ n : NodeR K V, s.nodes[j]? = some n ∧ n'.key = n.key ∧ n'.lvl = n.lvl ∧
        n'.right = n.right ∧ n'.left = n.left ∧
        n'.down = (if i = j then some t else n.down) := by
    intro j n' hget'
    rw [nodes_setDown] at hget'
    by_cases hii : i = j
    · subst hii
      cases hg : s.nodes[i]? with
      | none => rw [if_pos rfl, hg] at hget'; cases hget'
      | some n =>
        rw [if_pos rfl, hg] at hget'
        cases Option.some.inj hget'
        exact ⟨n, rfl, rfl, rfl, rfl, rfl, by rw [if_pos rfl]⟩
    · rw [if_neg hii] at hget'
      exact ⟨n', hget', rfl, rfl, rfl, rfl, by rw [if_neg hii]⟩
  have hfwd : ∀ (j : Nat) (n : NodeR K V), s.nodes[j]? = some n →
      ∃ n' : NodeR K V, (setDown s i (some t)).nodes[j]? = some n' ∧ n'.key = n.key ∧
        n'.lvl = n.lvl := by
    intro j n hget
    rcases nodes_setDown_fwd s i (some t) hget with ⟨n', hn', h1, h2, _⟩
    exact ⟨n', hn', h1, h2⟩
  refine ⟨?_, ?_, ?_, ?_, ?_, ?_, ?_⟩
  · intro h
    have h2 : s.levels.length = 0 := by rw [← levels_setDown s i (some t), h]; rfl
    exact hc.levelsNe (List.length_eq_zero.mp h2)
  · intro i2 n t2 hget' hrt
    rcases hchar i2 n hget' with ⟨n0, hn0, _, hlvl, hright, _, _⟩
    rcases hc.rightT i2 n0 t2 hn0 (by rw [← hright]; exact hrt) with ⟨m, hm, hml⟩
    rcases hfwd t2 m hm with ⟨m', hm', _, hml'⟩
    exact ⟨m', hm', by rw [hml', hml, hlvl]⟩
  · intro i2 n t2 hget' hlt
    rcases hchar i2 n hget' with ⟨n0, hn0, _, hlvl, _, hleft, _⟩
    rcases hc.leftT i2 n0 t2 hn0 (by rw [← hleft]; exact hlt) with ⟨m, hm, hml⟩
    rcases hfwd t2 m hm with ⟨m', hm', _, hml'⟩
    exact ⟨m', hm', by rw [hml', hml, hlvl]⟩
  · intro i2 n t2 hget' hdt
    rcases hchar i2 n hget' with ⟨n0, hn0, hkey, hlvl, _, _, hdown⟩
    rw [hdown] at hdt
    by_cases hii : i = i2
    · rw [if_pos hii] at hdt
      cases Option.some.inj hdt
      subst hii
      rcases htgt n0 hn0 with ⟨m, hm, hml, hmk⟩
      rcases hfwd t m hm with ⟨m', hm', hmk', hml'⟩
      refine ⟨m', hm', ?_, ?_⟩
      · rw [hml', hlvl]
        exact hml
      · rw [hmk', hkey]
        exact hmk
    · rw [if_neg hii] at hdt
      rcases hc.downT i2 n0 t2 hn0 hdt with ⟨m, hm, hml, hmk⟩
      rcases hfwd t2 m hm with ⟨m', hm', hmk', hml'⟩
      refine ⟨m', hm', ?_, ?_⟩
      · rw [hml', hlvl]
        exact hml
      · rw [hmk', hkey]
        exact hmk
  · intro j lv h hlv hh
    rw [show (setDown s i (some t)).levels = s.levels from levels_setDown s i (some t)]
      at hlv
    rcases hc.headT j lv h hlv hh with ⟨n, hn, hl⟩
    rcases hfwd h n hn with ⟨n', hn', _, hl'⟩
    exact ⟨n', hn', by rw [hl', hl]⟩
  · intro i2 n hget'
    rcases hchar i2 n hget' with ⟨n0, hn0, _, hlvl, _⟩
    rw [show (setDown s i (some t)).levels = s.levels from levels_setDown s i (some t)]
    rw [hlvl]
    exact hc.lvlLt i2 n0 hn0
  · rcases hc.rank with ⟨r, hr⟩
    refine ⟨r, ?_, ?_⟩
    · intro i2 n t2 hget' hrt
      rcases hchar i2 n hget' with ⟨n0, hn0, _, _, hright, _, _⟩
      exact hr.1 i2 n0 t2 hn0 (by rw [← hright]; exact hrt)
    · intro i2 n t2 hget' hlt
      rcases hchar i2 n hget' with ⟨n0, hn0, _, _, _, hleft, _⟩
      exact hr.2 i2 n0 t2 hn0 (by rw [← hleft]; exact hlt)

theorem downAll_except_transfer {s s' : SL K V} {N : Nat}
    (hchar : ∀ (j : Nat) (n' : NodeR K V), s'.nodes[j]? = some n' →
      ∃ n : NodeR K V, s.nodes[j]? = some n ∧ n'.down = n.down ∧ n'.lvl = n.lvl)
    (hd : ∀ (i : Nat) (n : NodeR K V), s.nodes[i]? = some n → 1 ≤ n.lvl → i ≠ N →
      n.down.isSome) :
    ∀ (i : Nat) (n : NodeR K V), s'.nodes[i]? = some n → 1 ≤ n.lvl → i ≠ N →
      n.down.isSome := by
  intro i n hget' h1 hiN
  rcases hchar i n hget' with ⟨n0, hn0, hdown, hlvl⟩
  rw [hdown]
  exact hd i n0 hn0 (by rw [← hlvl]; exact h1) hiN

theorem downAll_transfer {s s' : SL K V}
    (hchar : ∀ (j : Nat) (n' : NodeR K V), s'.nodes[j]? = some n' →
      ∃ n : NodeR K V, s.nodes[j]? = some n ∧ n'.down = n.down ∧ n'.lvl = n.lvl)
    (hd : DownAll s) : DownAll s' := by
  intro i n hget' h1
  rcases hchar i n hget' with ⟨n0, hn0, hdown, hlvl⟩
  rw [hdown]
  exact hd i n0 hn0 (by rw [← hlvl]; exact h1)

theorem downAll_setDown_new {s : SL K V} {N : Nat} (t : Nat)
    (hd : ∀ (i : Nat) (n : NodeR K V), s.nodes[i]? = some n → 1 ≤ n.lvl → i ≠ N →
      n.down.isSome) :
    DownAll (setDown s N (some t)) := by
  intro i n hget' h1
  rw [nodes_setDown] at hget'
  by_cases hii : N = i
  · subst hii
    cases hg : s.nodes[N]? with
    | none => rw [if_pos rfl, hg] at hget'; cases hget'
    | some n0 =>
      rw [if_pos rfl, hg] at hget'
      cases Option.some.inj hget'
      rfl
  · rw [if_neg hii] at hget'
    exact hd i n hget' h1 (fun h => hii h.symm)

theorem insEff_head_isSome {s : SL K V} {j : Nat} {lv : LevelR} {c : List Nat} {k : K}
    {v : V} {s' : SL K V} (hchain : IsChainFrom s.nodes lv.head c)
    (eff : InsEff s j lv c k v s') :
    ∃ lv' : LevelR, s'.levels[j]? = some lv' ∧ lv'.head.isSome := by
  refine ⟨_, eff.levelsJ, ?_⟩
  show (if lePrefixOf s.nodes k c = [] then some s.nodes.length else lv.head).isSome
  by_cases hP : lePrefixOf s.nodes k c = []
  · rw [if_pos hP]
    rfl
  · rw [if_neg hP]
    obtain ⟨p0, P2, hPc⟩ := List.exists_cons_of_ne_nil hP
    have hPG : lePrefixOf s.nodes k c ++ gtSuffixOf s.nodes k c = c :=
      List.takeWhile_append_dropWhile _ _
    have hch : c.head? = some p0 := by
      rw [← hPG, hPc]
      rfl
    cases hc0 : c with
    | nil =>
      rw [hc0] at hch
      cases hch
    | cons a ct =>
      rw [hc0] at hchain
      rw [isChainFrom_cons_head hchain]
      rfl

theorem safeInv_size {s : SL K V} (h : SafeInv s) (x : Nat) :
    SafeInv { s with size := x } :=
  ⟨⟨h.1.levelsNe, h.1.rightT, h.1.leftT, h.1.downT, h.1.headT, h.1.lvlLt, h.1.rank⟩, h.2⟩

theorem safeInv_slNew : SafeInv (slNew : SL K V) := by
  have hnil : ∀ (i : Nat) (n : NodeR K V), (slNew : SL K V).nodes[i]? = some n → False := by
    intro i n hget
    rw [List.getElem?_eq_none (Nat.zero_le i)] at hget
    cases hget
  refine ⟨⟨?_, ?_, ?_, ?_, ?_, ?_, ?_⟩, ?_⟩
  · intro h
    exact List.cons_ne_nil _ _ h
  · intro i n t hget _
    cases hnil i n hget
  · intro i n t hget _
    cases hnil i n hget
  · intro i n t hget _
    cases hnil i n hget
  · intro j lv h hlv hh
    cases j with
    | zero =>
      have h2 : lv = ({} : LevelR) := by
        have h3 : (slNew : SL K V).levels[0]? = some ({} : LevelR) := rfl
        rw [h3] at hlv
        exact (Option.some.inj hlv).symm
      rw [h2] at hh
      cases hh
    | succ j =>
      have h3 : (slNew : SL K V).levels[j + 1]? = none := rfl
      rw [h3] at hlv
      cases hlv
  · intro i n hget
    cases hnil i n hget
  · refine ⟨fun _ => 0, ?_, ?_⟩
    · intro i n t hget _
      cases hnil i n hget
    · intro i n t hget _
      cases hnil i n hget
  · intro i n hget _
    cases hnil i n hget

theorem safeCore_pushLevel {s : SL K V} (hc : SafeCore s) :
    SafeCore { s with levels := s.levels ++ [{}] } := by
  refine ⟨?_, hc.rightT, hc.leftT, hc.downT, ?_, ?_, hc.rank⟩
  · intro h
    have h2 : s.levels.length + 1 = 0 := by
      have h3 := congrArg List.length h
      simpa using h3
    omega
  · intro j lv h hlv hh
    show ∃ n : NodeR K V, s.nodes[h]? = some n ∧ n.lvl = j
    rcases lt_trichotomy j s.levels.length with hj | hj | hj
    · have h2 : ({ s with levels := s.levels ++ [{}] } : SL K V).levels[j]? =
          s.levels[j]? := by
        show (s.levels ++ [({} : LevelR)])[j]? = _
        rw [List.getElem?_append, if_pos hj]
      rw [h2] at hlv
      exact hc.headT j lv h hlv hh
    · have h2 : ({ s with levels := s.levels ++ [{}] } : SL K V).levels[j]? =
          some ({} : LevelR) := by
        show (s.levels ++ [{}])[j]? = _
        rw [hj, List.getElem?_concat_length]
      rw [h2] at hlv
      cases Option.some.inj hlv
      cases hh
    · have h2 : ({ s with levels := s.levels ++ [{}] } : SL K V).levels[j]? = none := by
        show (s.levels ++ [{}])[j]? = _
        rw [List.getElem?_eq_none]
        simpa using hj
      rw [h2] at hlv
      cases hlv
  · intro i n hget
    have h2 : ({ s with levels := s.levels ++ [{}] } : SL K V).levels.length =
        s.levels.length + 1 := by
      show (s.levels ++ [({} : LevelR)]).length = _
      simp
    rw [h2]
    exact Nat.lt_succ_of_lt (hc.lvlLt i n hget)

theorem addLevel_safe {s : SL K V} (hs : SafeInv s) {lvt : LevelR} {ph : Nat}
    (htop : s.levels[s.levels.length - 1]? = some lvt) (hph : lvt.head = some ph) :
    ∃ s4 : SL K V, addLevel s = .ok s4 ∧ SafeInv s4 ∧
      s4.levels.length = s.levels.length + 1 ∧
      (∀ (i : Nat) (n : NodeR K V), s.nodes[i]? = some n →
        ∃ n' : NodeR K V, s4.nodes[i]? = some n' ∧ n'.key = n.key ∧ n'.lvl = n.lvl) := by
  obtain ⟨hc, hd⟩ := hs
  have hgl : getLevel s (s.levels.length - 1) = .ok lvt := by
    unfold getLevel
    rw [htop]
  rcases hc.headT (s.levels.length - 1) lvt ph htop hph with ⟨phn, hphn, hphlvl⟩
  have hgn : getNode s ph = .ok phn := by
    unfold getNode
    rw [hphn]
  have hphv : ph < s.nodes.length := (List.getElem?_eq_some.mp hphn).1
  have hlen1 : 1 ≤ s.levels.length :=
    Nat.pos_of_ne_zero (fun h => hc.levelsNe (List.length_eq_zero.mp h))
  have hc1 : SafeCore ({ s with levels := s.levels ++ [{}] } : SL K V) :=
    safeCore_pushLevel hc
  have hd1 : DownAll ({ s with levels := s.levels ++ [{}] } : SL K V) := hd
  have hlv1 : ({ s with levels := s.levels ++ [{}] } : SL K V).levels[s.levels.length]? =
      some ({} : LevelR) := by
    show (s.levels ++ [{}])[s.levels.length]? = _
    rw [List.getElem?_concat_length]
  have hchain1 : IsChainFrom ({ s with levels := s.levels ++ [{}] } : SL K V).nodes
      (({} : LevelR).head) ([] : List Nat) := .nil
  obtain ⟨s', heq, eff⟩ := levelInsert_spec phn.key phn.value hlv1 hchain1
  obtain ⟨hc', hdex, hnewQ⟩ := insEff_safeCore hc1 hd1 hlv1 hchain1 eff
  have hnew : s'.nodes[s.nodes.length]? = some (NodeR.mk phn.key phn.value none none
      none none s.levels.length) := hnewQ
  rcases eff.oldNodes ph phn hphn with ⟨phn', hphn', hk', _, hl', _⟩
  have hc3 : SafeCore (setUp s' ph (some s.nodes.length)) := safeCore_setUp hc' ph _
  have hdex3 := downAll_except_transfer (down_setUp_char s' ph (some s.nodes.length)) hdex
  have hphN : ph ≠ s.nodes.length := Nat.ne_of_lt hphv
  have hnew3 : (setUp s' ph (some s.nodes.length)).nodes[s.nodes.length]? =
      some (NodeR.mk phn.key phn.value none none none none s.levels.length) := by
    rw [nodes_setUp, if_neg hphN]
    exact hnew
  have hph3 : ∃ m : NodeR K V, (setUp s' ph (some s.nodes.length)).nodes[ph]? = some m ∧
      m.key = phn.key ∧ m.lvl = s.levels.length - 1 := by
    rcases nodes_setUp_fwd s' ph (some s.nodes.length) hphn' with ⟨m, hm, hmk, hml, _⟩
    exact ⟨m, hm, by rw [hmk, hk'], by rw [hml, hl', hphlvl]⟩
  have hc4 : SafeCore (setDown (setUp s' ph (some s.nodes.length)) s.nodes.length
      (some ph)) := by
    refine safeCore_setDown hc3 s.nodes.length ph ?_
    intro n hn
    rw [hnew3] at hn
    cases Option.some.inj hn
    rcases hph3 with ⟨m, hm, hmk, hml⟩
    exact ⟨m, hm, by rw [hml]; show s.levels.length - 1 + 1 = s.levels.length; omega,
      by rw [hmk]⟩
  have hd4 : DownAll (setDown (setUp s' ph (some s.nodes.length)) s.nodes.length
      (some ph)) := downAll_setDown_new ph hdex3
  refine ⟨setDown (setUp s' ph (some s.nodes.length)) s.nodes.length (some ph), ?_,
    ⟨hc4, hd4⟩, ?_, ?_⟩
  · unfold addLevel
    dsimp only
    rw [hgl, pmBindOk]
    rw [hph]
    dsimp only
    rw [hgn, pmBindOk]
    rw [heq, pmBindOk]
    rfl
  · rw [show (setDown (setUp s' ph (some s.nodes.length)) s.nodes.length
        (some ph)).levels = (setUp s' ph (some s.nodes.length)).levels from
      levels_setDown _ _ _]
    rw [show (setUp s' ph (some s.nodes.length)).levels = s'.levels from levels_setUp _ _ _]
    rw [eff.levelsLen]
    show (s.levels ++ [({} : LevelR)]).length = _
    simp
  · intro i n hget
    rcases eff.oldNodes i n hget with ⟨n1, hn1, hk1, _, hl1, _⟩
    rcases nodes_setUp_fwd s' ph (some s.nodes.length) hn1 with ⟨n2, hn2, hk2, hl2, _⟩
    rcases nodes_setDown_fwd (setUp s' ph (some s.nodes.length)) s.nodes.length (some ph)
      hn2 with ⟨n3, hn3, hk3, hl3, _⟩
    exact ⟨n3, hn3, by rw [hk3, hk2, hk1], by rw [hl3, hl2, hl1]⟩

theorem headProp_safe (k : K) (v : V) : ∀ (fuel : Nat) (s : SL K V) (counter nh : Nat),
    SafeInv s → 1 ≤ counter → 1 ≤ fuel → s.levels.length < counter + fuel →
    (∃ n : NodeR K V, s.nodes[nh]? = some n ∧ n.key = k ∧ n.lvl = counter - 1) →
    ∃ s2, headProp s k v fuel counter nh = .ok s2 ∧ SafeInv s2 := by
  intro fuel
  induction fuel with
  | zero =>
    intro s counter nh _ _ h1 _ _
    exact absurd h1 (by omega)
  | succ fuel ih =>
    intro s counter nh hs hcnt _ hlt hnh
    by_cases hcl : counter < s.levels.length
    · obtain ⟨hc, hd⟩ := hs
      obtain ⟨lv, hlv⟩ : ∃ lv : LevelR, s.levels[counter]? = some lv :=
        ⟨_, List.getElem?_eq_getElem hcl⟩
      obtain ⟨c, hchain⟩ := chain_from_head hc hlv
      obtain ⟨s', heq, eff⟩ := levelInsert_spec k v hlv hchain
      obtain ⟨hc', hdex, hnew⟩ := insEff_safeCore hc hd hlv hchain eff
      rcases hnh with ⟨pn, hpn, hpk, hpl⟩
      have hnhN : nh ≠ s.nodes.length := Nat.ne_of_lt (List.getElem?_eq_some.mp hpn).1
      rcases eff.oldNodes nh pn hpn with ⟨pn1, hpn1, hpk1, _, hpl1, _⟩
      have hc2 : SafeCore (setDown s' s.nodes.length (some nh)) := by
        refine safeCore_setDown hc' s.nodes.length nh ?_
        intro n hn
        rw [hnew] at hn
        cases Option.some.inj hn
        refine ⟨pn1, hpn1, ?_, ?_⟩
        · rw [hpl1, hpl]
          show counter - 1 + 1 = counter
          omega
        · rw [hpk1, hpk]
      have hd2 : DownAll (setDown s' s.nodes.length (some nh)) :=
        downAll_setDown_new nh hdex
      have hc3 : SafeCore (setUp (setDown s' s.nodes.length (some nh)) nh
          (some s.nodes.length)) := safeCore_setUp hc2 nh _
      have hd3 : DownAll (setUp (setDown s' s.nodes.length (some nh)) nh
          (some s.nodes.length)) :=
        downAll_transfer (down_setUp_char _ nh (some s.nodes.length)) hd2
      have hlev3 : (setUp (setDown s' s.nodes.length (some nh)) nh
          (some s.nodes.length)).levels.length = s.levels.length := by
        rw [levels_setUp, levels_setDown, eff.levelsLen]
      rcases nodes_setDown_fwd s' s.nodes.length (some nh) hnew with ⟨n1, hn1, hk1, hl1, _⟩
      rcases nodes_setUp_fwd (setDown s' s.nodes.length (some nh)) nh
        (some s.nodes.length) hn1 with ⟨n2, hn2, hk2, hl2, _⟩
      obtain ⟨s2, hrec, hs2⟩ := ih (setUp (setDown s' s.nodes.length (some nh)) nh
          (some s.nodes.length)) (counter + 1) s.nodes.length ⟨hc3, hd3⟩ (by omega)
          (by omega) (by rw [hlev3]; omega)
          ⟨n2, hn2, by rw [hk2, hk1], by rw [hl2, hl1]; rfl⟩
      refine ⟨s2, ?_, hs2⟩
      show headProp s k v (fuel + 1) counter nh = .ok s2
      unfold headProp
      rw [if_pos hcl]
      rw [heq, pmBindOk]
      dsimp only
      exact hrec
    · refine ⟨s, ?_, hs⟩
      show headProp s k v (fuel + 1) counter nh = .ok s
      unfold headProp
      rw [if_neg hcl]
      rfl

theorem coinLoop_safe (k : K) (v : V) : ∀ (flips : List Bool) (s : SL K V)
    (prevId counter : Nat), SafeInv s → 1 ≤ counter → counter ≤ s.levels.length →
    (s.levels.length ≤ counter → ∃ lvt : LevelR,
      s.levels[s.levels.length - 1]? = some lvt ∧ lvt.head.isSome) →
    (∃ pn : NodeR K V, s.nodes[prevId]? = some pn ∧ pn.key = k ∧ pn.lvl = counter - 1) →
    ∃ s2, coinLoop s k v prevId counter flips = .ok s2 ∧ SafeInv s2 := by
  intro flips
  induction flips with
  | nil =>
    intro s prevId counter hs _ _ _ _
    exact ⟨s, rfl, hs⟩
  | cons f rest ih =>
    intro s prevId counter hs hcnt hcle htop hprev
    cases f with
    | false =>
      exact ⟨s, rfl, hs⟩
    | true =>
      have hstep : ∃ s1 : SL K V,
          (if s.levels.length ≤ counter then addLevel s else pure s) = .ok s1 ∧
          SafeInv s1 ∧ counter < s1.levels.length ∧
          (∀ (i : Nat) (n : NodeR K V), s.nodes[i]? = some n →
            ∃ n' : NodeR K V, s1.nodes[i]? = some n' ∧ n'.key = n.key ∧
              n'.lvl = n.lvl) := by
        by_cases hle : s.levels.length ≤ counter
        · rcases htop hle with ⟨lvt, hlvt, hhead⟩
          obtain ⟨ph, hph⟩ := Option.isSome_iff_exists.mp hhead
          obtain ⟨s1, haeq, hs1, hlen1, hold1⟩ := addLevel_safe hs hlvt hph
          exact ⟨s1, by rw [if_pos hle, haeq], hs1, by omega, hold1⟩
        · exact ⟨s, by rw [if_neg hle]; rfl, hs, by omega, fun i n h => ⟨n, h, rfl, rfl⟩⟩
      obtain ⟨s1, hs1eq, hs1, hclt1, hold1⟩ := hstep
      have hcomp : ∀ (jp : SL K V → PM (SL K V)),
          (if s.levels.length ≤ counter then addLevel s >>= fun y => jp y
            else pure s >>= fun y => jp y) = jp s1 := by
        intro jp
        by_cases hle : s.levels.length ≤ counter
        · rw [if_pos hle] at hs1eq ⊢
          rw [hs1eq, pmBindOk]
        · rw [if_neg hle] at hs1eq ⊢
          have h2 : s = s1 := Except.ok.inj hs1eq
          rw [← h2]
          rfl
      obtain ⟨lv0, hlv0⟩ : ∃ lv0 : LevelR, s1.levels[0]? = some lv0 :=
        ⟨_, List.getElem?_eq_getElem (by omega)⟩
      have hgl0 : getLevel s1 0 = .ok lv0 := by
        unfold getLevel
        rw [hlv0]
      rcases hprev with ⟨pn, hpn, hpk, hpl⟩
      rcases hold1 prevId pn hpn with ⟨pn1, hpn1, hpk1, hpl1⟩
      by_cases hsz : 1 < lv0.size
      · obtain ⟨lvc, hlvc⟩ : ∃ lvc : LevelR, s1.levels[counter]? = some lvc :=
          ⟨_, List.getElem?_eq_getElem hclt1⟩
        obtain ⟨c, hchain⟩ := chain_from_head hs1.1 hlvc
        obtain ⟨s', heq, eff⟩ := levelInsert_spec k v hlvc hchain
        obtain ⟨hc', hdex, hnew⟩ := insEff_safeCore hs1.1 hs1.2 hlvc hchain eff
        have hpN : prevId ≠ s1.nodes.length :=
          Nat.ne_of_lt (List.getElem?_eq_some.mp hpn1).1
        have hc3 : SafeCore (setUp s' prevId (some s1.nodes.length)) :=
          safeCore_setUp hc' _ _
        have hdex3 := downAll_except_transfer
          (down_setUp_char s' prevId (some s1.nodes.length)) hdex
        rcases eff.oldNodes prevId pn1 hpn1 with ⟨pn2, hpn2, hpk2, _, hpl2, _⟩
        rcases nodes_setUp_fwd s' prevId (some s1.nodes.length) hpn2
          with ⟨pn3, hpn3, hpk3, hpl3, _⟩
        have hnew3 : (setUp s' prevId (some s1.nodes.length)).nodes[s1.nodes.length]? =
            some (NodeR.mk k v ((gtSuffixOf s1.nodes k c).head?) none
              ((lePrefixOf s1.nodes k c).getLast?) none counter) := by
          rw [nodes_setUp, if_neg hpN]
          exact hnew
        have hc4 : SafeCore (setDown (setUp s' prevId (some s1.nodes.length))
            s1.nodes.length (some prevId)) := by
          refine safeCore_setDown hc3 _ prevId ?_
          intro n hn
          rw [hnew3] at hn
          cases Option.some.inj hn
          refine ⟨pn3, hpn3, ?_, ?_⟩
          · rw [hpl3, hpl2, hpl1, hpl]
            show counter - 1 + 1 = counter
            omega
          · rw [hpk3, hpk2, hpk1, hpk]
        have hd4 : DownAll (setDown (setUp s' prevId (some s1.nodes.length))
            s1.nodes.length (some prevId)) := downAll_setDown_new prevId hdex3
        have hlev4 : (setDown (setUp s' prevId (some s1.nodes.length))
            s1.nodes.length (some prevId)).levels.length = s1.levels.length := by
          rw [levels_setDown, levels_setUp, eff.levelsLen]
        rcases nodes_setDown_fwd (setUp s' prevId (some s1.nodes.length))
          s1.nodes.length (some prevId) hnew3 with ⟨n4, hn4, hk4, hl4, _⟩
        obtain ⟨s2, hrec, hs2⟩ := ih (setDown (setUp s' prevId (some s1.nodes.length))
            s1.nodes.length (some prevId)) s1.nodes.length (counter + 1) ⟨hc4, hd4⟩
            (by omega) (by rw [hlev4]; omega)
            (by
              intro h4le
              rw [hlev4] at h4le
              obtain ⟨lv', hlv', hh'⟩ := insEff_head_isSome hchain eff
              refine ⟨lv', ?_, hh'⟩
              rw [show (setDown (setUp s' prevId (some s1.nodes.length)) s1.nodes.length
                  (some prevId)).levels = s'.levels by rw [levels_setDown, levels_setUp]]
              rw [eff.levelsLen]
              rw [show s1.levels.length - 1 = counter from by omega]
              exact hlv')
            ⟨n4, hn4, by rw [hk4], by rw [hl4]; rfl⟩
        refine ⟨s2, ?_, hs2⟩
        show coinLoop s k v prevId counter (true :: rest) = .ok s2
        unfold coinLoop
        rw [if_pos rfl]
        dsimp only
        rw [hcomp]
        rw [hgl0, pmBindOk]
        rw [if_pos hsz]
        rw [heq, pmBindOk]
        dsimp only
        exact hrec
      · obtain ⟨s2, hrec, hs2⟩ := ih s1 prevId counter hs1 hcnt (by omega)
          (fun h => absurd h (by omega))
          ⟨pn1, hpn1, by rw [hpk1, hpk], by rw [hpl1, hpl]⟩
        refine ⟨s2, ?_, hs2⟩
        show coinLoop s k v prevId counter (true :: rest) = .ok s2
        unfold coinLoop
        rw [if_pos rfl]
        dsimp only
        rw [hcomp]
        rw [hgl0, pmBindOk]
        rw [if_neg hsz]
        exact hrec

theorem slInsert_safe {s : SL K V} (hs : SafeInv s) (k : K) (v : V) (flips : List Bool) :
    ∃ out : SL K V × Bool, slInsert s k v flips = .ok out ∧ SafeInv out.1 := by
  obtain ⟨hc, hd⟩ := hs
  have h0 : 0 < s.levels.length :=
    Nat.pos_of_ne_zero (fun h => hc.levelsNe (List.length_eq_zero.mp h))
  obtain ⟨lv0, hlv0⟩ : ∃ lv0 : LevelR, s.levels[0]? = some lv0 :=
    ⟨_, List.getElem?_eq_getElem h0⟩
  obtain ⟨c, hchain⟩ := chain_from_head hc hlv0
  obtain ⟨s', heq, eff⟩ := levelInsert_spec k v hlv0 hchain
  obtain ⟨hc', hdex, hnew⟩ := insEff_safeCore hc hd hlv0 hchain eff
  have hd' : DownAll s' := by
    intro i n hget h1
    by_cases hiN : i = s.nodes.length
    · subst hiN
      rw [hnew] at hget
      cases Option.some.inj hget
      simp at h1
    · exact hdex i n hget h1 hiN
  obtain ⟨lv', hlv', hh'⟩ := insEff_head_isSome hchain eff
  obtain ⟨h, hh⟩ := Option.isSome_iff_exists.mp hh'
  have hgl' : getLevel s' 0 = .ok lv' := by
    unfold getLevel
    rw [hlv']
  rcases hc'.headT 0 lv' h hlv' hh with ⟨hn, hhn, hhl⟩
  have hgn : getNode s' h = .ok hn := by
    unfold getNode
    rw [hhn]
  have hlen' : s'.levels.length = s.levels.length := eff.levelsLen
  by_cases hk : hn.key = k
  · obtain ⟨s2, hhp, hs2⟩ := headProp_safe k v (s'.levels.length + 1) s' 1 h ⟨hc', hd'⟩
      le_rfl (by omega) (by omega) ⟨hn, hhn, hk, by rw [hhl]⟩
    refine ⟨({ s2 with size := s2.size + 1 }, true), ?_, ?_⟩
    · unfold slInsert
      rw [heq, pmBindOk]
      dsimp only
      rw [hgl', pmBindOk]
      rw [hh]
      dsimp only
      rw [hgn, pmBindOk]
      rw [if_pos hk]
      rw [hhp, pmBindOk]
      rfl
    · exact safeInv_size hs2 _
  · obtain ⟨s2, hcl, hs2⟩ := coinLoop_safe k v flips s' s.nodes.length 1 ⟨hc', hd'⟩
      le_rfl (by omega)
      (by
        intro h1le
        refine ⟨lv', ?_, hh'⟩
        rw [show s'.levels.length - 1 = 0 from by omega]
        exact hlv')
      ⟨_, hnew, rfl, rfl⟩
    refine ⟨({ s2 with size := s2.size + 1 }, false), ?_, ?_⟩
    · unfold slInsert
      rw [heq, pmBindOk]
      dsimp only
      rw [hgl', pmBindOk]
      rw [hh]
      dsimp only
      rw [hgn, pmBindOk]
      rw [if_neg hk]
      rw [hcl, pmBindOk]
      rfl
    · exact safeInv_size hs2 _

/-! ### Safety of `Level::delete` -/

theorem safeInv_of_relink {s s' : SL K V} (hs : SafeInv s) {d p : Nat}
    {dn pn : NodeR K V} (hdn : s.nodes[d]? = some dn) (hpn : s.nodes[p]? = some pn)
    (hlp : dn.left = some p)
    (hlen : s'.levels.length = s.levels.length)
    (hlev : ∀ (j2 : Nat) (lv2 : LevelR), s'.levels[j2]? = some lv2 →
      ∃ lv0 : LevelR, s.levels[j2]? = some lv0 ∧ lv2.head = lv0.head)
    (hnodes : ∀ i0 : Nat, s'.nodes[i0]? = (s.nodes[i0]?).map (fun n =>
      { n with right := if i0 = d then none else if i0 = p then dn.right else n.right,
               left := if dn.right = some i0 then some p else n.left })) :
    SafeInv s' := by
  obtain ⟨hc, hd⟩ := hs
  have hplvl : pn.lvl = dn.lvl := by
    rcases hc.leftT d dn p hdn hlp with ⟨pn2, hpn2, h2⟩
    rw [hpn] at hpn2
    cases Option.some.inj hpn2
    exact h2
  have hchar : ∀ (i0 : Nat) (n' : NodeR K V), s'.nodes[i0]? = some n' →
      ∃ n : NodeR K V, s.nodes[i0]? = some n ∧ n'.key = n.key ∧ n'.lvl = n.lvl ∧
        n'.down = n.down ∧
        n'.right = (if i0 = d then none else if i0 = p then dn.right else n.right) ∧
        n'.left = (if dn.right = some i0 then some p else n.left) := by
    intro i0 n' hget'
    rw [hnodes i0] at hget'
    cases hsn : s.nodes[i0]? with
    | none => rw [hsn] at hget'; cases hget'
    | some n =>
      rw [hsn] at hget'
      cases Option.some.inj hget'
      exact ⟨n, rfl, rfl, rfl, rfl, rfl, rfl⟩
  have hfwd : ∀ (i0 : Nat) (n : NodeR K V), s.nodes[i0]? = some n →
      ∃ n' : NodeR K V, s'.nodes[i0]? = some n' ∧ n'.key = n.key ∧ n'.lvl = n.lvl := by
    intro i0 n hget
    rw [hnodes i0, hget]
    exact ⟨_, rfl, rfl, rfl⟩
  rcases hc.rank with ⟨r, hr⟩
  have hrpd : r p < r d := hr.2 d dn p hdn hlp
  have hdrn : ∀ t, dn.right = some t → r d < r t := fun t ht => hr.1 d dn t hdn ht
  refine ⟨⟨?_, ?_, ?_, ?_, ?_, ?_, ?_⟩, ?_⟩
  · intro h
    have h2 : s.levels.length = 0 := by rw [← hlen, h]; rfl
    exact hc.levelsNe (List.length_eq_zero.mp h2)
  · intro i n t hget' hrt
    rcases hchar i n hget' with ⟨n0, hn0, _, hlvl, _, hright, _⟩
    rw [hright] at hrt
    by_cases h1 : i = d
    · rw [if_pos h1] at hrt
      cases hrt
    · rw [if_neg h1] at hrt
      by_cases h2 : i = p
      · rw [if_pos h2] at hrt
        rcases hc.rightT d dn t hdn hrt with ⟨m, hm, hml⟩
        rcases hfwd t m hm with ⟨m', hm', _, hml'⟩
        refine ⟨m', hm', ?_⟩
        subst h2
        rw [hpn] at hn0
        cases Option.some.inj hn0
        rw [hml', hml, hlvl, hplvl]
      · rw [if_neg h2] at hrt
        rcases hc.rightT i n0 t hn0 hrt with ⟨m, hm, hml⟩
        rcases hfwd t m hm with ⟨m', hm', _, hml'⟩
        exact ⟨m', hm', by rw [hml', hml, hlvl]⟩
  · intro i n t hget' hlt
    rcases hchar i n hget' with ⟨n0, hn0, _, hlvl, _, _, hleft⟩
    rw [hleft] at hlt
    by_cases h1 : dn.right = some i
    · rw [if_pos h1] at hlt
      cases Option.some.inj hlt
      rcases hfwd p pn hpn with ⟨pn', hpn', _, hpl'⟩
      refine ⟨pn', hpn', ?_⟩
      rcases hc.rightT d dn i hdn h1 with ⟨m, hm, hml⟩
      rw [hn0] at hm
      cases Option.some.inj hm
      rw [hpl', hplvl, hlvl]
      exact hml.symm
    · rw [if_neg h1] at hlt
      rcases hc.leftT i n0 t hn0 hlt with ⟨m, hm, hml⟩
      rcases hfwd t m hm with ⟨m', hm', _, hml'⟩
      exact ⟨m', hm', by rw [hml', hml, hlvl]⟩
  · intro i n t hget' hdt
    rcases hchar i n hget' with ⟨n0, hn0, hkey, hlvl, hdown, _, _⟩
    rw [hdown] at hdt
    rcases hc.downT i n0 t hn0 hdt with ⟨m, hm, hml, hmk⟩
    rcases hfwd t m hm with ⟨m', hm', hmk', hml'⟩
    refine ⟨m', hm', ?_, ?_⟩
    · rw [hml', hlvl]
      exact hml
    · rw [hmk', hkey]
      exact hmk
  · intro j2 lv2 h hlv2 hh
    rcases hlev j2 lv2 hlv2 with ⟨lv0, hlv0, hhead⟩
    rw [hhead] at hh
    rcases hc.headT j2 lv0 h hlv0 hh with ⟨n, hn, hl⟩
    rcases hfwd h n hn with ⟨n', hn', _, hl'⟩
    exact ⟨n', hn', by rw [hl', hl]⟩
  · intro i n hget'
    rcases hchar i n hget' with ⟨n0, hn0, _, hlvl, _⟩
    rw [hlen, hlvl]
    exact hc.lvlLt i n0 hn0
  · refine ⟨r, ?_, ?_⟩
    · intro i n t hget' hrt
      rcases hchar i n hget' with ⟨n0, hn0, _, _, _, hright, _⟩
      rw [hright] at hrt
      by_cases h1 : i = d
      · rw [if_pos h1] at hrt
        cases hrt
      · rw [if_neg h1] at hrt
        by_cases h2 : i = p
        · rw [if_pos h2] at hrt
          subst h2
          exact lt_trans hrpd (hdrn t hrt)
        · rw [if_neg h2] at hrt
          exact hr.1 i n0 t hn0 hrt
    · intro i n t hget' hlt
      rcases hchar i n hget' with ⟨n0, hn0, _, _, _, _, hleft⟩
      rw [hleft] at hlt
      by_cases h1 : dn.right = some i
      · rw [if_pos h1] at hlt
        cases Option.some.inj hlt
        exact lt_trans hrpd (hdrn i h1)
      · rw [if_neg h1] at hlt
        exact hr.2 i n0 t hn0 hlt
  · intro i n hget' h1
    rcases hchar i n hget' with ⟨n0, hn0, _, hlvl, hdown, _, _⟩
    rw [hdown]
    exact hd i n0 hn0 (by rw [← hlvl]; exact h1)

theorem safeInv_of_unlink {s s' : SL K V} (hs : SafeInv s) {j d : Nat}
    {dn : NodeR K V} (hdn : s.nodes[d]? = some dn) (hdlvl : dn.lvl = j)
    (hlen : s'.levels.length = s.levels.length)
    (hlev : ∀ (j2 : Nat) (lv2 : LevelR), s'.levels[j2]? = some lv2 →
      ∃ lv0 : LevelR, s.levels[j2]? = some lv0 ∧ (lv2.head = lv0.head ∨
        (j2 = j ∧ lv2.head = dn.right)))
    (hnodes : ∀ i0 : Nat, s'.nodes[i0]? = (s.nodes[i0]?).map (fun n =>
      { n with right := if i0 = d then none else n.right,
               left := if i0 = d then none else n.left })) :
    SafeInv s' := by
  obtain ⟨hc, hd⟩ := hs
  have hchar : ∀ (i0 : Nat) (n' : NodeR K V), s'.nodes[i0]? = some n' →
      ∃ n : NodeR K V, s.nodes[i0]? = some n ∧ n'.key = n.key ∧ n'.lvl = n.lvl ∧
        n'.down = n.down ∧
        n'.right = (if i0 = d then none else n.right) ∧
        n'.left = (if i0 = d then none else n.left) := by
    intro i0 n' hget'
    rw [hnodes i0] at hget'
    cases hsn : s.nodes[i0]? with
    | none => rw [hsn] at hget'; cases hget'
    | some n =>
      rw [hsn] at hget'
      cases Option.some.inj hget'
      exact ⟨n, rfl, rfl, rfl, rfl, rfl, rfl⟩
  have hfwd : ∀ (i0 : Nat) (n : NodeR K V), s.nodes[i0]? = some n →
      ∃ n' : NodeR K V, s'.nodes[i0]? = some n' ∧ n'.key = n.key ∧ n'.lvl = n.lvl := by
    intro i0 n hget
    rw [hnodes i0, hget]
    exact ⟨_, rfl, rfl, rfl⟩
  refine ⟨⟨?_, ?_, ?_, ?_, ?_, ?_, ?_⟩, ?_⟩
  · intro h
    have h2 : s.levels.length = 0 := by rw [← hlen, h]; rfl
    exact hc.levelsNe (List.length_eq_zero.mp h2)
  · intro i n t hget' hrt
    rcases hchar i n hget' with ⟨n0, hn0, _, hlvl, _, hright, _⟩
    rw [hright] at hrt
    by_cases h1 : i = d
    · rw [if_pos h1] at hrt
      cases hrt
    · rw [if_neg h1] at hrt
      rcases hc.rightT i n0 t hn0 hrt with ⟨m, hm, hml⟩
      rcases hfwd t m hm with ⟨m', hm', _, hml'⟩
      exact ⟨m', hm', by rw [hml', hml, hlvl]⟩
  · intro i n t hget' hlt
    rcases hchar i n hget' with ⟨n0, hn0, _, hlvl, _, _, hleft⟩
    rw [hleft] at hlt
    by_cases h1 : i = d
    · rw [if_pos h1] at hlt
      cases hlt
    · rw [if_neg h1] at hlt
      rcases hc.leftT i n0 t hn0 hlt with ⟨m, hm, hml⟩
      rcases hfwd t m hm with ⟨m', hm', _, hml'⟩
      exact ⟨m', hm', by rw [hml', hml, hlvl]⟩
  · intro i n t hget' hdt
    rcases hchar i n hget' with ⟨n0, hn0, hkey, hlvl, hdown, _, _⟩
    rw [hdown] at hdt
    rcases hc.downT i n0 t hn0 hdt with ⟨m, hm, hml, hmk⟩
    rcases hfwd t m hm with ⟨m', hm', hmk', hml'⟩
    refine ⟨m', hm', ?_, ?_⟩
    · rw [hml', hlvl]
      exact hml
    · rw [hmk', hkey]
      exact hmk
  · intro j2 lv2 h hlv2 hh
    rcases hlev j2 lv2 hlv2 with ⟨lv0, hlv0, hhead | ⟨hjj, hhead⟩⟩
    · rw [hhead] at hh
      rcases hc.headT j2 lv0 h hlv0 hh with ⟨n, hn, hl⟩
      rcases hfwd h n hn with ⟨n', hn', _, hl'⟩
      exact ⟨n', hn', by rw [hl', hl]⟩
    · rw [hhead] at hh
      rcases hc.rightT d dn h hdn hh with ⟨m, hm, hml⟩
      rcases hfwd h m hm with ⟨m', hm', _, hml'⟩
      refine ⟨m', hm', ?_⟩
      rw [hml', hml, hdlvl, hjj]
  · intro i n hget'
    rcases hchar i n hget' with ⟨n0, hn0, _, hlvl, _⟩
    rw [hlen, hlvl]
    exact hc.lvlLt i n0 hn0
  · rcases hc.rank with ⟨r, hr⟩
    refine ⟨r, ?_, ?_⟩
    · intro i n t hget' hrt
      rcases hchar i n hget' with ⟨n0, hn0, _, _, _, hright, _⟩
      rw [hright] at hrt
      by_cases h1 : i = d
      · rw [if_pos h1] at hrt
        cases hrt
      · rw [if_neg h1] at hrt
        exact hr.1 i n0 t hn0 hrt
    · intro i n t hget' hlt
      rcases hchar i n hget' with ⟨n0, hn0, _, _, _, _, hleft⟩
      rw [hleft] at hlt
      by_cases h1 : i = d
      · rw [if_pos h1] at hlt
        cases hlt
      · rw [if_neg h1] at hlt
        exact hr.2 i n0 t hn0 hlt
  · intro i n hget' h1
    rcases hchar i n hget' with ⟨n0, hn0, _, hlvl, hdown, _, _⟩
    rw [hdown]
    exact hd i n0 hn0 (by rw [← hlvl]; exact h1)

theorem levelDelete_safe {s : SL K V} (hs : SafeInv s) (j : Nat) (k : K)
    (hj : j < s.levels.length) :
    levelDelete s j k = .error .underflow ∨
    ∃ s', levelDelete s j k = .ok s' ∧ SafeInv s' ∧
      s'.levels.length = s.levels.length := by
  obtain ⟨hc, hd⟩ := hs
  obtain ⟨lv, hlv⟩ : ∃ lv : LevelR, s.levels[j]? = some lv :=
    ⟨_, List.getElem?_eq_getElem hj⟩
  have hgl : getLevel s j = .ok lv := by
    unfold getLevel
    rw [hlv]
  obtain ⟨c, hchain⟩ := chain_from_head hc hlv
  have hfuel : c.length < fuelOf s := Nat.lt_succ_of_le (isChainFrom_length_le hchain)
  have hfind := findEq_spec (k := k) hchain hfuel
  have hchl : ∀ i ∈ c, ∃ n : NodeR K V, s.nodes[i]? = some n ∧ n.lvl = j := by
    refine chain_lvl hc hchain ?_
    intro t ht
    exact hc.headT j lv t hlv ht
  cases hfq : c.find? (fun i => match s.nodes[i]? with
      | some n => decide (n.key = k)
      | none => false) with
  | none =>
    rw [hfq] at hfind
    refine .inr ⟨s, ?_, ⟨hc, hd⟩, rfl⟩
    unfold levelDelete
    rw [hgl, pmBindOk, hfind, pmBindOk]
    rfl
  | some d =>
    rw [hfq] at hfind
    have hdc : d ∈ c := List.mem_of_find?_eq_some hfq
    obtain ⟨dn, hdn, hdlvl⟩ := hchl d hdc
    have hgn : getNode s d = .ok dn := by
      unfold getNode
      rw [hdn]
    rcases hc.rank with ⟨r, hr⟩
    cases hupg : upgradeW s dn.left with
    | some p =>
      obtain ⟨hlp, halive⟩ := upgradeW_some_inv hupg
      rcases hc.leftT d dn p hdn hlp with ⟨pn, hpn, hplvl⟩
      have hrpd : r p < r d := hr.2 d dn p hdn hlp
      have hpd : ¬ p = d := fun h => by rw [h] at hrpd; exact lt_irrefl _ hrpd
      have hdp : ¬ d = p := fun h => hpd h.symm
      cases hdr : dn.right with
      | none =>
        have hnodes : ∀ i0 : Nat,
            (setRight (setRight s p none) d none).nodes[i0]? =
            (s.nodes[i0]?).map (fun n =>
              { n with
                right := (if i0 = d then none else if i0 = p then dn.right else n.right),
                left := (if dn.right = some i0 then some p else n.left) }) := by
          intro i0
          rw [hdr, nodes_setRight, nodes_setRight]
          by_cases h1 : i0 = d
          · subst h1
            cases s.nodes[i0]? <;> simp [hpd]
          · by_cases h2 : i0 = p
            · subst h2
              cases s.nodes[i0]? <;>
                simp [h1, show ¬ d = i0 from fun h => h1 h.symm]
            · cases s.nodes[i0]? <;>
                simp [h1, h2, show ¬ d = i0 from fun h => h1 h.symm,
                  show ¬ p = i0 from fun h => h2 h.symm]
        by_cases hsz : lv.size = 0
        · refine .inl ?_
          unfold levelDelete
          rw [hgl, pmBindOk, hfind, pmBindOk]
          dsimp only
          rw [hgn, pmBindOk, hupg]
          dsimp only
          rw [if_neg hpd, hdr]
          dsimp only
          rw [if_pos hsz]
        · refine .inr ⟨setLevel (setRight (setRight s p none) d none) j
            (fun l => { l with size := l.size - 1 }), ?_, ?_, ?_⟩
          · unfold levelDelete
            rw [hgl, pmBindOk, hfind, pmBindOk]
            dsimp only
            rw [hgn, pmBindOk, hupg]
            dsimp only
            rw [if_neg hpd, hdr]
            dsimp only
            rw [if_neg hsz]
            rfl
          · refine safeInv_of_relink ⟨hc, hd⟩ hdn hpn hlp ?_ ?_ ?_
            · rw [levels_length_setLevel, levels_setRight, levels_setRight]
            · intro j2 lv2 hlv2
              rw [levels_setLevel, levels_setRight, levels_setRight] at hlv2
              by_cases hjj : j = j2
              · subst hjj
                rw [if_pos rfl, hlv] at hlv2
                cases Option.some.inj hlv2
                exact ⟨lv, hlv, rfl⟩
              · rw [if_neg hjj] at hlv2
                exact ⟨lv2, hlv2, rfl⟩
            · intro i0
              rw [nodes_setLevel]
              exact hnodes i0
          · rw [levels_length_setLevel, levels_setRight, levels_setRight]
      | some nxt =>
        rcases hc.rightT d dn nxt hdn hdr with ⟨nxn, hnxn, hnxlvl⟩
        have hrdn : r d < r nxt := hr.1 d dn nxt hdn hdr
        have hnd : ¬ nxt = d := fun h => by rw [h] at hrdn; exact lt_irrefl _ hrdn
        have hnp : ¬ nxt = p := fun h => by
          rw [h] at hrdn
          exact lt_irrefl _ (lt_trans hrpd hrdn)
        have hnodes : ∀ i0 : Nat,
            (setRight (setRight (setLeft s nxt (some p)) p (some nxt)) d
              none).nodes[i0]? =
            (s.nodes[i0]?).map (fun n =>
              { n with
                right := (if i0 = d then none else if i0 = p then dn.right else n.right),
                left := (if dn.right = some i0 then some p else n.left) }) := by
          intro i0
          rw [hdr, nodes_setRight, nodes_setRight, nodes_setLeft]
          by_cases h1 : i0 = d
          · subst h1
            cases s.nodes[i0]? <;> simp [hpd, hnd]
          · by_cases h2 : i0 = p
            · subst h2
              cases s.nodes[i0]? <;>
                simp [h1, hnp, show ¬ d = i0 from fun h => h1 h.symm]
            · by_cases h3 : i0 = nxt
              · subst h3
                cases s.nodes[i0]? <;>
                  simp [h1, h2, show ¬ d = i0 from fun h => h1 h.symm,
                    show ¬ p = i0 from fun h => h2 h.symm]
              · cases s.nodes[i0]? <;>
                  simp [h1, h2, show ¬ d = i0 from fun h => h1 h.symm,
                    show ¬ p = i0 from fun h => h2 h.symm,
                    show ¬ nxt = i0 from fun h => h3 h.symm]
        by_cases hsz : lv.size = 0
        · refine .inl ?_
          unfold levelDelete
          rw [hgl, pmBindOk, hfind, pmBindOk]
          dsimp only
          rw [hgn, pmBindOk, hupg]
          dsimp only
          rw [if_neg hpd, hdr]
          dsimp only
          rw [if_pos hsz]
        · refine .inr ⟨setLevel (setRight (setRight (setLeft s nxt (some p)) p
            (some nxt)) d none) j (fun l => { l with size := l.size - 1 }), ?_, ?_, ?_⟩
          · unfold levelDelete
            rw [hgl, pmBindOk, hfind, pmBindOk]
            dsimp only
            rw [hgn, pmBindOk, hupg]
            dsimp only
            rw [if_neg hpd, hdr]
            dsimp only
            rw [if_neg hsz]
            rfl
          · refine safeInv_of_relink ⟨hc, hd⟩ hdn hpn hlp ?_ ?_ ?_
            · rw [levels_length_setLevel, levels_setRight, levels_setRight,
                levels_setLeft]
            · intro j2 lv2 hlv2
              rw [levels_setLevel, levels_setRight, levels_setRight, levels_setLeft]
                at hlv2
              by_cases hjj : j = j2
              · subst hjj
                rw [if_pos rfl, hlv] at hlv2
                cases Option.some.inj hlv2
                exact ⟨lv, hlv, rfl⟩
              · rw [if_neg hjj] at hlv2
                exact ⟨lv2, hlv2, rfl⟩
            · intro i0
              rw [nodes_setLevel]
              exact hnodes i0
          · rw [levels_length_setLevel, levels_setRight, levels_setRight,
              levels_setLeft]
    | none =>
      have hnodes : ∀ i0 : Nat,
          (setLeft (setRight (setLevel s j (fun l => { l with head := dn.right }))
            d none) d none).nodes[i0]? =
          (s.nodes[i0]?).map (fun n =>
            { n with
              right := (if i0 = d then none else n.right),
              left := (if i0 = d then none else n.left) }) := by
        intro i0
        rw [nodes_setLeft, nodes_setRight, nodes_setLevel]
        by_cases h1 : i0 = d
        · subst h1
          cases s.nodes[i0]? <;> simp
        · cases s.nodes[i0]? <;>
            simp [h1, show ¬ d = i0 from fun h => h1 h.symm]
      by_cases hsz : lv.size = 0
      · refine .inl ?_
        unfold levelDelete
        rw [hgl, pmBindOk, hfind, pmBindOk]
        dsimp only
        rw [hgn, pmBindOk, hupg]
        dsimp only
        rw [if_pos hsz]
      · refine .inr ⟨setLevel (setLeft (setRight (setLevel s j
          (fun l => { l with head := dn.right })) d none) d none) j
          (fun l => { l with size := l.size - 1 }), ?_, ?_, ?_⟩
        · unfold levelDelete
          rw [hgl, pmBindOk, hfind, pmBindOk]
          dsimp only
          rw [hgn, pmBindOk, hupg]
          dsimp only
          rw [if_neg hsz]
          rfl
        · refine safeInv_of_unlink ⟨hc, hd⟩ hdn hdlvl ?_ ?_ ?_
          · rw [levels_length_setLevel, levels_setLeft, levels_setRight,
              levels_length_setLevel]
          · intro j2 lv2 hlv2
            rw [levels_setLevel, levels_setLeft, levels_setRight, levels_setLevel]
              at hlv2
            by_cases hjj : j = j2
            · subst hjj
              rw [if_pos rfl, if_pos rfl, hlv] at hlv2
              cases Option.some.inj hlv2
              exact ⟨lv, hlv, .inr ⟨rfl, rfl⟩⟩
            · rw [if_neg hjj, if_neg hjj] at hlv2
              exact ⟨lv2, hlv2, .inl rfl⟩
          · intro i0
            rw [nodes_setLevel]
            exact hnodes i0
        · rw [levels_length_setLevel, levels_setLeft, levels_setRight,
            levels_length_setLevel]

theorem delLoop_safe (k : K) : ∀ (fuel i : Nat) (s : SL K V), SafeInv s →
    i + fuel ≤ s.levels.length →
    (delLoop k i fuel s = .error .underflow ∨
      ∃ s', delLoop k i fuel s = .ok s' ∧ SafeInv s' ∧
        s'.levels.length = s.levels.length) := by
  intro fuel
  induction fuel with
  | zero =>
    intro i s hs _
    exact .inr ⟨s, rfl, hs, rfl⟩
  | succ fuel ih =>
    intro i s hs hle
    rcases levelDelete_safe hs i k (by omega) with h1 | ⟨s1, h1, hs1, hlen1⟩
    · refine .inl ?_
      show delLoop k i (fuel + 1) s = .error .underflow
      unfold delLoop
      rw [h1]
      rfl
    · rcases ih (i + 1) s1 hs1 (by omega) with h2 | ⟨s2, h2, hs2, hlen2⟩
      · refine .inl ?_
        show delLoop k i (fuel + 1) s = .error .underflow
        unfold delLoop
        rw [h1, pmBindOk, h2]
      · refine .inr ⟨s2, ?_, hs2, by rw [hlen2, hlen1]⟩
        show delLoop k i (fuel + 1) s = .ok s2
        unfold delLoop
        rw [h1, pmBindOk, h2]

theorem slDelete_safe {s : SL K V} (hs : SafeInv s) (k : K) :
    slDelete s k = .error .underflow ∨
    ∃ s', slDelete s k = .ok s' ∧ SafeInv s' := by
  rcases delLoop_safe k s.levels.length 0 s hs (by omega) with h1 | ⟨s1, h1, hs1, hlen1⟩
  · refine .inl ?_
    unfold slDelete
    rw [h1]
    rfl
  · obtain ⟨lv0, hlv0⟩ : ∃ lv0 : LevelR, s1.levels[0]? = some lv0 :=
      ⟨_, List.getElem?_eq_getElem (Nat.pos_of_ne_zero
        (fun h => hs1.1.levelsNe (List.length_eq_zero.mp h)))⟩
    have hgl0 : getLevel s1 0 = .ok lv0 := by
      unfold getLevel
      rw [hlv0]
    refine .inr ⟨{ s1 with size := lv0.size }, ?_, safeInv_size hs1 _⟩
    unfold slDelete
    rw [h1, pmBindOk, hgl0, pmBindOk]
    rfl

/-! ### Safety of the read operations -/

theorem levelBisect_safe {s : SL K V} (hs : SafeInv s) (j : Nat) (k : K)
    (hj : j < s.levels.length) :
    ∃ res, levelBisect s j k = .ok res ∧
      (∀ f, res = some f → ∃ n : NodeR K V, s.nodes[f]? = some n ∧ n.lvl = j) := by
  obtain ⟨hc, hd⟩ := hs
  obtain ⟨lv, hlv⟩ : ∃ lv : LevelR, s.levels[j]? = some lv :=
    ⟨_, List.getElem?_eq_getElem hj⟩
  have hgl : getLevel s j = .ok lv := by
    unfold getLevel
    rw [hlv]
  obtain ⟨c, hchain⟩ := chain_from_head hc hlv
  have hfuel : c.length < fuelOf s := Nat.lt_succ_of_le (isChainFrom_length_le hchain)
  have hfind := findGt_spec (k := k) hchain hfuel
  have hchl : ∀ i ∈ c, ∃ n : NodeR K V, s.nodes[i]? = some n ∧ n.lvl = j := by
    refine chain_lvl hc hchain ?_
    intro t ht
    exact hc.headT j lv t hlv ht
  cases hfq : c.find? (fun i => match s.nodes[i]? with
      | some n => decide (k < n.key)
      | none => false) with
  | some g =>
    rw [hfq] at hfind
    have hgc : g ∈ c := List.mem_of_find?_eq_some hfq
    obtain ⟨gn, hgn0, hglvl⟩ := hchl g hgc
    have hgn : getNode s g = .ok gn := by
      unfold getNode
      rw [hgn0]
    refine ⟨upgradeW s gn.left, ?_, ?_⟩
    · unfold levelBisect
      rw [hgl, pmBindOk, hfind, pmBindOk]
      dsimp only
      rw [hgn, pmBindOk]
      rfl
    · intro f hf
      obtain ⟨hol, _⟩ := upgradeW_some_inv hf
      rcases hc.leftT g gn f hgn0 hol with ⟨fn, hfn, hflvl⟩
      exact ⟨fn, hfn, by rw [hflvl, hglvl]⟩
  | none =>
    rw [hfq] at hfind
    have hlast := lastOf_spec hchain hfuel none
    rw [Option.or_none] at hlast
    refine ⟨c.getLast?, ?_, ?_⟩
    · unfold levelBisect
      rw [hgl, pmBindOk, hfind, pmBindOk]
      exact hlast
    · intro f hf
      exact hchl f (List.mem_of_mem_getLast? (Option.mem_def.mpr hf))

theorem baLoop_total {s : SL K V} (hc : SafeCore s) (t : K) {L : Nat} :
    ∀ {l : List Nat} {h0 : Option Nat}, IsChainFrom s.nodes h0 l →
      (∀ i ∈ l, ∃ n : NodeR K V, s.nodes[i]? = some n ∧ n.lvl = L) →
      ∀ {fuel : Nat}, l.length < fuel → ∀ prev : Option Nat,
        (∀ q, prev = some q → ∃ qn : NodeR K V, s.nodes[q]? = some qn ∧ qn.lvl = L) →
        ∃ res, baLoop s t fuel h0 prev = .ok res ∧
          (∀ f, res = some f → ∃ n : NodeR K V, s.nodes[f]? = some n ∧ n.lvl = L) := by
  intro l h0 hchain
  induction hchain with
  | nil =>
    intro _ fuel _ prev hprev
    cases fuel with
    | zero => exact ⟨prev, rfl, fun f hf => hprev f hf⟩
    | succ fuel => exact ⟨prev, rfl, fun f hf => hprev f hf⟩
  | @cons i n rest hget hrest ih =>
    intro hlvl fuel hfuel prev hprev
    cases fuel with
    | zero => simp at hfuel
    | succ fuel =>
      have hgn : getNode s i = .ok n := by
        unfold getNode
        rw [hget]
      have hilvl : ∃ m : NodeR K V, s.nodes[i]? = some m ∧ m.lvl = L :=
        hlvl i (List.mem_cons_self _ _)
      by_cases hlt : t < n.key
      · cases hup : upgradeW s n.left with
        | some o =>
          obtain ⟨hol, _⟩ := upgradeW_some_inv hup
          rcases hc.leftT i n o hget hol with ⟨onn, hon, holvl⟩
          refine ⟨some o, ?_, ?_⟩
          · show baLoop s t (fuel + 1) (some i) prev = .ok (some o)
            unfold baLoop
            rw [hgn, pmBindOk]
            rw [if_pos hlt, hup]
            rfl
          · intro f hf
            cases Option.some.inj hf
            refine ⟨onn, hon, ?_⟩
            rcases hilvl with ⟨m, hm, hml⟩
            rw [hget] at hm
            cases Option.some.inj hm
            rw [holvl, hml]
        | none =>
          refine ⟨some i, ?_, ?_⟩
          · show baLoop s t (fuel + 1) (some i) prev = .ok (some i)
            unfold baLoop
            rw [hgn, pmBindOk]
            rw [if_pos hlt, hup]
            rfl
          · intro f hf
            cases Option.some.inj hf
            exact hilvl
      · obtain ⟨res, hres, hresl⟩ := ih (fun x hx => hlvl x (List.mem_cons_of_mem _ hx))
          (by simpa using hfuel) (some i) (fun q hq => by
            cases Option.some.inj hq
            exact hilvl)
        refine ⟨res, ?_, hresl⟩
        show baLoop s t (fuel + 1) (some i) prev = .ok res
        unfold baLoop
        rw [hgn, pmBindOk]
        rw [if_neg hlt]
        exact hres

theorem bisectAfter_safe {s : SL K V} (hc : SafeCore s) {after : Nat} {an : NodeR K V}
    (han : s.nodes[after]? = some an) (t : K) :
    ∃ res, bisectAfter s after t = .ok res ∧
      (∀ f, res = some f → ∃ n : NodeR K V, s.nodes[f]? = some n ∧ n.lvl = an.lvl) := by
  have hgn : getNode s after = .ok an := by
    unfold getNode
    rw [han]
  by_cases hlt : t < an.key
  · refine ⟨none, ?_, fun f hf => by cases hf⟩
    unfold bisectAfter
    rw [hgn, pmBindOk]
    rw [if_pos hlt]
    rfl
  · obtain ⟨c, hchain⟩ := chain_from_start hc after an han
    have hfuel : c.length < fuelOf s := Nat.lt_succ_of_le (isChainFrom_length_le hchain)
    have hchl : ∀ i ∈ c, ∃ n : NodeR K V, s.nodes[i]? = some n ∧ n.lvl = an.lvl := by
      refine chain_lvl hc hchain ?_
      intro q hq
      cases Option.some.inj hq
      exact ⟨an, han, rfl⟩
    obtain ⟨res, hres, hresl⟩ := baLoop_total hc t hchain hchl hfuel
      (upgradeW s an.left) (fun q hq => by
        obtain ⟨hql, _⟩ := upgradeW_some_inv hq
        rcases hc.leftT after an q han hql with ⟨qn, hqn, hqlvl⟩
        exact ⟨qn, hqn, hqlvl⟩)
    refine ⟨res, ?_, hresl⟩
    unfold bisectAfter
    rw [hgn, pmBindOk]
    rw [if_neg hlt]
    exact hres

theorem getLoop_safe {s : SL K V} (hc : SafeCore s) (hd : DownAll s) (k : K) :
    ∀ (fuel : Nat) (mp : Option Nat),
      (∀ i, mp = some i → ∃ n : NodeR K V, s.nodes[i]? = some n ∧ n.lvl = fuel) →
      ∃ res, getLoop s k fuel mp = .ok res ∧
        (∀ f, res = some f → ∃ n : NodeR K V, s.nodes[f]? = some n) := by
  intro fuel
  induction fuel with
  | zero =>
    intro mp hmp
    refine ⟨mp, rfl, ?_⟩
    intro f hf
    rcases hmp f hf with ⟨n, hn, _⟩
    exact ⟨n, hn⟩
  | succ fuel ih =>
    intro mp hmp
    cases mp with
    | none => exact ⟨none, rfl, fun f hf => by cases hf⟩
    | some prevId =>
      rcases hmp prevId rfl with ⟨pn, hpn, hplvl⟩
      have hgn : getNode s prevId = .ok pn := by
        unfold getNode
        rw [hpn]
      have hds : pn.down.isSome := hd prevId pn hpn (by omega)
      obtain ⟨after, hafter⟩ := Option.isSome_iff_exists.mp hds
      rcases hc.downT prevId pn after hpn hafter with ⟨an, han, hanl, _⟩
      obtain ⟨res1, hres1, hres1l⟩ := bisectAfter_safe hc han k
      obtain ⟨res2, hres2, hres2l⟩ := ih res1 (fun i hi => by
        rcases hres1l i hi with ⟨n, hn, hnl⟩
        refine ⟨n, hn, ?_⟩
        rw [hnl]
        omega)
      refine ⟨res2, ?_, hres2l⟩
      show getLoop s k (fuel + 1) (some prevId) = .ok res2
      unfold getLoop
      dsimp only
      rw [hgn, pmBindOk]
      rw [hafter]
      dsimp only
      rw [hres1, pmBindOk]
      exact hres2

theorem slGet_safe {s : SL K V} (hs : SafeInv s) (k : K) :
    ∃ res, slGet s k = .ok res := by
  have h0 : 0 < s.levels.length :=
    Nat.pos_of_ne_zero (fun h => hs.1.levelsNe (List.length_eq_zero.mp h))
  obtain ⟨mp0, hbi, hbil⟩ := levelBisect_safe hs (s.levels.length - 1) k (by omega)
  obtain ⟨mpF, hloop, hloopl⟩ := getLoop_safe hs.1 hs.2 k (s.levels.length - 1) mp0 hbil
  cases mpF with
  | none =>
    refine ⟨none, ?_⟩
    unfold slGet
    dsimp only
    rw [hbi, pmBindOk, hloop, pmBindOk]
    rfl
  | some f =>
    rcases hloopl f rfl with ⟨fn, hfn⟩
    have hgn : getNode s f = .ok fn := by
      unfold getNode
      rw [hfn]
    refine ⟨(if fn.key = k then some fn.value else none), ?_⟩
    unfold slGet
    dsimp only
    rw [hbi, pmBindOk, hloop, pmBindOk]
    dsimp only
    rw [hgn, pmBindOk]
    rfl

theorem slCollect_safe {s : SL K V} (hs : SafeInv s) :
    ∃ res, slCollect s = .ok res := by
  obtain ⟨hc, hd⟩ := hs
  have h0 : 0 < s.levels.length :=
    Nat.pos_of_ne_zero (fun h => hc.levelsNe (List.length_eq_zero.mp h))
  obtain ⟨lv0, hlv0⟩ : ∃ lv0 : LevelR, s.levels[0]? = some lv0 :=
    ⟨_, List.getElem?_eq_getElem h0⟩
  have hgl0 : getLevel s 0 = .ok lv0 := by
    unfold getLevel
    rw [hlv0]
  obtain ⟨c, hchain⟩ := chain_from_head hc hlv0
  have hfuel : c.length < fuelOf s := Nat.lt_succ_of_le (isChainFrom_length_le hchain)
  have hcf : chainFrom s.nodes (fuelOf s) lv0.head = some c :=
    isChainFrom_chainFrom hchain hfuel
  have hval : ∀ i ∈ c, i < s.nodes.length := isChainFrom_valid hchain
  have hmap : ∀ l : List Nat, (∀ i ∈ l, ∃ n : NodeR K V, s.nodes[i]? = some n) →
      ∃ out : List (K × V), (l.mapM (fun i => do
        let n ← getNode s i
        pure (n.key, n.value)) : PM (List (K × V))) = .ok out := by
    intro l
    induction l with
    | nil =>
      intro _
      exact ⟨[], rfl⟩
    | cons x xs ih =>
      intro hall
      rcases hall x (List.mem_cons_self _ _) with ⟨n, hn⟩
      have hgn : getNode s x = .ok n := by
        unfold getNode
        rw [hn]
      obtain ⟨out, hout⟩ := ih (fun i hi => hall i (List.mem_cons_of_mem _ hi))
      refine ⟨(n.key, n.value) :: out, ?_⟩
      rw [List.mapM_cons]
      rw [hgn, hout]
      rfl
  obtain ⟨out, hout⟩ := hmap c (fun i hi => ⟨_, List.getElem?_eq_getElem (hval i hi)⟩)
  refine ⟨out, ?_⟩
  unfold slCollect
  rw [hgl0, pmBindOk]
  rw [hcf]
  exact hout

/-! ### Safety of whole runs -/

theorem runOp_safe {s : SL K V} (hs : SafeInv s) (op : Op K V) :
    SafeOutcome (runOp s op) ∧ ∀ s' : SL K V, runOp s op = .ok s' → SafeInv s' := by
  cases op with
  | ins k v flips =>
    obtain ⟨out, heq, hout⟩ := slInsert_safe hs k v flips
    constructor
    · show SafeOutcome ((slInsert s k v flips).map Prod.fst)
      rw [heq]
      exact trivial
    · intro s' hs'
      show SafeInv s'
      have hs2 : (slInsert s k v flips).map Prod.fst = .ok s' := hs'
      rw [heq] at hs2
      have h2 : out.1 = s' := Except.ok.inj hs2
      rw [← h2]
      exact hout
  | del k =>
    rcases slDelete_safe hs k with h1 | ⟨s1, h1, hs1⟩
    · constructor
      · show SafeOutcome (slDelete s k)
        rw [h1]
        exact trivial
      · intro s' hs'
        have hs2 : slDelete s k = .ok s' := hs'
        rw [h1] at hs2
        cases hs2
    · constructor
      · show SafeOutcome (slDelete s k)
        rw [h1]
        exact trivial
      · intro s' hs'
        have hs2 : slDelete s k = .ok s' := hs'
        rw [h1] at hs2
        cases Except.ok.inj hs2
        exact hs1
  | getq k =>
    obtain ⟨res, heq⟩ := slGet_safe hs k
    constructor
    · show SafeOutcome ((slGet s k).map (fun _ => s))
      rw [heq]
      exact trivial
    · intro s' hs'
      have hs2 : (slGet s k).map (fun _ => s) = .ok s' := hs'
      rw [heq] at hs2
      cases Except.ok.inj hs2
      exact hs
  | collectq =>
    obtain ⟨res, heq⟩ := slCollect_safe hs
    constructor
    · show SafeOutcome ((slCollect s).map (fun _ => s))
      rw [heq]
      exact trivial
    · intro s' hs'
      have hs2 : (slCollect s).map (fun _ => s) = .ok s' := hs'
      rw [heq] at hs2
      cases Except.ok.inj hs2
      exact hs

theorem runOps_foldl_safe : ∀ (ops : List (Op K V)) (s : SL K V), SafeInv s →
    SafeOutcome (ops.foldlM runOp s) ∧
    ∀ s' : SL K V, ops.foldlM runOp s = .ok s' → SafeInv s' := by
  intro ops
  induction ops with
  | nil =>
    intro s hs
    constructor
    · exact trivial
    · intro s' hs'
      cases Except.ok.inj hs'
      exact hs
  | cons op rest ih =>
    intro s hs
    obtain ⟨h1, h2⟩ := runOp_safe hs op
    rw [List.foldlM_cons]
    cases hop : runOp s op with
    | error e =>
      rw [hop] at h1
      constructor
      · show SafeOutcome ((Except.error e : PM (SL K V)) >>=
          fun s1 => rest.foldlM runOp s1)
        exact h1
      · intro s' hs'
        have hs2 : (Except.error e : PM (SL K V)) = .ok s' := hs'
        cases hs2
    | ok s1 =>
      have hs1 : SafeInv s1 := h2 s1 hop
      obtain ⟨h3, h4⟩ := ih s1 hs1
      constructor
      · show SafeOutcome ((Except.ok s1 : PM (SL K V)) >>=
          fun x => rest.foldlM runOp x)
        rw [pmBindOk]
        exact h3
      · intro s' hs'
        have hs2 : (Except.ok s1 : PM (SL K V)) >>=
            (fun x => rest.foldlM runOp x) = .ok s' := hs'
        rw [pmBindOk] at hs2
        exact h4 s' hs2

theorem runOps_safeInv {ops : List (Op K V)} {s : SL K V}
    (hrun : runOps ops = .ok s) : SafeInv s :=
  (runOps_foldl_safe ops slNew safeInv_slNew).2 s hrun

/-- Claim C6 (amended): no run of the public interface from `SkipList::new`
reaches an unwrap, out-of-bounds, borrow or non-termination panic — every
operation either completes or stops at the `usize` size-counter underflow
in `Level::delete` exhibited by `c6_counterexample`.  The original claim
(total freedom from panics) is refuted by that counterexample; this
theorem is the strongest true form. -/
theorem c6_no_panics (ops : List (Op K V)) : SafeOutcome (runOps ops) :=
  (runOps_foldl_safe ops slNew safeInv_slNew).1

/-- Claim C5 (amended): in every state reachable from `SkipList::new`,
a node's `down` link resolves to a node whose level is exactly one lower
and whose key is equal.  The spec's additional claim that the target is
a *member of level `i - 1`* is refuted by `c5_counterexample`: a delete
can remove the target from the lower level while the `Rc` keeps it in
the arena, so the structural part proved here is the strongest true
form. -/
theorem c5_down_resolves {ops : List (Op K V)} {s : SL K V}
    (hrun : runOps ops = .ok s) :
    ∀ (i : Nat) (n : NodeR K V) (t : Nat), s.nodes[i]? = some n → n.down = some t →
      ∃ m : NodeR K V, s.nodes[t]? = some m ∧ m.key = n.key ∧ m.lvl + 1 = n.lvl := by
  have hs := runOps_safeInv hrun
  intro i n t hget hdt
  rcases hs.1.downT i n t hget hdt with ⟨m, hm, hml, hmk⟩
  exact ⟨m, hm, hmk, hml⟩

/-- Witness for C5 (amended): after inserting keys 1 and 2 with one
promoting coin flip, the level-1 copy of key 2 (node 3) has `down`
pointing at the level-0 node 1 with the same key one level below. -/
theorem c5_down_witness :
    runOps [Op.ins 1 10 [], Op.ins 2 20 [true]] = .ok (SL.mk 2
      [LevelR.mk 2 (some 0), LevelR.mk 2 (some 2)]
      [NodeR.mk 1 10 (some 1) none none (some 2) 0,
       NodeR.mk 2 20 none none (some 0) (some 3) 0,
       NodeR.mk 1 10 (some 3) (some 0) none none 1,
       NodeR.mk 2 20 none (some 1) (some 2) none 1]) ∧
    ∃ m : NodeR Nat Nat, (SL.mk 2
      [LevelR.mk 2 (some 0), LevelR.mk 2 (some 2)]
      [NodeR.mk (1 : Nat) (10 : Nat) (some 1) none none (some 2) 0,
       NodeR.mk 2 20 none none (some 0) (some 3) 0,
       NodeR.mk 1 10 (some 3) (some 0) none none 1,
       NodeR.mk 2 20 none (some 1) (some 2) none 1]).nodes[1]? = some m ∧
      m.key = (NodeR.mk (2 : Nat) (20 : Nat) none (some 1) (some 2) none 1).key ∧
      m.lvl + 1 = (NodeR.mk (2 : Nat) (20 : Nat) none (some 1) (some 2) none 1).lvl :=
  ⟨by decide, c5_down_resolves (show runOps [Op.ins 1 10 [], Op.ins 2 20 [true]] =
      .ok (SL.mk 2 [LevelR.mk 2 (some 0), LevelR.mk 2 (some 2)]
        [NodeR.mk 1 10 (some 1) none none (some 2) 0,
         NodeR.mk 2 20 none none (some 0) (some 3) 0,
         NodeR.mk 1 10 (some 3) (some 0) none none 1,
         NodeR.mk 2 20 none (some 1) (some 2) none 1]) by decide)
    3 (NodeR.mk 2 20 none (some 1) (some 2) none 1) 1 (by decide) (by decide)⟩

/-- Claim C1: evaluation of the code at the failing input.  In
`traceLostGet` the key 3 is inserted once and never deleted (it is still
the sole level-0 element, as `collect` shows), yet `get(3)` returns
`None`: the two `delete` calls emptied level 1 entirely, so the
top-level `bisect` returns `None`, and the code concludes — wrongly —
that the key cannot be present. -/
theorem c1_get_misses_present_key :
    (runOps traceLostGet).bind slCollect = .ok [(3, 3)] ∧
    (runOps traceLostGet).bind (fun s => slGet s 3) = .ok none ∧
    traceLostGet.count (.del 3) = 0 := by decide

/-- Claim C2: evaluation of the code at the failing input.  In
`traceSevered` the pair (3, 30) is inserted exactly once and key 3 is
never deleted, yet `collect()` returns only `[(1, 11)]`: the second
`delete(1)` found the level-0 head but its stale `left` weak link still
upgraded (the removed previous head is kept alive by a level-1 `down`
reference), so the interior-splice branch ran on the head and severed
the rest of the level-0 chain. -/
theorem c2_collect_loses_entry :
    (runOps traceSevered).bind slCollect = .ok [(1, 11)] ∧
    traceSevered.count (.ins 3 30 []) = 1 ∧
    traceSevered.count (.del 3) = 0 := by decide

/-- Claim C3: evaluation of the code at the failing input.  After
`traceSevered` the tracked `size` is 2 but `collect()` has exactly one
element (same corruption as in the C2 evaluation: the severed chain
loses nodes that the per-level size counter still counts). -/
theorem c3_size_mismatch :
    (runOps traceSevered).map SL.size = .ok 2 ∧
    ((runOps traceSevered).bind slCollect).map List.length = .ok 1 := by decide

/-- Claim C4: counterexample to the claim as stated.  Inserting a
duplicate of the current minimum key takes the unconditional upward
propagation branch (`slInsert` returns `true`) although the node the
level-0 `Level::insert` created (index 1) did **not** become the level-0
head (the head is still index 0): the code only compares the head's key
with the inserted key, which also matches when the new node was placed
*after* an equal-key head. -/
theorem c4_counterexample :
    (runOps traceOneMin).bind (fun s => (slInsert s 1 11 []).map Prod.snd) = .ok true ∧
    (runOps traceOneMin).bind (fun s => (levelInsert s 0 1 11).map Prod.snd) = .ok 1 ∧
    (runOps traceOneMin).bind (fun s =>
      (slInsert s 1 11 []).map (fun r => (r.1.levels[0]?).map LevelR.head)) =
      .ok (some (some 0)) := by decide

/-- Claim C5: counterexample to the claim as stated.  After
`traceDangling`, level 1's chain is `[5, 3]` and node 5 has
`down = some 0`, but node 0 is no longer present in level 0 (its chain
is `[4, 1]`): `delete(1)` removed the leftmost key-1 node independently
at each level, and the level-1 duplicate's `down` link — which was wired
to the level-0 *head* rather than to its own level-0 copy — now resolves
to a node outside the level below.  (The key of node 0 is still equal,
which is the amended invariant.) -/
theorem c5_counterexample :
    (runOps traceDangling).map (fun s =>
      (chainOf s 0, chainOf s 1, (s.nodes[5]?).map NodeR.down)) =
      .ok (some [4, 1], some [5, 3], some (some 0)) ∧
    (0 : Nat) ∉ [4, 1] := by decide

/-- Claim C6: counterexample to the claim as stated.  `traceUnderflow`
drives `SkipList::delete` into `self.size -= 1` with `size == 0` on
level 0 (the corrupted chain keeps its last node findable while the
counter drains), which is a `usize` underflow — a panic in a debug
build.  So not every reachable state lets every operation complete
without panicking. -/
theorem c6_counterexample :
    runOps traceUnderflow = .error .underflow := by decide

/-- Claim C9: counterexample to the claim as stated.  On a level with a
single node (size 1), `Level::insert_after` splices in a second
reachable node but never increments `size`: afterwards the forward
traversal from the head has length 2 while `size` is still 1, so
`insert_after` does not preserve the size invariant. -/
theorem c9_counterexample :
    (runLOps lopsOne).bind (fun s => (levelInsertAfter s 0 2 2 0).map (fun r =>
      ((chainOf r.1 0).map List.length, (r.1.levels[0]?).map LevelR.size))) =
      .ok (some 2, some 1) := by decide

/-- Claim C10: a newly constructed `SkipList` has size 0 and exactly one
empty level; on it `get` returns `None` for every key, `delete` is a
no-op returning the unchanged structure, and `collect` returns the empty
sequence — none of these panics. -/
theorem c10_empty_list {K V : Type} [LinearOrder K] (k : K) :
    (slNew : SL K V).size = 0 ∧
    (slNew : SL K V).levels = [{ size := 0, head := none }] ∧
    slGet (slNew : SL K V) k = .ok none ∧
    slDelete (slNew : SL K V) k = .ok slNew ∧
    slCollect (slNew : SL K V) = .ok [] := by
  refine ⟨rfl, rfl, rfl, ?_, rfl⟩
  rfl

end Subway
